import Mathlib

/-!
# An explicit-free-list allocator (`mm.c`)

A shallow embedding of the allocator of `src/mm.c`: boundary-tag blocks, an
intrusive doubly linked free list with LIFO insertion, first-fit placement,
splitting and immediate coalescing.

Addresses, sizes and tag words are natural numbers below `2 ^ 64`; every
`size_t` and pointer computation of the source is reduced modulo `2 ^ 64`.
Memory is a map from the byte address of a word to the word stored there.
All accesses of the allocator are word accesses at addresses congruent to
the arena start modulo 8, so distinct keys are distinct words.

The map is total: a load or a store at any address succeeds, also outside
the arena, where the program can fault. The embedding agrees with the
program on every run that does not fault. All accesses stay inside the arena
on well-formed heaps for `mm_malloc` of at most `2 ^ 62` bytes, for `mm_free`
of an allocated pointer and for `extend_heap` of more than 16 bytes. Outside
these bounds a definition can return a state where the program faults (for
instance `mm_malloc` of `2 ^ 64 - 15` bytes, or `extend_heap` of 8 bytes
after a free last block). Where a theorem for a claim leaves these bounds,
it evaluates a run whose accesses stay inside the arena (C3), is conditional
on a returned result (C4), or exhibits the stores that leave the arena
(C15).
-/

namespace Malloc

/-! ## Machine words -/

/-- Number of values of a 64-bit word: `word_t`, `size_t` and pointers. -/
def W : Nat := 2 ^ 64

/-- Pointer plus byte offset, on a 64-bit machine. -/
def ptr_add (p n : Nat) : Nat := (p + n) % W

/-- Pointer minus byte offset, on a 64-bit machine. -/
def ptr_sub (p n : Nat) : Nat := (p + (W - n % W)) % W

/-- Unsigned 64-bit subtraction of sizes. -/
def sub64 (a b : Nat) : Nat := (a + (W - b % W)) % W

/-! ## Constants of `mm.c` -/

/-- Word and header size in bytes: `sizeof(word_t)`. -/
def wsize : Nat := 8

/-- Double word size in bytes. -/
def dsize : Nat := 2 * 8

/-- Minimum usable block size in bytes. -/
def min_block_size : Nat := 4 * 8

/-- Initial heap size in bytes. -/
def chunksize : Nat := 1 <<< 12

/-- Mask to extract the allocated bit from a header. -/
def alloc_mask : Nat := 0x1

/-- The mask `~(word_t) 0xF` that keeps the size bits of a header. -/
def size_mask : Nat := 0xFFFFFFFFFFFFFFF0

/-! ## Boundary-tag codec and arithmetic helpers -/

/-- The function `round_up`: rounds `size` up to the next multiple of `n`. -/
def round_up (size n : Nat) : Nat := (n * (((size + (n - 1)) % W) / n)) % W

/-- The function `pack`: a tag word for a size and an allocation flag. -/
def pack (size : Nat) (alloc : Bool) : Nat :=
  if alloc then size ||| alloc_mask else size

/-- The function `extract_size`: the size recorded in a tag word. -/
def extract_size (word : Nat) : Nat := word &&& size_mask

/-- The function `extract_alloc`: the allocation flag of a tag word. -/
def extract_alloc (word : Nat) : Bool := (word &&& alloc_mask) != 0

/-! ## Memory and allocator state -/

/-- Memory after storing the word `v` at address `a`. -/
def write (m : Nat → Nat) (a v : Nat) : Nat → Nat :=
  fun x => if x = a then v else m x

/-- The state of the allocator and of the arena it manages.
`mem_start_brk` and `mem_brk` are the bounds kept by the growth provider
(`mem_heap_lo()` and one past `mem_heap_hi()`); `heap_start` and
`free_list_head` are the two globals of `mm.c`. The null pointer is `0`. -/
structure Heap where
  mem : Nat → Nat
  mem_start_brk : Nat
  mem_brk : Nat
  heap_start : Nat
  free_list_head : Nat

/-- Store one word. -/
def Heap.store (h : Heap) (a v : Nat) : Heap :=
  { h with mem := write h.mem a v }

/-- Modelled from the spec: the growth provider `mem_sbrk` of `memlib`, which
is not part of the sources. `grow(extraBytes)` extends the arena upward by
`extraBytes` and returns the address of the first new byte, or the failure
sentinel `(void *) -1`. The provider is free to refuse (`grant = false`), and
it can only grant bytes that lie inside the 64-bit address space. -/
def mem_sbrk (h : Heap) (incr : Nat) (grant : Bool) : Heap × Nat :=
  if grant = true ∧ h.mem_brk + incr < W - 1 then
    ({ h with mem_brk := h.mem_brk + incr }, h.mem_brk)
  else (h, W - 1)

/-- Modelled from the spec: `mem_heap_hi`, the address of the last byte of
the arena. -/
def mem_heap_hi (h : Heap) : Nat := h.mem_brk - 1

/-- The function `get_size`. -/
def get_size (h : Heap) (block : Nat) : Nat := extract_size (h.mem block)

/-- The function `get_alloc`. -/
def get_alloc (h : Heap) (block : Nat) : Bool := extract_alloc (h.mem block)

/-- The function `write_header`. -/
def write_header (h : Heap) (block size : Nat) (alloc : Bool) : Heap :=
  h.store block (pack size alloc)

/-- The function `header_to_payload`: the payload starts one word after the
header. -/
def header_to_payload (block : Nat) : Nat := ptr_add block 8

/-- The function `payload_to_header`. -/
def payload_to_header (bp : Nat) : Nat := ptr_sub bp 8

/-- The function `header_to_footer`:
`payload.data + get_size(block) - dsize`. -/
def header_to_footer (h : Heap) (block : Nat) : Nat :=
  ptr_sub (ptr_add (header_to_payload block) (get_size h block)) dsize

/-- The function `write_footer`: the footer position is computed from the
size found in the header. -/
def write_footer (h : Heap) (block size : Nat) (alloc : Bool) : Heap :=
  h.store (header_to_footer h block) (pack size alloc)

/-- The function `find_next`. -/
def find_next (h : Heap) (block : Nat) : Nat := ptr_add block (get_size h block)

/-- The function `find_prev_footer`: one word before the header. -/
def find_prev_footer (block : Nat) : Nat := ptr_sub block wsize

/-- The function `find_prev`. -/
def find_prev (h : Heap) (block : Nat) : Nat :=
  ptr_sub block (extract_size (h.mem (find_prev_footer block)))

/-- The field `payload.links.prev` of a block. -/
def get_prev (h : Heap) (block : Nat) : Nat := h.mem (ptr_add block 8)

/-- The field `payload.links.next` of a block. -/
def get_next (h : Heap) (block : Nat) : Nat := h.mem (ptr_add block 16)

/-- Assignment to `payload.links.prev`. -/
def set_prev (h : Heap) (block v : Nat) : Heap := h.store (ptr_add block 8) v

/-- Assignment to `payload.links.next`. -/
def set_next (h : Heap) (block v : Nat) : Heap := h.store (ptr_add block 16) v

/-! ## Free list -/

/-- The function `insert_block`: insert at the head of the free list. -/
def insert_block (h : Heap) (free_block : Nat) : Heap :=
  if h.free_list_head = 0 then
    let h1 : Heap := { h with free_list_head := free_block }
    let h2 := set_next h1 h1.free_list_head 0
    set_prev h2 h2.free_list_head 0
  else
    let h1 := set_next h free_block h.free_list_head
    let h2 := set_prev h1 free_block 0
    let h3 := set_prev h2 h2.free_list_head free_block
    { h3 with free_list_head := free_block }

/-- The function `remove_block`: splice a block out of the free list. -/
def remove_block (h : Heap) (free_block : Nat) : Heap :=
  if get_prev h free_block = 0 then
    if get_next h free_block = 0 then
      { h with free_list_head := 0 }
    else
      let next_block := get_next h free_block
      let h1 := set_prev h next_block 0
      { h1 with free_list_head := next_block }
  else if get_next h free_block = 0 ∧ get_prev h free_block ≠ 0 then
    let prev_block := get_prev h free_block
    set_next h prev_block 0
  else if get_next h free_block ≠ 0 ∧ get_prev h free_block ≠ 0 then
    let prev_block := get_prev h free_block
    let next_block := get_next h free_block
    let h1 := set_next h prev_block next_block
    set_prev h1 next_block prev_block
  else h

/-- The loop of `find_fit`. The source loop has no bound; `none` stands for a
search that does not end within `fuel` iterations, and `some 0` for the
`NULL` result. -/
def find_fit_loop (h : Heap) (asize : Nat) : Nat → Nat → Option Nat
  | 0, _ => none
  | fuel + 1, curr =>
    if curr = 0 then some 0
    else if get_size h curr ≥ asize then some curr
    else find_fit_loop h asize fuel (get_next h curr)

/-- The function `find_fit`: first fit over the free list. The fuel is one
more than the number of bytes of the arena: a chain of free-list nodes inside
the arena that is longer than that repeats a node, and then the source loop
never ends. -/
def find_fit (h : Heap) (asize : Nat) : Option Nat :=
  find_fit_loop h asize (h.mem_brk - h.mem_start_brk + 1) h.free_list_head

/-! ## Allocator core -/

/-- The function `coalesce_block`: merge with the next block, then with the
previous one, when they are free. Returns the state and the merged block. -/
def coalesce_block (h : Heap) (block : Nat) : Heap × Nat :=
  let prev_block := find_prev h block
  let next_block := find_next h block
  let combined_block := get_size h block
  let r1 : Heap × Nat :=
    if get_alloc h next_block = false then
      let c := (combined_block + get_size h next_block) % W
      let h1 := write_header h block c false
      let h2 := write_footer h1 block c false
      (remove_block h2 next_block, c)
    else (h, combined_block)
  if extract_alloc (r1.1.mem (find_prev_footer block)) = false then
    let c := (r1.2 + get_size r1.1 prev_block) % W
    let h1 := write_header r1.1 prev_block c false
    let h2 := write_footer h1 prev_block c false
    (remove_block h2 block, prev_block)
  else (r1.1, block)

/-- The function `split_block`. -/
def split_block (h : Heap) (block asize : Nat) : Heap :=
  if sub64 (get_size h block) asize ≥ min_block_size then
    let next_block_size := sub64 (get_size h block) asize
    let h1 := write_header h block asize true
    let h2 := write_footer h1 block asize true
    let h3 := write_header h2 (find_next h2 block) next_block_size false
    let h4 := write_footer h3 (find_next h3 block) next_block_size false
    let h5 := insert_block h4 (find_next h4 block)
    (coalesce_block h5 (find_next h5 block)).1
  else h

/-- The function `extend_heap`. Returns the state and the block, `0` for
`NULL`. A request of at most 16 bytes makes a block of 16 bytes, whose link
fields share the words of its footer and of the new epilogue header; after a
free last block `remove_block` then stores through these words, where the
program faults and this definition returns. -/
def extend_heap (h : Heap) (size : Nat) (grant : Bool) : Heap × Nat :=
  let size := round_up size dsize
  let r := mem_sbrk h size grant
  if r.2 = W - 1 then (r.1, 0)
  else
    let bp := find_prev_footer r.2
    let h1 := write_header r.1 bp size false
    let h2 := write_footer h1 bp size false
    let h3 := insert_block h2 bp
    let bp_next := find_next h3 bp
    let h4 := write_header h3 bp_next 0 true
    coalesce_block h4 bp

/-- The function `mm_init`. Returns the state and the status `0` or `-1`. -/
def mm_init (h : Heap) (grant1 grant2 : Bool) : Heap × Int :=
  let r := mem_sbrk h (2 * wsize) grant1
  if r.2 = W - 1 then (r.1, -1)
  else
    let start := r.2
    let h1 := r.1.store start (pack 0 true)
    let h2 := h1.store (ptr_add start wsize) (pack 0 true)
    let h3 : Heap := { h2 with heap_start := ptr_add start wsize }
    let e := extend_heap h3 chunksize grant2
    if e.2 = 0 then (e.1, -1)
    else
      let h4 : Heap := { e.1 with free_list_head := e.2 }
      let h5 := set_prev h4 h4.free_list_head 0
      let h6 := set_next h5 h5.free_list_head 0
      (h6, 0)

/-- The adjusted block size computed at the start of `mm_malloc`. -/
def adjusted_size (size : Nat) : Nat :=
  if size ≤ dsize then min_block_size else round_up ((size + dsize) % W) dsize

/-- The function `mm_malloc`. Returns the state and the payload pointer, `0`
for `NULL`; `none` when the free-list search does not end. For sizes whose
adjusted size wraps modulo `2 ^ 64` the placement can leave the arena; there
the program can fault where this definition returns. -/
def mm_malloc (h : Heap) (size : Nat) (grant : Bool) : Option (Heap × Nat) :=
  if size = 0 then some (h, 0)
  else
    let asize := adjusted_size size
    match find_fit h asize with
    | none => none
    | some fit =>
      let r : Heap × Nat :=
        if fit = 0 then extend_heap h ((asize * 2) % W) grant else (h, fit)
      let bp := r.2
      if bp = 0 then some (r.1, 0)
      else
        let h1 := write_header r.1 bp (get_size r.1 bp) true
        let h2 := write_footer h1 bp (get_size h1 bp) true
        let h3 := split_block h2 bp asize
        let h4 := remove_block h3 bp
        some (h4, header_to_payload bp)

/-- The function `mm_free`. -/
def mm_free (h : Heap) (bp : Nat) : Heap :=
  if bp = 0 then h
  else
    let block := payload_to_header bp
    let bpAlloc := get_alloc h block
    let bpSize := get_size h block
    if bpAlloc = false then h
    else
      let h1 := write_header h block bpSize false
      let h2 := write_footer h1 block bpSize false
      let h3 := insert_block h2 block
      (coalesce_block h3 block).1

/-- The state before `mm_init`: an empty arena at address `base`, both
globals null, memory contents `m`. -/
def fresh (base : Nat) (m : Nat → Nat) : Heap :=
  { mem := m, mem_start_brk := base, mem_brk := base,
    heap_start := 0, free_list_head := 0 }

/-! ## Diagnostics -/

/-- The loop of `examine_heap`, returning the blocks it prints: address, size
and allocation flag of every block from `block` up to the first header of
size zero. -/
def examine_loop (h : Heap) : Nat → Nat → List (Nat × Nat × Bool)
  | 0, _ => []
  | fuel + 1, block =>
    if get_size h block > 0 ∧ block < mem_heap_hi h then
      (block, get_size h block, get_alloc h block) ::
        examine_loop h fuel (find_next h block)
    else []

/-- The function `examine_heap`: the arena walked in address order as an
implicit list, from `heap_start`. Every step moves forward by at least 16
bytes, so the fuel (one more than the arena size) is never used up on a walk
that stays inside the arena. -/
def examine_heap (h : Heap) : List (Nat × Nat × Bool) :=
  examine_loop h (h.mem_brk - h.mem_start_brk + 1) h.heap_start

/-- The chain followed from `curr` through the `next` links, as `find_fit`
follows it; `none` when it does not reach `NULL` within `fuel` steps. -/
def free_list_loop (h : Heap) : Nat → Nat → Option (List Nat)
  | 0, _ => none
  | fuel + 1, curr =>
    if curr = 0 then some []
    else (free_list_loop h fuel (get_next h curr)).map (fun l => curr :: l)

/-- The free list: the chain followed from `free_list_head`. -/
def free_list (h : Heap) : Option (List Nat) :=
  free_list_loop h (h.mem_brk - h.mem_start_brk + 1) h.free_list_head

/-! ## Well-formed heaps -/

/-- A block as the invariant sees it: its size and its allocation flag. -/
abbrev Blk := Nat × Bool

/-- Sum of the sizes of a run of blocks. -/
def total : List Blk → Nat
  | [] => 0
  | b :: bs => b.1 + total bs

/-- The words from address `a` on are laid out as the run of blocks `bs`:
each block has a size that is a multiple of 16 and at least 32, and carries
the same tag in its header (first word) and footer (last word). -/
def Blocks (m : Nat → Nat) : Nat → List Blk → Prop
  | _, [] => True
  | a, b :: bs =>
    b.1 % 16 = 0 ∧ 32 ≤ b.1 ∧ m a = pack b.1 b.2 ∧ m (a + b.1 - 8) = pack b.1 b.2 ∧
      Blocks m (a + b.1) bs

/-- Addresses of the blocks of a run that starts at `a`. -/
def addrs : Nat → List Blk → List Nat
  | _, [] => []
  | a, b :: bs => a :: addrs (a + b.1) bs

/-- Addresses of the free blocks of a run that starts at `a`. -/
def freeAddrs : Nat → List Blk → List Nat
  | _, [] => []
  | a, b :: bs =>
    if b.2 = true then freeAddrs (a + b.1) bs else a :: freeAddrs (a + b.1) bs

/-- Addresses of the allocated blocks of a run that starts at `a`. -/
def allocAddrs : Nat → List Blk → List Nat
  | _, [] => []
  | a, b :: bs =>
    if b.2 = true then a :: allocAddrs (a + b.1) bs else allocAddrs (a + b.1) bs

/-- No two consecutive blocks of the run are both free. -/
def NoAdj (bs : List Blk) : Prop :=
  List.Chain' (fun a b : Blk => a.2 = true ∨ b.2 = true) bs

/-- A segment of a doubly linked list: starting at pointer `c`, whose
predecessor is `p`, the nodes `l` are linked in this order by their `next`
fields (at offset 16) and `prev` fields (at offset 8); `q` is the last node
(`p` when `l` is empty) and `e` the `next` pointer that leaves the segment. -/
def Seg (m : Nat → Nat) : Nat → Nat → List Nat → Nat → Nat → Prop
  | p, c, [], q, e => c = e ∧ q = p
  | p, c, x :: l, q, e => c = x ∧ x ≠ 0 ∧ m (x + 8) = p ∧ Seg m x (m (x + 16)) l q e

/-- Two nodes whose blocks do not overlap: their starts are at least one
minimum block apart. -/
def Sep (y z : Nat) : Prop := y + 32 ≤ z ∨ z + 32 ≤ y

/-- The arena of `h` is tiled by the run of blocks `bs`: the prologue footer
is the first word of the arena, the blocks follow from `heap_start` on, and
the epilogue header is the last word of the arena, which lies inside the
64-bit address space. -/
structure Tiled (h : Heap) (bs : List Blk) : Prop where
  start : h.heap_start = h.mem_start_brk + 8
  prologue : h.mem h.mem_start_brk = pack 0 true
  blocks : Blocks h.mem h.heap_start bs
  epilogue : h.mem (h.heap_start + total bs) = pack 0 true
  brk : h.heap_start + total bs + 8 = h.mem_brk
  bound : h.mem_brk < W - 1

/-- The representation invariant: the arena is tiled by the blocks `bs`; the
free list is the doubly linked list `fl`, without repetition, and its nodes
are exactly the free blocks of `bs`. -/
structure Inv (h : Heap) (bs : List Blk) (fl : List Nat) : Prop where
  tiled : Tiled h bs
  chain : ∃ q, Seg h.mem 0 h.free_list_head fl q 0
  nodup : fl.Nodup
  listed : ∀ x, x ∈ fl ↔ x ∈ freeAddrs h.heap_start bs

/-- A well-formed heap: the representation invariant holds for some run of
blocks in which no two neighbours are both free. -/
def WF (h : Heap) : Prop := ∃ bs fl, Inv h bs fl ∧ NoAdj bs

/-- Heap states reached from a successful `mm_init` by calls of `mm_malloc`
with sizes at most `2 ^ 62` and calls of `mm_free` on null or on a pointer
that `mm_malloc` returned and that was not freed since. The list holds the
pointers that are currently allocated. -/
inductive Reachable : Heap → List Nat → Prop
  | init (base : Nat) (m : Nat → Nat) (g1 g2 : Bool) :
      (mm_init (fresh base m) g1 g2).2 = 0 →
      Reachable (mm_init (fresh base m) g1 g2).1 []
  | malloc (h : Heap) (live : List Nat) (size : Nat) (grant : Bool) (h2 : Heap) (p : Nat) :
      Reachable h live → size ≤ 2 ^ 62 → mm_malloc h size grant = some (h2, p) →
      Reachable h2 (if p = 0 then live else p :: live)
  | free (h : Heap) (live : List Nat) (p : Nat) :
      Reachable h live → (p = 0 ∨ p ∈ live) →
      Reachable (mm_free h p) (live.erase p)

/-! ## Definitions used by the proofs and the claims -/

/-- The result of the first-fit search over the list `l`: the first node
whose block has room for `asize` bytes, `0` when there is none. -/
def first_fit (h : Heap) (asize : Nat) (l : List Nat) : Nat :=
  (l.find? (fun y => decide (asize ≤ get_size h y))).getD 0

/-- A state between two steps of an operation: the arena is tiled by `bs`
and the free list is the list `fl` of distinct blocks of `bs`, which need
not be exactly the free ones. -/
structure Pre (h : Heap) (bs : List Blk) (fl : List Nat) : Prop where
  tiled : Tiled h bs
  chain : ∃ q, Seg h.mem 0 h.free_list_head fl q 0
  nodup : fl.Nodup
  nodes : ∀ y ∈ fl, y ∈ addrs h.heap_start bs

/-- The tail of `mm_malloc` once the block `bp` is chosen: mark it allocated,
split it, and take it out of the free list. -/
def place (h : Heap) (bp asize : Nat) : Heap :=
  let h1 := write_header h bp (get_size h bp) true
  let h2 := write_footer h1 bp (get_size h1 bp) true
  let h3 := split_block h2 bp asize
  remove_block h3 bp

/-- The block that `mm_malloc` works on: the result `fit` of the search when
there is one, a block from `extend_heap` otherwise. -/
def choose (h : Heap) (asize fit : Nat) (grant : Bool) : Heap × Nat :=
  if fit = 0 then extend_heap h ((asize * 2) % W) grant else (h, fit)

/-- What holds in every reachable state: the heap is well-formed, and the
pointers handed out and not yet freed are the payload pointers of the
allocated blocks, without repetition. -/
def RInv (h : Heap) (live : List Nat) : Prop :=
  ∃ bs fl, Inv h bs fl ∧ NoAdj bs ∧ live.Nodup ∧
    ∀ p, p ∈ live ↔ ∃ y ∈ allocAddrs h.heap_start bs, p = y + 8

/-- The blocks of a run with their addresses. -/
def layout : Nat → List Blk → List (Nat × Nat × Bool)
  | _, [] => []
  | a, b :: bs => (a, b.1, b.2) :: layout (a + b.1) bs

/-- A pointer that `mm_malloc` handed out and that is still allocated: the
heap is well-formed and the pointer is the payload address of one of its
allocated blocks. -/
def Allocated (h : Heap) (p : Nat) : Prop :=
  ∃ bs fl, Inv h bs fl ∧ NoAdj bs ∧ ∃ x ∈ allocAddrs h.heap_start bs, p = x + 8

/-- The state right after a successful `mm_init` on an empty arena at address
65536 with zeroed memory. -/
def heap0 : Heap := (mm_init (fresh 65536 (fun _ => 0)) true true).1

/-- The state and result of a call of `mm_malloc`; the unchanged state and
null when the search does not end. -/
def malloc_run (h : Heap) (size : Nat) (grant : Bool) : Heap × Nat :=
  (mm_malloc h size grant).getD (h, 0)

/-- The state `heap0` after `mm_malloc(64)`: block `A` of 80 bytes at 65544. -/
def heap1 : Heap := (malloc_run heap0 64 true).1

/-- The state `heap1` after `mm_malloc(100)`: block `B` of 128 bytes at 65624. -/
def heap2 : Heap := (malloc_run heap1 100 true).1

/-- The state `heap2` after `mm_malloc(8)`: block `C` of 32 bytes at 65752. -/
def heap3 : Heap := (malloc_run heap2 8 true).1

/-- The state `heap3` after `mm_malloc(24)`: block `D` of 48 bytes at 65784,
followed by the free remainder of 3808 bytes at 65832. -/
def heap4 : Heap := (malloc_run heap3 24 true).1

/-- The state `heap4` after `mm_free` of the payload of `B`. -/
def heap5 : Heap := mm_free heap4 65632

/-- The state `heap5` after `mm_malloc(64)`, which is placed in `B`. -/
def heap6 : Heap := (malloc_run heap5 64 true).1

/-- The size of a `block_t`: the header word and the two link pointers of the
payload union. -/
def sizeof_block : Nat := 8 + 2 * 8

/-- The loop of `check_heap`. In the loop test `next + 1` is arithmetic on a
`block_t *`, so it is the address one whole `block_t` after `next`. The
source loop has no bound; `none` stands for a walk that does not end within
`fuel` iterations. -/
def check_loop (h : Heap) : Nat → Nat → Option Bool
  | 0, _ => none
  | fuel + 1, curr =>
    let next := find_next h curr
    if ptr_add next sizeof_block < mem_heap_hi h then
      let hdr := h.mem curr
      let ftr := h.mem (find_prev_footer next)
      if hdr ≠ ftr then some false else check_loop h fuel next
    else some true

/-- The function `check_heap`: the consistency checker. Every iteration on an
arena laid out as blocks moves forward by at least 16 bytes, so the fuel (one
more than the arena size) is never used up there. -/
def check_heap (h : Heap) : Option Bool :=
  if h.heap_start = 0 then some false
  else check_loop h (h.mem_brk - h.mem_start_brk + 1) h.heap_start

/-- The words from address `a` on are the headers of a chain of blocks of the
sizes `ss`, each at least 32 bytes; nothing is said about the footers. -/
def Headers (m : Nat → Nat) : Nat → List Nat → Prop
  | _, [] => True
  | a, s :: ss => 32 ≤ s ∧ extract_size (m a) = s ∧ Headers m (a + s) ss

/-- Every block of the chain of sizes `ss` from address `a` on has a footer
word, its last word, equal to its header word. -/
def tags_agree (m : Nat → Nat) : Nat → List Nat → Bool
  | _, [] => true
  | a, s :: ss => (m a == m (a + s - 8)) && tags_agree m (a + s) ss

/-- The state `heap1` after `mm_malloc(4000)`, which takes the whole free
remainder: block `A` of 80 bytes at 65544 and a block of 4016 bytes at 65624,
both allocated, fill the arena. -/
def heap7 : Heap := (malloc_run heap1 4000 true).1

/-- The state `heap7` after a store of 8 bytes just past the 4000 payload
bytes of its last block, into that block's footer at 69632. -/
def heap8 : Heap := heap7.store 69632 0

/-- The state in which `extend_heap(8)`, called right after `mm_init`, calls
`coalesce_block`: the arena is grown by 16 bytes, the new block of 16 bytes
at 69640 is the head of the free list, and the new epilogue header at 69656
has overwritten its `next` field. -/
def heap0_grown : Heap :=
  write_header
    (insert_block
      (write_footer (write_header (mem_sbrk heap0 16 true).1 69640 16 false) 69640 16 false)
      69640)
    69656 0 true

/-- The state in which `coalesce_block` then calls `remove_block` on the new
block: the previous block at 65544 has the merged size 4112 in its header
and in its footer at 69648, the word that is also the `prev` field of the
new block. -/
def heap0_merged : Heap :=
  write_footer (write_header heap0_grown 65544 4112 false) 65544 4112 false

/-- The state `heap4` after `mm_free` of the payload of `A`. -/
def heap4a : Heap := mm_free heap4 65552

/-- The state `heap4a` after `mm_free` of the payload of `C`: the blocks `A`
and `C` are free, the block `B` between them is allocated. -/
def heap4b : Heap := mm_free heap4a 65760

/-- The state in which `mm_free` of the payload of `B` calls `coalesce_block`
on `heap4b`: the block `B` has free tags and is the head of the free list,
and both its neighbours are free. -/
def heap9 : Heap :=
  insert_block (write_footer (write_header heap4b 65624 128 false) 65624 128 false) 65624

/-! ## Boundary tags -/

theorem and_size_mask (x : Nat) (hx : x < 2 ^ 64) :
    x &&& 0xFFFFFFFFFFFFFFF0 = 16 * (x / 16) := by
  apply Nat.eq_of_testBit_eq
  intro i
  have hm : (0xFFFFFFFFFFFFFFF0 : Nat) = 2 ^ 64 - (15 + 1) := by norm_num
  have h16 : (16 : Nat) = 2 ^ 4 := by norm_num
  have h15 : (15 : Nat) = 2 ^ 4 - 1 := by norm_num
  rw [Nat.testBit_and, hm, Nat.testBit_two_pow_sub_succ (by norm_num), h16,
    Nat.testBit_mul_pow_two, h15, Nat.testBit_two_pow_sub_one, ← Nat.shiftRight_eq_div_pow,
    Nat.testBit_shiftRight]
  by_cases h4 : i < 4
  · simp [h4]
  · have h4' : 4 ≤ i := by omega
    have e : 4 + (i - 4) = i := by omega
    simp only [h4, h4', e, decide_True, decide_False, Bool.not_false, Bool.and_true,
      Bool.true_and]
    by_cases h64 : i < 64
    · simp [h64]
    · have hb : x.testBit i = false :=
        Nat.testBit_lt_two_pow
          (lt_of_lt_of_le hx (Nat.pow_le_pow_right (by norm_num) (by omega)))
      simp [hb]

theorem or_one_of_even (x : Nat) (h : x % 2 = 0) : x ||| 1 = x + 1 := by
  have h1 := Nat.mul_add_lt_is_or (i := 1) (b := 1) (by norm_num) (x / 2)
  have e : 2 ^ 1 * (x / 2) = x := by omega
  rw [e] at h1
  exact h1.symm

theorem W_eq : W = 18446744073709551616 := by
  simp [W]

theorem pack_true (s : Nat) (h : s % 16 = 0) : pack s true = s + 1 := by
  simp only [pack, alloc_mask, if_true]
  exact or_one_of_even s (by omega)

theorem pack_false (s : Nat) : pack s false = s := by
  simp [pack]

theorem pack_eq (s : Nat) (a : Bool) (h : s % 16 = 0) :
    pack s a = s + (if a = true then 1 else 0) := by
  cases a
  · simp [pack_false]
  · simp [pack_true s h]

theorem extract_size_eq (w : Nat) (hw : w < W) : extract_size w = 16 * (w / 16) := by
  rw [W_eq] at hw
  exact and_size_mask w (by norm_num; exact hw)

theorem extract_alloc_eq (w : Nat) : extract_alloc w = decide (w % 2 = 1) := by
  simp only [extract_alloc, alloc_mask, Nat.and_one_is_mod]
  rcases Nat.mod_two_eq_zero_or_one w with h | h <;> simp [h]

theorem extract_size_pack (s : Nat) (a : Bool) (h : s % 16 = 0) (hs : s < W) :
    extract_size (pack s a) = s := by
  have hp := pack_eq s a h
  have hW := W_eq
  rw [extract_size_eq _ (by cases a <;> simp at hp <;> omega), hp]
  cases a <;> simp <;> omega

theorem extract_alloc_pack (s : Nat) (a : Bool) (h : s % 16 = 0) :
    extract_alloc (pack s a) = a := by
  rw [extract_alloc_eq, pack_eq s a h]
  cases a
  · simp; omega
  · simp; omega

/-- C10. Boundary-tag round trip: for every 64-bit size `s` that is a multiple
of 16 and every flag `a`, `extract_size (pack s a) = s` and
`extract_alloc (pack s a) = a`. -/
theorem pack_round_trip (s : Nat) (a : Bool) (hs : s < W) (h16 : s % 16 = 0) :
    extract_size (pack s a) = s ∧ extract_alloc (pack s a) = a :=
  ⟨extract_size_pack s a h16 hs, extract_alloc_pack s a h16⟩

/-- C10, instance: the tag of an allocated block of 4096 bytes. -/
theorem pack_round_trip_witness :
    (4096 < W ∧ 4096 % 16 = 0) ∧
      extract_size (pack 4096 true) = 4096 ∧ extract_alloc (pack 4096 true) = true :=
  ⟨⟨by decide, by decide⟩, pack_round_trip 4096 true (by decide) (by decide)⟩

/-! ## Memory and pointer arithmetic -/

@[simp] theorem write_same (m : Nat → Nat) (a v : Nat) : write m a v a = v := by
  simp [write]

theorem write_other (m : Nat → Nat) (a v x : Nat) (h : x ≠ a) : write m a v x = m x := by
  simp [write, h]

theorem ptr_add_eq (p n : Nat) (h : p + n < W) : ptr_add p n = p + n :=
  Nat.mod_eq_of_lt h

theorem ptr_sub_eq (p n : Nat) (hn : n ≤ p) (hp : p < W) : ptr_sub p n = p - n := by
  unfold ptr_sub
  rw [W_eq] at *
  omega

theorem sub64_eq (a b : Nat) (hb : b ≤ a) (ha : a < W) : sub64 a b = a - b :=
  ptr_sub_eq a b hb ha

theorem extract_size_mod (w : Nat) (hw : w < W) : extract_size w % 16 = 0 := by
  rw [extract_size_eq w hw]; omega

theorem extract_size_le (w : Nat) : extract_size w ≤ w := Nat.and_le_left

@[simp] theorem store_mem (h : Heap) (a v : Nat) : (h.store a v).mem = write h.mem a v := rfl
@[simp] theorem store_start_brk (h : Heap) (a v : Nat) :
    (h.store a v).mem_start_brk = h.mem_start_brk := rfl
@[simp] theorem store_brk (h : Heap) (a v : Nat) : (h.store a v).mem_brk = h.mem_brk := rfl
@[simp] theorem store_heap_start (h : Heap) (a v : Nat) :
    (h.store a v).heap_start = h.heap_start := rfl
@[simp] theorem store_head (h : Heap) (a v : Nat) :
    (h.store a v).free_list_head = h.free_list_head := rfl

/-! ## Runs of blocks -/

@[simp] theorem total_nil : total [] = 0 := rfl
@[simp] theorem total_cons (b : Blk) (bs : List Blk) : total (b :: bs) = b.1 + total bs := rfl

@[simp] theorem total_append (l1 l2 : List Blk) : total (l1 ++ l2) = total l1 + total l2 := by
  induction l1 with
  | nil => simp
  | cons b l ih => simp [ih]; omega

@[simp] theorem Blocks_nil (m : Nat → Nat) (a : Nat) : Blocks m a [] = True := rfl

theorem Blocks_cons (m : Nat → Nat) (a : Nat) (b : Blk) (bs : List Blk) :
    Blocks m a (b :: bs) ↔
      (b.1 % 16 = 0 ∧ 32 ≤ b.1 ∧ m a = pack b.1 b.2 ∧ m (a + b.1 - 8) = pack b.1 b.2 ∧
        Blocks m (a + b.1) bs) := Iff.rfl

theorem Blocks_append (m : Nat → Nat) (a : Nat) (l1 l2 : List Blk) :
    Blocks m a (l1 ++ l2) ↔ Blocks m a l1 ∧ Blocks m (a + total l1) l2 := by
  induction l1 generalizing a with
  | nil => simp
  | cons b l ih =>
    simp only [List.cons_append, Blocks_cons, ih, total_cons, Nat.add_assoc]
    tauto

theorem Blocks_congr (m m2 : Nat → Nat) (a : Nat) (bs : List Blk)
    (h : ∀ w, a ≤ w → w < a + total bs → m2 w = m w) (hb : Blocks m a bs) :
    Blocks m2 a bs := by
  induction bs generalizing a with
  | nil => trivial
  | cons b l ih =>
    obtain ⟨h1, h2, h3, h4, h5⟩ := hb
    simp only [total_cons] at h
    refine ⟨h1, h2, ?_, ?_, ?_⟩
    · rw [h a (by omega) (by omega)]; exact h3
    · rw [h _ (by omega) (by omega)]; exact h4
    · exact ih _ (fun w hw1 hw2 => h w (by omega) (by omega)) h5

theorem addrs_append (a : Nat) (l1 l2 : List Blk) :
    addrs a (l1 ++ l2) = addrs a l1 ++ addrs (a + total l1) l2 := by
  induction l1 generalizing a with
  | nil => simp [addrs]
  | cons b l ih => simp [addrs, ih, Nat.add_assoc]

theorem freeAddrs_append (a : Nat) (l1 l2 : List Blk) :
    freeAddrs a (l1 ++ l2) = freeAddrs a l1 ++ freeAddrs (a + total l1) l2 := by
  induction l1 generalizing a with
  | nil => simp [freeAddrs]
  | cons b l ih =>
    by_cases hb : b.2 = true <;> simp [freeAddrs, ih, Nat.add_assoc, hb]

theorem allocAddrs_append (a : Nat) (l1 l2 : List Blk) :
    allocAddrs a (l1 ++ l2) = allocAddrs a l1 ++ allocAddrs (a + total l1) l2 := by
  induction l1 generalizing a with
  | nil => simp [allocAddrs]
  | cons b l ih =>
    by_cases hb : b.2 = true <;> simp [allocAddrs, ih, Nat.add_assoc, hb]

theorem freeAddrs_sub (a : Nat) (bs : List Blk) (x : Nat) (h : x ∈ freeAddrs a bs) :
    x ∈ addrs a bs := by
  induction bs generalizing a with
  | nil => simp [freeAddrs] at h
  | cons b l ih =>
    by_cases hb : b.2 = true
    · simp only [freeAddrs, hb, if_true] at h
      simp [addrs, ih _ h]
    · simp only [freeAddrs, hb, if_false, List.mem_cons, Bool.false_eq_true] at h
      rcases h with h | h
      · simp [addrs, h]
      · simp [addrs, ih _ h]

theorem allocAddrs_sub (a : Nat) (bs : List Blk) (x : Nat) (h : x ∈ allocAddrs a bs) :
    x ∈ addrs a bs := by
  induction bs generalizing a with
  | nil => simp [allocAddrs] at h
  | cons b l ih =>
    by_cases hb : b.2 = true
    · simp only [allocAddrs, hb, if_true, List.mem_cons] at h
      rcases h with h | h
      · simp [addrs, h]
      · simp [addrs, ih _ h]
    · simp only [allocAddrs, hb, if_false, Bool.false_eq_true] at h
      simp [addrs, ih _ h]

/-- Every block address of a run lies inside the run, and a whole block
of at least 32 bytes follows it. -/
theorem addrs_range (m : Nat → Nat) (a : Nat) (bs : List Blk) (hb : Blocks m a bs)
    (x : Nat) (h : x ∈ addrs a bs) : a ≤ x ∧ x + 32 ≤ a + total bs := by
  induction bs generalizing a with
  | nil => simp [addrs] at h
  | cons b l ih =>
    obtain ⟨_, h2, _, _, h5⟩ := hb
    simp only [addrs, List.mem_cons] at h
    simp only [total_cons]
    rcases h with h | h
    · subst h; omega
    · have := ih _ h5 h; omega

/-- Decomposition of a run at one of its block addresses. -/
theorem addrs_split (a : Nat) (bs : List Blk) (x : Nat) (h : x ∈ addrs a bs) :
    ∃ pre b post, bs = pre ++ b :: post ∧ x = a + total pre := by
  induction bs generalizing a with
  | nil => simp [addrs] at h
  | cons b l ih =>
    simp only [addrs, List.mem_cons] at h
    rcases h with h | h
    · exact ⟨[], b, l, rfl, by simp [h]⟩
    · obtain ⟨pre, c, post, e1, e2⟩ := ih _ h
      exact ⟨b :: pre, c, post, by simp [e1], by simp [e2]; omega⟩

theorem freeAddrs_split (a : Nat) (bs : List Blk) (x : Nat) (h : x ∈ freeAddrs a bs) :
    ∃ pre sz post, bs = pre ++ (sz, false) :: post ∧ x = a + total pre := by
  induction bs generalizing a with
  | nil => simp [freeAddrs] at h
  | cons b l ih =>
    by_cases hb : b.2 = true
    · simp only [freeAddrs, hb, if_true] at h
      obtain ⟨pre, c, post, e1, e2⟩ := ih _ h
      exact ⟨b :: pre, c, post, by simp [e1], by simp [e2]; omega⟩
    · simp only [freeAddrs, hb, if_false, List.mem_cons, Bool.false_eq_true] at h
      rcases h with h | h
      · refine ⟨[], b.1, l, ?_, by simp [h]⟩
        obtain ⟨s, f⟩ := b
        simp at hb
        simp [hb]
      · obtain ⟨pre, c, post, e1, e2⟩ := ih _ h
        exact ⟨b :: pre, c, post, by simp [e1], by simp [e2]; omega⟩

theorem allocAddrs_split (a : Nat) (bs : List Blk) (x : Nat) (h : x ∈ allocAddrs a bs) :
    ∃ pre sz post, bs = pre ++ (sz, true) :: post ∧ x = a + total pre := by
  induction bs generalizing a with
  | nil => simp [allocAddrs] at h
  | cons b l ih =>
    by_cases hb : b.2 = true
    · simp only [allocAddrs, hb, if_true, List.mem_cons] at h
      rcases h with h | h
      · refine ⟨[], b.1, l, ?_, by simp [h]⟩
        obtain ⟨s, f⟩ := b
        simp at hb
        simp [hb]
      · obtain ⟨pre, c, post, e1, e2⟩ := ih _ h
        exact ⟨b :: pre, c, post, by simp [e1], by simp [e2]; omega⟩
    · simp only [allocAddrs, hb, if_false, Bool.false_eq_true] at h
      obtain ⟨pre, c, post, e1, e2⟩ := ih _ h
      exact ⟨b :: pre, c, post, by simp [e1], by simp [e2]; omega⟩

/-- Storing a word strictly inside a block, away from its header and footer,
keeps the layout of the run. -/
theorem Blocks_write_inner (m : Nat → Nat) (a : Nat) (bs : List Blk) (w v : Nat)
    (hb : Blocks m a bs)
    (hw : ∀ pre b post, bs = pre ++ b :: post →
      w ≠ a + total pre ∧ w ≠ a + total pre + b.1 - 8) :
    Blocks (write m w v) a bs := by
  induction bs generalizing a with
  | nil => trivial
  | cons b l ih =>
    obtain ⟨h1, h2, h3, h4, h5⟩ := hb
    have h0 := hw [] b l rfl
    simp only [total_nil, Nat.add_zero] at h0
    refine ⟨h1, h2, ?_, ?_, ?_⟩
    · rw [write_other _ _ _ _ (Ne.symm h0.1)]; exact h3
    · rw [write_other _ _ _ _ (Ne.symm h0.2)]; exact h4
    · apply ih _ h5
      intro pre c post e
      have := hw (b :: pre) c post (by simp [e])
      simp only [total_cons] at this
      constructor <;> omega

/-! ## Doubly linked segments -/

@[simp] theorem Seg_nil (m : Nat → Nat) (p c q e : Nat) :
    Seg m p c [] q e ↔ (c = e ∧ q = p) := Iff.rfl

theorem Seg_cons (m : Nat → Nat) (p c x : Nat) (l : List Nat) (q e : Nat) :
    Seg m p c (x :: l) q e ↔
      (c = x ∧ x ≠ 0 ∧ m (x + 8) = p ∧ Seg m x (m (x + 16)) l q e) := Iff.rfl

theorem Seg_congr (m m2 : Nat → Nat) (l : List Nat) (p c q e : Nat)
    (h : ∀ y ∈ l, m2 (y + 8) = m (y + 8) ∧ m2 (y + 16) = m (y + 16))
    (hs : Seg m p c l q e) : Seg m2 p c l q e := by
  induction l generalizing p c with
  | nil => exact hs
  | cons x l ih =>
    obtain ⟨h1, h2, h3, h4⟩ := hs
    have hx := h x (List.mem_cons_self _ _)
    refine ⟨h1, h2, by rw [hx.1]; exact h3, ?_⟩
    rw [hx.2]
    exact ih _ _ (fun y hy => h y (List.mem_cons_of_mem _ hy)) h4

theorem Seg_append (m : Nat → Nat) (l1 l2 : List Nat) (p c q e : Nat) :
    Seg m p c (l1 ++ l2) q e ↔ ∃ q1 e1, Seg m p c l1 q1 e1 ∧ Seg m q1 e1 l2 q e := by
  induction l1 generalizing p c with
  | nil =>
    simp only [List.nil_append, Seg_nil]
    constructor
    · intro h; exact ⟨p, c, ⟨rfl, rfl⟩, h⟩
    · rintro ⟨q1, e1, ⟨rfl, rfl⟩, h⟩; exact h
  | cons x l ih =>
    simp only [List.cons_append, Seg_cons, ih]
    constructor
    · rintro ⟨h1, h2, h3, q1, e1, h4, h5⟩; exact ⟨q1, e1, ⟨h1, h2, h3, h4⟩, h5⟩
    · rintro ⟨q1, e1, ⟨h1, h2, h3, h4⟩, h5⟩; exact ⟨h1, h2, h3, q1, e1, h4, h5⟩

/-- The last node of a non-empty segment is one of its nodes. -/
theorem Seg_last_mem (m : Nat → Nat) (l : List Nat) (p c q e : Nat)
    (hs : Seg m p c l q e) (hl : l ≠ []) : q ∈ l := by
  induction l generalizing p c with
  | nil => exact absurd rfl hl
  | cons x l ih =>
    obtain ⟨_, _, _, h4⟩ := hs
    cases l with
    | nil => obtain ⟨_, h6⟩ := h4; simp [h6]
    | cons y l2 => exact List.mem_cons_of_mem _ (ih _ _ h4 (by simp))

theorem Seg_ne_zero (m : Nat → Nat) (l : List Nat) (p c q e : Nat)
    (hs : Seg m p c l q e) : ∀ y ∈ l, y ≠ 0 := by
  induction l generalizing p c with
  | nil => simp
  | cons x l ih =>
    obtain ⟨_, h2, _, h4⟩ := hs
    intro y hy
    rcases List.mem_cons.1 hy with h | h
    · rw [h]; exact h2
    · exact ih _ _ h4 y h

/-- The entry pointer of a segment is its first node, or the exit pointer
when it is empty. -/
theorem Seg_entry (m : Nat → Nat) (l : List Nat) (p c q e : Nat)
    (hs : Seg m p c l q e) : c = l.headD e := by
  cases l with
  | nil => exact hs.1
  | cons x l => exact hs.1

/-- The `next` field of the last node of a segment is the exit pointer. -/
theorem Seg_exit (m : Nat → Nat) (l : List Nat) (p c q e : Nat)
    (hs : Seg m p c l q e) (hl : l ≠ []) : m (q + 16) = e := by
  induction l generalizing p c with
  | nil => exact absurd rfl hl
  | cons x l ih =>
    obtain ⟨_, _, _, h4⟩ := hs
    cases l with
    | nil => obtain ⟨h5, h6⟩ := h4; rw [h6]; exact h5
    | cons y l2 => exact ih _ _ h4 (by simp)

/-- Redirecting the `prev` field of the first node. -/
theorem Seg_set_prev (m : Nat → Nat) (x : Nat) (l : List Nat) (p c q e p2 : Nat)
    (hs : Seg m p c (x :: l) q e) (hsep : ∀ y ∈ l, Sep x y) :
    Seg (write m (x + 8) p2) p2 c (x :: l) q e := by
  obtain ⟨h1, h2, _, h4⟩ := hs
  refine ⟨h1, h2, write_same _ _ _, ?_⟩
  rw [write_other _ _ _ _ (by omega)]
  refine Seg_congr _ _ _ _ _ _ _ (fun y hy => ?_) h4
  have := hsep y hy
  unfold Sep at this
  constructor <;> rw [write_other _ _ _ _ (by omega)]

/-- Redirecting the `next` field of the last node. -/
theorem Seg_set_next (m : Nat → Nat) (l : List Nat) (p c q e e2 : Nat)
    (hs : Seg m p c l q e) (hl : l ≠ []) (hsep : l.Pairwise Sep) :
    Seg (write m (q + 16) e2) p c l q e2 := by
  induction l generalizing p c with
  | nil => exact absurd rfl hl
  | cons x l ih =>
    obtain ⟨h1, h2, h3, h4⟩ := hs
    rw [List.pairwise_cons] at hsep
    cases l with
    | nil =>
      obtain ⟨_, h6⟩ := h4
      subst h6
      exact ⟨h1, h2, by rw [write_other _ _ _ _ (by omega)]; exact h3,
        by simp⟩
    | cons y l2 =>
      have hq := Seg_last_mem _ _ _ _ _ _ h4 (by simp)
      have hxq := hsep.1 q hq
      unfold Sep at hxq
      refine ⟨h1, h2, by rw [write_other _ _ _ _ (by omega)]; exact h3, ?_⟩
      rw [write_other _ _ _ _ (by omega)]
      exact ih _ _ h4 (by simp) hsep.2

/-! ## Fields that the list and tag operations leave alone -/

@[simp] theorem write_header_mem (h : Heap) (b s : Nat) (a : Bool) :
    (write_header h b s a).mem = write h.mem b (pack s a) := rfl
@[simp] theorem write_header_start_brk (h : Heap) (b s : Nat) (a : Bool) :
    (write_header h b s a).mem_start_brk = h.mem_start_brk := rfl
@[simp] theorem write_header_brk (h : Heap) (b s : Nat) (a : Bool) :
    (write_header h b s a).mem_brk = h.mem_brk := rfl
@[simp] theorem write_header_heap_start (h : Heap) (b s : Nat) (a : Bool) :
    (write_header h b s a).heap_start = h.heap_start := rfl
@[simp] theorem write_header_head (h : Heap) (b s : Nat) (a : Bool) :
    (write_header h b s a).free_list_head = h.free_list_head := rfl

@[simp] theorem write_footer_mem (h : Heap) (b s : Nat) (a : Bool) :
    (write_footer h b s a).mem = write h.mem (header_to_footer h b) (pack s a) := rfl
@[simp] theorem write_footer_start_brk (h : Heap) (b s : Nat) (a : Bool) :
    (write_footer h b s a).mem_start_brk = h.mem_start_brk := rfl
@[simp] theorem write_footer_brk (h : Heap) (b s : Nat) (a : Bool) :
    (write_footer h b s a).mem_brk = h.mem_brk := rfl
@[simp] theorem write_footer_heap_start (h : Heap) (b s : Nat) (a : Bool) :
    (write_footer h b s a).heap_start = h.heap_start := rfl
@[simp] theorem write_footer_head (h : Heap) (b s : Nat) (a : Bool) :
    (write_footer h b s a).free_list_head = h.free_list_head := rfl

@[simp] theorem set_prev_mem (h : Heap) (b v : Nat) :
    (set_prev h b v).mem = write h.mem (ptr_add b 8) v := rfl
@[simp] theorem set_prev_start_brk (h : Heap) (b v : Nat) :
    (set_prev h b v).mem_start_brk = h.mem_start_brk := rfl
@[simp] theorem set_prev_brk (h : Heap) (b v : Nat) :
    (set_prev h b v).mem_brk = h.mem_brk := rfl
@[simp] theorem set_prev_heap_start (h : Heap) (b v : Nat) :
    (set_prev h b v).heap_start = h.heap_start := rfl
@[simp] theorem set_prev_head (h : Heap) (b v : Nat) :
    (set_prev h b v).free_list_head = h.free_list_head := rfl

@[simp] theorem set_next_mem (h : Heap) (b v : Nat) :
    (set_next h b v).mem = write h.mem (ptr_add b 16) v := rfl
@[simp] theorem set_next_start_brk (h : Heap) (b v : Nat) :
    (set_next h b v).mem_start_brk = h.mem_start_brk := rfl
@[simp] theorem set_next_brk (h : Heap) (b v : Nat) :
    (set_next h b v).mem_brk = h.mem_brk := rfl
@[simp] theorem set_next_heap_start (h : Heap) (b v : Nat) :
    (set_next h b v).heap_start = h.heap_start := rfl
@[simp] theorem set_next_head (h : Heap) (b v : Nat) :
    (set_next h b v).free_list_head = h.free_list_head := rfl

@[simp] theorem insert_block_start_brk (h : Heap) (x : Nat) :
    (insert_block h x).mem_start_brk = h.mem_start_brk := by
  unfold insert_block; split <;> rfl
@[simp] theorem insert_block_brk (h : Heap) (x : Nat) :
    (insert_block h x).mem_brk = h.mem_brk := by
  unfold insert_block; split <;> rfl
@[simp] theorem insert_block_heap_start (h : Heap) (x : Nat) :
    (insert_block h x).heap_start = h.heap_start := by
  unfold insert_block; split <;> rfl
@[simp] theorem insert_block_head (h : Heap) (x : Nat) :
    (insert_block h x).free_list_head = x := by
  unfold insert_block; split <;> rfl

@[simp] theorem remove_block_start_brk (h : Heap) (x : Nat) :
    (remove_block h x).mem_start_brk = h.mem_start_brk := by
  unfold remove_block; split_ifs <;> rfl
@[simp] theorem remove_block_brk (h : Heap) (x : Nat) :
    (remove_block h x).mem_brk = h.mem_brk := by
  unfold remove_block; split_ifs <;> rfl
@[simp] theorem remove_block_heap_start (h : Heap) (x : Nat) :
    (remove_block h x).heap_start = h.heap_start := by
  unfold remove_block; split_ifs <;> rfl

/-! ## The free-list operations on linked segments -/

theorem insert_block_mem_nil (h : Heap) (x : Nat) (hh : h.free_list_head = 0) :
    (insert_block h x).mem = write (write h.mem (ptr_add x 16) 0) (ptr_add x 8) 0 := by
  unfold insert_block; rw [if_pos hh]; rfl

theorem insert_block_mem_cons (h : Heap) (x : Nat) (hh : h.free_list_head ≠ 0) :
    (insert_block h x).mem =
      write (write (write h.mem (ptr_add x 16) h.free_list_head) (ptr_add x 8) 0)
        (ptr_add h.free_list_head 8) x := by
  unfold insert_block; rw [if_neg hh]; rfl

/-- The function `insert_block` puts the node in front of the list and only
stores into the link fields of that node and the `prev` field of the old
head. -/
theorem insert_block_spec (h : Heap) (x : Nat) (fl : List Nat) (q : Nat)
    (hs : Seg h.mem 0 h.free_list_head fl q 0)
    (hx0 : x ≠ 0) (hsep : (x :: fl).Pairwise Sep) (hb : ∀ y ∈ x :: fl, y + 16 < W) :
    (∃ q2, Seg (insert_block h x).mem 0 x (x :: fl) q2 0) ∧
    (∀ w, w ≠ x + 8 → w ≠ x + 16 → (∀ y ∈ fl, w ≠ y + 8) →
      (insert_block h x).mem w = h.mem w) := by
  have hxb := hb x (List.mem_cons_self _ _)
  have e8 : ptr_add x 8 = x + 8 := ptr_add_eq _ _ (by omega)
  have e16 : ptr_add x 16 = x + 16 := ptr_add_eq _ _ (by omega)
  rw [List.pairwise_cons] at hsep
  cases fl with
  | nil =>
    obtain ⟨hc, _⟩ := hs
    rw [insert_block_mem_nil h x hc, e8, e16]
    constructor
    · refine ⟨x, rfl, hx0, write_same _ _ _, ?_, rfl⟩
      rw [write_other _ _ _ _ (by omega)]; exact write_same _ _ _
    · intro w h1 h2 _
      rw [write_other _ _ _ _ h1, write_other _ _ _ _ h2]
  | cons y l =>
    obtain ⟨hc, hy0, hyp, hrest⟩ := hs
    have hyb := hb y (by simp)
    have ey8 : ptr_add y 8 = y + 8 := ptr_add_eq _ _ (by omega)
    have hxy := hsep.1 y (by simp)
    unfold Sep at hxy
    have hne : h.free_list_head ≠ 0 := by rw [hc]; exact hy0
    rw [insert_block_mem_cons h x hne, hc, e8, e16, ey8]
    constructor
    · refine ⟨q, rfl, hx0, ?_, ?_⟩
      · rw [write_other _ _ _ _ (by omega)]; exact write_same _ _ _
      · rw [write_other _ _ _ _ (by omega), write_other _ _ _ _ (by omega), write_same]
        have h1 : Seg h.mem 0 y (y :: l) q 0 := ⟨rfl, hy0, hyp, hrest⟩
        have h2 := Seg_set_prev _ _ _ _ _ _ _ x h1
          (fun z hz => (List.pairwise_cons.1 hsep.2).1 z hz)
        refine Seg_congr _ _ _ _ _ _ _ (fun z hz => ?_) h2
        have hxz := hsep.1 z hz
        unfold Sep at hxz
        have hw1 : ∀ w, w ≠ x + 8 → w ≠ x + 16 →
            write (write (write h.mem (x + 16) y) (x + 8) 0) (y + 8) x w =
              write h.mem (y + 8) x w := by
          intro w h1 h2
          by_cases h3 : w = y + 8
          · subst h3; simp
          · rw [write_other _ _ _ _ h3, write_other _ _ _ _ h1, write_other _ _ _ _ h2,
              write_other _ _ _ _ h3]
        exact ⟨hw1 _ (by omega) (by omega), hw1 _ (by omega) (by omega)⟩
    · intro w h1 h2 h3
      rw [write_other _ _ _ _ (h3 y (by simp)), write_other _ _ _ _ h1,
        write_other _ _ _ _ h2]

theorem Sep_symm {y z : Nat} (h : Sep y z) : Sep z y := Or.symm h

/-- The function `remove_block` splices the node out of the list and only
stores into link fields of the remaining nodes. -/
theorem remove_block_spec (h : Heap) (x : Nat) (l1 l2 : List Nat) (q : Nat)
    (hs : Seg h.mem 0 h.free_list_head (l1 ++ x :: l2) q 0)
    (hsep : (l1 ++ x :: l2).Pairwise Sep) (hb : ∀ y ∈ l1 ++ x :: l2, y + 16 < W) :
    (∃ q2, Seg (remove_block h x).mem 0 (remove_block h x).free_list_head (l1 ++ l2) q2 0) ∧
    (∀ w, (∀ y ∈ l1 ++ l2, w ≠ y + 8 ∧ w ≠ y + 16) → (remove_block h x).mem w = h.mem w) := by
  rw [Seg_append] at hs
  obtain ⟨q1, e1, hs1, he1, hx0, hxp, hs2⟩ := hs
  rw [List.pairwise_append, List.pairwise_cons] at hsep
  obtain ⟨hp1, ⟨hpx, hp2⟩, hp12⟩ := hsep
  have hxb := hb x (by simp)
  have e8 : ptr_add x 8 = x + 8 := ptr_add_eq _ _ (by omega)
  have e16 : ptr_add x 16 = x + 16 := ptr_add_eq _ _ (by omega)
  have hgp : get_prev h x = q1 := by unfold get_prev; rw [e8]; exact hxp
  have hgn : get_next h x = h.mem (x + 16) := by unfold get_next; rw [e16]
  cases l1 with
  | nil =>
    obtain ⟨hhd, hq1⟩ := hs1
    cases l2 with
    | nil =>
      obtain ⟨hn, _⟩ := hs2
      have hr : remove_block h x = { h with free_list_head := 0 } := by
        unfold remove_block
        rw [hgp, hgn, hn, hq1]; simp
      rw [hr]
      exact ⟨⟨0, rfl, rfl⟩, fun w _ => rfl⟩
    | cons y l =>
      have hy : h.mem (x + 16) = y := hs2.1
      have hy0 : y ≠ 0 := hs2.2.1
      have hyb := hb y (by simp)
      have ey8 : ptr_add y 8 = y + 8 := ptr_add_eq _ _ (by omega)
      have hr : remove_block h x =
          { set_prev h y 0 with free_list_head := y } := by
        unfold remove_block
        rw [hgp, hgn, hy, hq1]; simp [hy0]
      rw [hr]
      simp only [set_prev_mem, ey8, List.nil_append]
      constructor
      · rw [hy] at hs2
        exact ⟨q, Seg_set_prev _ _ _ _ _ _ _ 0 hs2 (List.pairwise_cons.1 hp2).1⟩
      · intro w hw
        rw [write_other _ _ _ _ (hw y (by simp)).1]
  | cons z l =>
    have hq1m : q1 ∈ z :: l := Seg_last_mem _ _ _ _ _ _ hs1 (by simp)
    have hq10 : q1 ≠ 0 := Seg_ne_zero _ _ _ _ _ _ hs1 q1 hq1m
    have hq1b := hb q1 (by simp at hq1m ⊢; tauto)
    have eq16 : ptr_add q1 16 = q1 + 16 := ptr_add_eq _ _ (by omega)
    have hq1x := hp12 q1 hq1m x (by simp)
    unfold Sep at hq1x
    cases l2 with
    | nil =>
      obtain ⟨hn, _⟩ := hs2
      have hr : remove_block h x = set_next h q1 0 := by
        unfold remove_block
        rw [hgp, hgn, hn]; simp [hq10]
      rw [hr]
      simp only [set_next_mem, eq16, set_next_head, List.append_nil]
      constructor
      · exact ⟨q1, Seg_set_next _ _ _ _ _ _ 0 hs1 (by simp) hp1⟩
      · intro w hw
        rw [write_other _ _ _ _ (hw q1 (by simpa using hq1m)).2]
    | cons y l2 =>
      have hy : h.mem (x + 16) = y := hs2.1
      have hy0 : y ≠ 0 := hs2.2.1
      have hyb := hb y (by simp)
      have ey8 : ptr_add y 8 = y + 8 := ptr_add_eq _ _ (by omega)
      have hr : remove_block h x = set_prev (set_next h q1 y) y q1 := by
        unfold remove_block
        rw [hgp, hgn, hy]; simp [hq10, hy0]
      rw [hr]
      simp only [set_next_mem, set_prev_mem, eq16, ey8, set_next_head, set_prev_head]
      have hq1y := hp12 q1 hq1m y (by simp)
      unfold Sep at hq1y
      constructor
      · refine ⟨q, ?_⟩
        rw [Seg_append]
        refine ⟨q1, y, ?_, ?_⟩
        · have h1 := Seg_set_next _ _ _ _ _ _ y hs1 (by simp) hp1
          refine Seg_congr _ _ _ _ _ _ _ (fun u hu => ?_) h1
          have huy := hp12 u hu y (by simp)
          unfold Sep at huy
          constructor <;> rw [write_other _ _ _ _ (by omega)]
        · rw [hy] at hs2
          have h1 : Seg (write h.mem (q1 + 16) y) x y (y :: l2) q 0 := by
            refine Seg_congr _ _ _ _ _ _ _ (fun u hu => ?_) hs2
            have huq := hp12 q1 hq1m u (by simp at hu ⊢; tauto)
            unfold Sep at huq
            constructor <;> rw [write_other _ _ _ _ (by omega)]
          exact Seg_set_prev _ _ _ _ _ _ _ q1 h1 (List.pairwise_cons.1 hp2).1
      · intro w hw
        rw [write_other _ _ _ _ (hw y (by simp)).1,
          write_other _ _ _ _ (hw q1 (by simp at hq1m ⊢; tauto)).2]

/-- A memory that agrees with `m` on the words of a run, except possibly on
the link fields of its blocks, carries the same run. -/
theorem Blocks_frame (m m2 : Nat → Nat) (a : Nat) (bs : List Blk) (hb : Blocks m a bs)
    (h : ∀ w, a ≤ w → w < a + total bs → (∀ y ∈ addrs a bs, w ≠ y + 8 ∧ w ≠ y + 16) →
      m2 w = m w) :
    Blocks m2 a bs := by
  induction bs generalizing a with
  | nil => trivial
  | cons b l ih =>
    obtain ⟨h1, h2, h3, h4, h5⟩ := hb
    simp only [total_cons, addrs, List.mem_cons, forall_eq_or_imp] at h
    have hr := addrs_range m (a + b.1) l h5
    refine ⟨h1, h2, ?_, ?_, ?_⟩
    · rw [h a (by omega) (by omega) ⟨by omega, fun y hy => by have := hr y hy; omega⟩]
      exact h3
    · rw [h _ (by omega) (by omega) ⟨by omega, fun y hy => by have := hr y hy; omega⟩]
      exact h4
    · exact ih _ h5 (fun w hw1 hw2 hw3 => h w (by omega) (by omega) ⟨by omega, hw3⟩)

/-- A run is unchanged by stores outside `[lo, hi)`, a region disjoint from
it, and stores into link fields of nodes that are blocks of the run or lie
outside it. -/
theorem Blocks_frame_part (m m2 : Nat → Nat) (a : Nat) (bs : List Blk) (lo hi : Nat)
    (L : List Nat) (hb : Blocks m a bs)
    (hr : a + total bs ≤ lo ∨ hi ≤ a)
    (hL : ∀ y ∈ L, y ∈ addrs a bs ∨ y + 32 ≤ a ∨ a + total bs ≤ y)
    (hm : ∀ w, (w < lo ∨ hi ≤ w) → (∀ y ∈ L, w ≠ y + 8 ∧ w ≠ y + 16) → m2 w = m w) :
    Blocks m2 a bs := by
  refine Blocks_frame m m2 a bs hb (fun w hw1 hw2 hw3 => ?_)
  refine hm w (by omega) (fun y hy => ?_)
  rcases hL y hy with h | h | h
  · exact hw3 y h
  · constructor <;> omega
  · constructor <;> omega

/-- Where a block address of a run `pre ++ mid ++ post` lies. -/
theorem addrs_loc (m : Nat → Nat) (a : Nat) (pre mid post : List Blk)
    (hb : Blocks m a (pre ++ mid ++ post)) (y : Nat)
    (hy : y ∈ addrs a (pre ++ mid ++ post)) :
    (y ∈ addrs a pre ∧ y + 32 ≤ a + total pre) ∨
    (y ∈ addrs (a + total pre) mid ∧ a + total pre ≤ y ∧
      y + 32 ≤ a + total pre + total mid) ∨
    (y ∈ addrs (a + total pre + total mid) post ∧ a + total pre + total mid ≤ y) := by
  rw [Blocks_append, Blocks_append] at hb
  rw [addrs_append, addrs_append, List.mem_append, List.mem_append] at hy
  simp only [total_append] at hb hy
  obtain ⟨⟨hb1, hb2⟩, hb3⟩ := hb
  rcases hy with (hy | hy) | hy
  · exact Or.inl ⟨hy, (addrs_range m _ _ hb1 y hy).2⟩
  · have := addrs_range m _ _ hb2 y hy
    exact Or.inr (Or.inl ⟨hy, this.1, this.2⟩)
  · rw [← Nat.add_assoc] at hy
    have := addrs_range m _ _ (by rw [← Nat.add_assoc] at hb3; exact hb3) y hy
    exact Or.inr (Or.inr ⟨hy, this.1⟩)

/-- The tag just before a run: the footer of its last block. -/
theorem Blocks_last_footer (m : Nat → Nat) (a : Nat) (pre : List Blk) (b : Blk)
    (hb : Blocks m a (pre ++ [b])) :
    m (a + total (pre ++ [b]) - 8) = pack b.1 b.2 ∧ b.1 % 16 = 0 ∧ 32 ≤ b.1 := by
  rw [Blocks_append] at hb
  obtain ⟨_, h1, h2, _, h4, _⟩ := hb
  simp only [total_append, total_cons, total_nil, Nat.add_zero]
  rw [← Nat.add_assoc]
  exact ⟨h4, h1, h2⟩

/-- Two distinct block addresses of a run are at least 32 bytes apart. -/
theorem addrs_sep (m : Nat → Nat) (a : Nat) (bs : List Blk) (hb : Blocks m a bs)
    (y z : Nat) (hy : y ∈ addrs a bs) (hz : z ∈ addrs a bs) (hne : y ≠ z) : Sep y z := by
  induction bs generalizing a with
  | nil => simp [addrs] at hy
  | cons b l ih =>
    obtain ⟨_, h2, _, _, h5⟩ := hb
    have hr := addrs_range m (a + b.1) l h5
    simp only [addrs, List.mem_cons] at hy hz
    unfold Sep
    rcases hy with hy | hy <;> rcases hz with hz | hz
    · omega
    · have := hr z hz; omega
    · have := hr y hy; omega
    · exact ih _ h5 hy hz

theorem addrs_length (m : Nat → Nat) (a : Nat) (bs : List Blk) (hb : Blocks m a bs) :
    32 * (addrs a bs).length ≤ total bs := by
  induction bs generalizing a with
  | nil => simp [addrs]
  | cons b l ih =>
    obtain ⟨_, h2, _, _, h5⟩ := hb
    have := ih _ h5
    simp only [addrs, List.length_cons, total_cons]
    omega

theorem addrs_nodup (m : Nat → Nat) (a : Nat) (bs : List Blk) (hb : Blocks m a bs) :
    (addrs a bs).Nodup := by
  induction bs generalizing a with
  | nil => simp [addrs]
  | cons b l ih =>
    obtain ⟨_, h2, _, _, h5⟩ := hb
    simp only [addrs, List.nodup_cons]
    refine ⟨fun hm => ?_, ih _ h5⟩
    have := addrs_range m _ _ h5 a hm
    omega

/-! ## Facts read off the invariant -/

/-- What the tiling says about one block of the run. -/
theorem Tiled.block_at (h : Heap) (pre post : List Blk) (b : Blk)
    (ht : Tiled h (pre ++ b :: post)) :
    h.mem (h.heap_start + total pre) = pack b.1 b.2 ∧
    h.mem (h.heap_start + total pre + b.1 - 8) = pack b.1 b.2 ∧
    b.1 % 16 = 0 ∧ 32 ≤ b.1 ∧
    h.heap_start + total pre + b.1 + total post + 8 = h.mem_brk ∧
    h.mem_brk < W - 1 ∧ h.heap_start = h.mem_start_brk + 8 := by
  have hb := ht.blocks
  rw [Blocks_append, Blocks_cons] at hb
  obtain ⟨_, h1, h2, h3, h4, _⟩ := hb
  have hk := ht.brk
  simp only [total_append, total_cons] at hk
  exact ⟨h3, h4, h1, h2, by omega, ht.bound, ht.start⟩

/-- The header that follows a block: the header of the next block, or the
epilogue header. -/
theorem Tiled.next_tag (h : Heap) (pre post : List Blk) (b : Blk)
    (ht : Tiled h (pre ++ b :: post)) :
    h.mem (h.heap_start + total pre + b.1) =
      pack (post.headD (0, true)).1 (post.headD (0, true)).2 ∧
    (post.headD (0, true)).1 % 16 = 0 := by
  cases post with
  | nil =>
    have he := ht.epilogue
    simp only [total_append, total_cons, total_nil, Nat.add_zero] at he
    rw [← Nat.add_assoc] at he
    exact ⟨he, rfl⟩
  | cons c post =>
    have hb := ht.blocks
    rw [Blocks_append, Blocks_cons, Blocks_cons] at hb
    obtain ⟨_, _, _, _, _, h1, _, h3, _⟩ := hb
    exact ⟨h3, h1⟩

/-- The footer that precedes a block: the footer of the previous block, or
the prologue footer. -/
theorem Tiled.prev_tag (h : Heap) (pre post : List Blk) (b : Blk)
    (ht : Tiled h (pre ++ b :: post)) :
    h.mem (h.heap_start + total pre - 8) =
      pack (pre.getLastD (0, true)).1 (pre.getLastD (0, true)).2 ∧
    (pre.getLastD (0, true)).1 % 16 = 0 := by
  rcases List.eq_nil_or_concat pre with hp | ⟨pre2, c, hp⟩
  · subst hp
    have h1 := ht.prologue
    have h2 := ht.start
    simp only [total_nil, Nat.add_zero, List.getLastD_nil]
    rw [h2, Nat.add_sub_cancel]
    exact ⟨h1, trivial⟩
  · rw [List.concat_eq_append] at hp
    subst hp
    have hb := ht.blocks
    rw [Blocks_append] at hb
    have := Blocks_last_footer _ _ _ _ hb.1
    simp only [List.getLastD_concat]
    exact ⟨this.1, this.2.1⟩

/-- Nodes of the free list are blocks of the run. -/
theorem Inv.node_addr (h : Heap) (bs : List Blk) (fl : List Nat) (hi : Inv h bs fl)
    (y : Nat) (hy : y ∈ fl) : y ∈ addrs h.heap_start bs :=
  freeAddrs_sub _ _ _ ((hi.listed y).1 hy)

theorem Tiled.addr_bound (h : Heap) (bs : List Blk) (ht : Tiled h bs)
    (y : Nat) (hy : y ∈ addrs h.heap_start bs) :
    h.mem_start_brk + 8 ≤ y ∧ y + 40 ≤ h.mem_brk ∧ y + 41 < W := by
  have h1 := addrs_range _ _ _ ht.blocks y hy
  have h2 := ht.brk
  have h3 := ht.bound
  have h4 := ht.start
  omega

theorem Inv.node_sep (h : Heap) (bs : List Blk) (fl : List Nat) (hi : Inv h bs fl) :
    fl.Pairwise Sep :=
  hi.nodup.pairwise_of_forall_ne (fun y hy z hz hne =>
    addrs_sep _ _ _ hi.tiled.blocks y z (hi.node_addr _ _ _ y hy) (hi.node_addr _ _ _ z hz) hne)

theorem Inv.node_bound (h : Heap) (bs : List Blk) (fl : List Nat) (hi : Inv h bs fl)
    (y : Nat) (hy : y ∈ fl) : y + 16 < W ∧ y ≠ 0 := by
  have := hi.tiled.addr_bound _ _ y (hi.node_addr _ _ _ y hy)
  omega

/-- Replacing the middle of the run. A state whose memory differs from that
of `h` only inside the region of `mid` and on link fields of the nodes `L`,
and that carries the run `mid2` of the same total size in that region, is
tiled by `pre ++ mid2 ++ post`. -/
theorem Tiled.region (h h2 : Heap) (pre mid mid2 post : List Blk) (L : List Nat)
    (ht : Tiled h (pre ++ mid ++ post))
    (hs1 : h2.mem_start_brk = h.mem_start_brk) (hs2 : h2.mem_brk = h.mem_brk)
    (hs3 : h2.heap_start = h.heap_start)
    (hmid : Blocks h2.mem (h.heap_start + total pre) mid2)
    (htot : total mid2 = total mid)
    (hL : ∀ y ∈ L, y ∈ addrs h.heap_start pre ∨
      (h.heap_start + total pre ≤ y ∧ y + 32 ≤ h.heap_start + total pre + total mid) ∨
      y ∈ addrs (h.heap_start + total pre + total mid) post)
    (hm : ∀ w, (w < h.heap_start + total pre ∨ h.heap_start + total pre + total mid ≤ w) →
      (∀ y ∈ L, w ≠ y + 8 ∧ w ≠ y + 16) → h2.mem w = h.mem w) :
    Tiled h2 (pre ++ mid2 ++ post) := by
  have hb := ht.blocks
  rw [Blocks_append, Blocks_append] at hb
  obtain ⟨⟨hb1, _⟩, hb3⟩ := hb
  simp only [total_append] at hb3
  rw [← Nat.add_assoc] at hb3
  have hk := ht.brk
  simp only [total_append] at hk
  have hst := ht.start
  have hr1 := addrs_range _ _ _ hb1
  have hr3 := addrs_range _ _ _ hb3
  have hlink : ∀ w, (w < h.heap_start ∨ h.heap_start + total pre + total mid + total post ≤ w) →
      ∀ y ∈ L, w ≠ y + 8 ∧ w ≠ y + 16 := by
    intro w hw y hy
    rcases hL y hy with h1 | h1 | h1
    · have := hr1 y h1; constructor <;> omega
    · constructor <;> omega
    · have := hr3 y h1; constructor <;> omega
  constructor
  · rw [hs3, hs1]; exact hst
  · rw [hs1, hm _ (by omega) (hlink _ (by omega))]; exact ht.prologue
  · rw [hs3, Blocks_append, Blocks_append]
    refine ⟨⟨?_, hmid⟩, ?_⟩
    · refine Blocks_frame_part h.mem h2.mem _ pre (h.heap_start + total pre)
        (h.heap_start + total pre + total mid) L hb1 (Or.inl (le_refl _)) ?_ hm
      intro y hy
      rcases hL y hy with h1 | h1 | h1
      · exact Or.inl h1
      · right; right; omega
      · have := hr3 y h1; right; right; omega
    · simp only [total_append, htot]
      rw [← Nat.add_assoc]
      refine Blocks_frame_part h.mem h2.mem _ post (h.heap_start + total pre)
        (h.heap_start + total pre + total mid) L hb3 (Or.inr (le_refl _)) ?_ hm
      intro y hy
      rcases hL y hy with h1 | h1 | h1
      · have := hr1 y h1; right; left; omega
      · right; left; omega
      · exact Or.inl h1
  · rw [hs3]
    simp only [total_append, htot]
    have he := ht.epilogue
    simp only [total_append] at he
    rw [hm _ (by omega) (hlink _ (by omega))]
    exact he
  · rw [hs3, hs2]; simp only [total_append, htot]; exact hk
  · rw [hs2]; exact ht.bound

/-- Where a free block of a run `pre ++ mid ++ post` lies. -/
theorem freeAddrs_loc (m : Nat → Nat) (a : Nat) (pre mid post : List Blk)
    (hb : Blocks m a (pre ++ mid ++ post)) (y : Nat)
    (hy : y ∈ freeAddrs a (pre ++ mid ++ post)) :
    (y ∈ addrs a pre ∧ y + 32 ≤ a + total pre) ∨
    (y ∈ freeAddrs (a + total pre) mid ∧ a + total pre ≤ y ∧
      y + 32 ≤ a + total pre + total mid) ∨
    (y ∈ addrs (a + total pre + total mid) post ∧ a + total pre + total mid ≤ y) := by
  rw [Blocks_append, Blocks_append] at hb
  rw [freeAddrs_append, freeAddrs_append, List.mem_append, List.mem_append] at hy
  simp only [total_append] at hb hy
  obtain ⟨⟨hb1, hb2⟩, hb3⟩ := hb
  rw [← Nat.add_assoc] at hb3 hy
  rcases hy with (hy | hy) | hy
  · have h1 := freeAddrs_sub _ _ _ hy
    exact Or.inl ⟨h1, (addrs_range m _ _ hb1 y h1).2⟩
  · have := addrs_range m _ _ hb2 y (freeAddrs_sub _ _ _ hy)
    exact Or.inr (Or.inl ⟨hy, this.1, this.2⟩)
  · have h1 := freeAddrs_sub _ _ _ hy
    exact Or.inr (Or.inr ⟨h1, (addrs_range m _ _ hb3 y h1).1⟩)

/-! ## Writing a header and its footer -/

theorem get_size_of_tag (h : Heap) (b s : Nat) (a : Bool) (hm : h.mem b = pack s a)
    (hs : s % 16 = 0) (hW : s < W) : get_size h b = s := by
  unfold get_size; rw [hm]; exact extract_size_pack s a hs hW

theorem get_alloc_of_tag (h : Heap) (b s : Nat) (a : Bool) (hm : h.mem b = pack s a)
    (hs : s % 16 = 0) : get_alloc h b = a := by
  unfold get_alloc; rw [hm]; exact extract_alloc_pack s a hs

theorem header_to_footer_eq (h : Heap) (b s : Nat) (hg : get_size h b = s)
    (h16 : 16 ≤ s) (hb : b + s + 8 < W) : header_to_footer h b = b + s - 8 := by
  unfold header_to_footer header_to_payload dsize
  rw [hg, ptr_add_eq b 8 (by omega), ptr_add_eq _ _ (by omega), ptr_sub_eq _ _ (by omega) (by omega)]
  omega

theorem find_next_eq (h : Heap) (b s : Nat) (hg : get_size h b = s) (hb : b + s < W) :
    find_next h b = b + s := by
  unfold find_next; rw [hg]; exact ptr_add_eq _ _ hb

theorem find_prev_footer_eq (b : Nat) (h8 : 8 ≤ b) (hb : b < W) : find_prev_footer b = b - 8 := by
  unfold find_prev_footer wsize; exact ptr_sub_eq _ _ h8 hb

/-- A header write followed by the footer write stores the tag in the first
and the last word of the block of the new size. -/
theorem retag_mem (h : Heap) (b s : Nat) (a : Bool) (hs : s % 16 = 0) (h16 : 16 ≤ s)
    (hb : b + s + 8 < W) :
    (write_footer (write_header h b s a) b s a).mem =
      write (write h.mem b (pack s a)) (b + s - 8) (pack s a) := by
  have hg : get_size (write_header h b s a) b = s :=
    get_size_of_tag _ b s a (by simp) hs (by omega)
  rw [write_footer_mem, header_to_footer_eq _ b s hg h16 hb, write_header_mem]

/-! ## Marking a block free and listing it -/

/-- The first half of `mm_free`: the block gets free tags and becomes the
head of the free list. -/
theorem free_insert_spec (h : Heap) (pre post : List Blk) (sz : Nat) (fl : List Nat)
    (x : Nat) (hx : x = h.heap_start + total pre)
    (hi : Inv h (pre ++ (sz, true) :: post) fl) :
    Inv (insert_block (write_footer (write_header h x sz false) x sz false) x)
      (pre ++ (sz, false) :: post) (x :: fl) ∧
    (∀ w, w ≠ x → w ≠ x + sz - 8 → w ≠ x + 8 → w ≠ x + 16 → (∀ y ∈ fl, w ≠ y + 8) →
      (insert_block (write_footer (write_header h x sz false) x sz false) x).mem w =
        h.mem w) := by
  obtain ⟨_, _, h16, h32, hbrk, hW, hst⟩ := hi.tiled.block_at h pre post (sz, true)
  simp only at h16 h32 hbrk
  rw [← hx] at hbrk
  have hloc : ∀ y ∈ fl, (y ∈ addrs h.heap_start pre ∧ y + 32 ≤ x) ∨
      (y ∈ addrs (x + sz) post ∧ x + sz ≤ y) := by
    intro y hy
    have h1 := freeAddrs_loc h.mem h.heap_start pre [(sz, true)] post
      (by simpa using hi.tiled.blocks) y (by simpa using (hi.listed y).1 hy)
    simp only [freeAddrs, if_true, List.not_mem_nil, false_and, false_or, total_cons,
      total_nil, Nat.add_zero, ← hx] at h1
    exact h1
  have hsep : (x :: fl).Pairwise Sep := by
    rw [List.pairwise_cons]
    refine ⟨fun y hy => ?_, hi.node_sep⟩
    unfold Sep
    rcases hloc y hy with h1 | h1 <;> omega
  have hbound : ∀ y ∈ x :: fl, y + 16 < W := by
    intro y hy
    rcases List.mem_cons.1 hy with h1 | h1
    · omega
    · exact (hi.node_bound _ _ _ y h1).1
  obtain ⟨q, hq⟩ := hi.chain
  have hmem2 := retag_mem h x sz false h16 (by omega) (by omega)
  have hseg2 : Seg (write_footer (write_header h x sz false) x sz false).mem 0
      (write_footer (write_header h x sz false) x sz false).free_list_head fl q 0 := by
    rw [hmem2]
    refine Seg_congr _ _ _ _ _ _ _ (fun y hy => ?_) hq
    rcases hloc y hy with h1 | h1 <;>
      constructor <;>
      rw [write_other _ _ _ _ (by omega), write_other _ _ _ _ (by omega)]
  obtain ⟨⟨q2, hins⟩, hfr⟩ := insert_block_spec _ x fl q hseg2 (by omega) hsep hbound
  have hframe : ∀ w, w ≠ x → w ≠ x + sz - 8 → w ≠ x + 8 → w ≠ x + 16 →
      (∀ y ∈ fl, w ≠ y + 8) →
      (insert_block (write_footer (write_header h x sz false) x sz false) x).mem w =
        h.mem w := by
    intro w h1 h2 h3 h4 h5
    rw [hfr w h3 h4 h5, hmem2, write_other _ _ _ _ h2, write_other _ _ _ _ h1]
  have hlnk : ∀ y ∈ fl, x ≠ y + 8 ∧ x + sz - 8 ≠ y + 8 := by
    intro y hy
    rcases hloc y hy with h1 | h1 <;> constructor <;> omega
  refine ⟨⟨?_, ⟨q2, by rw [insert_block_head]; exact hins⟩, ?_, ?_⟩, hframe⟩
  · have ht := Tiled.region h
      (insert_block (write_footer (write_header h x sz false) x sz false) x)
      pre [(sz, true)] [(sz, false)] post (x :: fl)
      (by simpa using hi.tiled) (by simp) (by simp) (by simp) ?_ (by simp) ?_ ?_
    · simpa using ht
    · rw [← hx]
      refine ⟨h16, h32, ?_, ?_, trivial⟩
      · rw [hfr x (by omega) (by omega) (fun y hy => (hlnk y hy).1), hmem2,
          write_other _ _ _ _ (by omega), write_same]
      · show _ = pack sz false
        rw [hfr _ (by omega) (by omega) (fun y hy => (hlnk y hy).2), hmem2, write_same]
    · intro y hy
      simp only [total_cons, total_nil, Nat.add_zero, ← hx]
      rcases List.mem_cons.1 hy with h1 | h1
      · right; left; omega
      · rcases hloc y h1 with h2 | h2
        · exact Or.inl h2.1
        · exact Or.inr (Or.inr h2.1)
    · intro w hw hl
      simp only [total_cons, total_nil, Nat.add_zero, ← hx] at hw
      have hlx := hl x (by simp)
      exact hframe w (by omega) (by omega) hlx.1 hlx.2
        (fun y hy => (hl y (List.mem_cons_of_mem _ hy)).1)
  · rw [List.nodup_cons]
    refine ⟨fun hm => ?_, hi.nodup⟩
    rcases hloc x hm with h1 | h1 <;> omega
  · intro y
    have := hi.listed y
    simp only [insert_block_heap_start, write_footer_heap_start, write_header_heap_start]
    simp only [freeAddrs_append, freeAddrs, List.mem_append, if_true, List.mem_cons,
      Bool.false_eq_true, if_false, ← hx] at this ⊢
    rw [this]
    tauto

/-! ## Merging two neighbouring free blocks -/

/-- One merge of `coalesce_block`: the first block takes the combined size in
its header and in the footer at the end of the second block, and the second
block leaves the free list. -/
theorem merge_spec (h : Heap) (pre post : List Blk) (s1 s2 : Nat) (fl : List Nat)
    (x c : Nat) (hx : x = h.heap_start + total pre) (hc : c = s1 + s2)
    (hi : Inv h (pre ++ (s1, false) :: (s2, false) :: post) fl) :
    Inv (remove_block (write_footer (write_header h x c false) x c false) (x + s1))
      (pre ++ (c, false) :: post) (fl.erase (x + s1)) ∧
    (∀ w, w ≠ x → w ≠ x + c - 8 → (∀ y ∈ fl.erase (x + s1), w ≠ y + 8 ∧ w ≠ y + 16) →
      (remove_block (write_footer (write_header h x c false) x c false) (x + s1)).mem w =
        h.mem w) := by
  obtain ⟨_, _, h16, h32, hbrk, hW, hst⟩ :=
    hi.tiled.block_at h pre ((s2, false) :: post) (s1, false)
  have hi2 : Inv h ((pre ++ [(s1, false)]) ++ (s2, false) :: post) fl := by simpa using hi
  obtain ⟨_, _, h16b, h32b, _, _, _⟩ :=
    hi2.tiled.block_at h (pre ++ [(s1, false)]) post (s2, false)
  simp only [total_cons] at h16 h32 hbrk h16b h32b
  rw [← hx] at hbrk
  have hloc : ∀ y ∈ fl, (y ∈ addrs h.heap_start pre ∧ y + 32 ≤ x) ∨ y = x ∨ y = x + s1 ∨
      (y ∈ addrs (x + c) post ∧ x + c ≤ y) := by
    intro y hy
    have h1 := freeAddrs_loc h.mem h.heap_start pre [(s1, false), (s2, false)] post
      (by simpa using hi.tiled.blocks) y (by simpa using (hi.listed y).1 hy)
    simp only [freeAddrs, Bool.false_eq_true, if_false, List.mem_cons, List.not_mem_nil,
      or_false, total_cons, total_nil, Nat.add_zero, ← hx] at h1
    rw [← hc] at h1
    rcases h1 with h1 | h1 | h1
    · exact Or.inl h1
    · rcases h1.1 with h2 | h2
      · exact Or.inr (Or.inl h2)
      · exact Or.inr (Or.inr (Or.inl h2))
    · exact Or.inr (Or.inr (Or.inr h1))
  have hmemb : x + s1 ∈ fl := by
    rw [hi.listed, freeAddrs_append, List.mem_append]
    right
    simp [freeAddrs, ← hx]
  obtain ⟨l1, l2, hfl⟩ := List.append_of_mem hmemb
  have hnd := hi.nodup
  rw [hfl] at hnd
  have hnot1 : x + s1 ∉ l1 := by
    intro hm
    have := (List.nodup_append.1 hnd).2.2 hm (List.mem_cons_self _ _)
    exact this
  have hnot2 : x + s1 ∉ l2 := by
    have := (List.nodup_append.1 hnd).2.1
    exact (List.nodup_cons.1 this).1
  have herase : fl.erase (x + s1) = l1 ++ l2 := by
    rw [hfl, List.erase_append_right _ hnot1, List.erase_cons_head]
  have hsub : ∀ y ∈ l1 ++ l2, y ∈ fl ∧ y ≠ x + s1 := by
    intro y hy
    rw [List.mem_append] at hy
    constructor
    · rw [hfl]; simp only [List.mem_append, List.mem_cons]; tauto
    · intro he; subst he; tauto
  have hloc2 : ∀ y ∈ l1 ++ l2, (y ∈ addrs h.heap_start pre ∧ y + 32 ≤ x) ∨ y = x ∨
      (y ∈ addrs (x + c) post ∧ x + c ≤ y) := by
    intro y hy
    obtain ⟨h1, h2⟩ := hsub y hy
    rcases hloc y h1 with h3 | h3 | h3 | h3
    · exact Or.inl h3
    · exact Or.inr (Or.inl h3)
    · exact absurd h3 h2
    · exact Or.inr (Or.inr h3)
  obtain ⟨q, hq⟩ := hi.chain
  have hmem2 := retag_mem h x c false (by omega) (by omega) (by omega)
  have hseg2 : Seg (write_footer (write_header h x c false) x c false).mem 0
      (write_footer (write_header h x c false) x c false).free_list_head
      (l1 ++ (x + s1) :: l2) q 0 := by
    rw [hmem2, ← hfl]
    refine Seg_congr _ _ _ _ _ _ _ (fun y hy => ?_) hq
    rcases hloc y hy with h1 | h1 | h1 | h1 <;>
      constructor <;>
      rw [write_other _ _ _ _ (by omega), write_other _ _ _ _ (by omega)]
  have hsep := hi.node_sep
  rw [hfl] at hsep
  obtain ⟨⟨q2, hrem⟩, hfr⟩ := remove_block_spec _ (x + s1) l1 l2 q hseg2 hsep
    (fun y hy => (hi.node_bound _ _ _ y (by rw [hfl]; exact hy)).1)
  have hframe : ∀ w, w ≠ x → w ≠ x + c - 8 → (∀ y ∈ l1 ++ l2, w ≠ y + 8 ∧ w ≠ y + 16) →
      (remove_block (write_footer (write_header h x c false) x c false) (x + s1)).mem w =
        h.mem w := by
    intro w h1 h2 h3
    rw [hfr w h3, hmem2, write_other _ _ _ _ h2, write_other _ _ _ _ h1]
  have hlnk : ∀ y ∈ l1 ++ l2, (x ≠ y + 8 ∧ x ≠ y + 16) ∧
      (x + c - 8 ≠ y + 8 ∧ x + c - 8 ≠ y + 16) := by
    intro y hy
    rcases hloc2 y hy with h1 | h1 | h1 <;> refine ⟨⟨?_, ?_⟩, ?_, ?_⟩ <;> omega
  rw [herase]
  refine ⟨⟨?_, ⟨q2, hrem⟩, ?_, ?_⟩, hframe⟩
  · have ht := Tiled.region h
      (remove_block (write_footer (write_header h x c false) x c false) (x + s1))
      pre [(s1, false), (s2, false)] [(c, false)] post (l1 ++ l2)
      (by simpa using hi.tiled) (by simp) (by simp) (by simp) ?_ (by simp [hc]) ?_ ?_
    · simpa using ht
    · rw [← hx]
      refine ⟨by show c % 16 = 0; omega, by show 32 ≤ c; omega, ?_, ?_, trivial⟩
      · rw [hfr x (fun y hy => (hlnk y hy).1), hmem2, write_other _ _ _ _ (by omega),
          write_same]
      · show _ = pack c false
        rw [hfr _ (fun y hy => (hlnk y hy).2), hmem2, write_same]
    · intro y hy
      simp only [total_cons, total_nil, Nat.add_zero, ← hx]
      rcases hloc2 y hy with h1 | h1 | h1
      · exact Or.inl h1.1
      · right; left; omega
      · right; right
        rw [← hc]; exact h1.1
    · intro w hw hl
      simp only [total_cons, total_nil, Nat.add_zero, ← hx] at hw
      exact hframe w (by omega) (by omega) hl
  · have := hi.nodup.erase (x + s1)
    rw [herase] at this
    exact this
  · intro y
    have h1 : y ∈ l1 ++ l2 ↔ y ∈ fl ∧ y ≠ x + s1 := by
      rw [← herase, hi.nodup.mem_erase_iff]; tauto
    rw [h1, hi.listed y]
    simp only [remove_block_heap_start, write_footer_heap_start, write_header_heap_start]
    have hb := hi.tiled.blocks
    rw [Blocks_append] at hb
    have hr1 := fun z hz => addrs_range _ _ _ hb.1 z (freeAddrs_sub _ _ _ hz)
    have hb3 : Blocks h.mem (x + c) post := by
      have := hb.2
      rw [Blocks_cons, Blocks_cons] at this
      rw [hx, hc, ← Nat.add_assoc]
      exact this.2.2.2.2.2.2.2.2
    have hr3 := fun z hz => addrs_range _ _ _ hb3 z (freeAddrs_sub _ _ _ hz)
    simp only [freeAddrs_append, freeAddrs, List.mem_append, List.mem_cons,
      Bool.false_eq_true, if_false, ← hx]
    rw [show x + s1 + s2 = x + c by omega]
    constructor
    · rintro ⟨h2 | h2 | h2 | h2, h3⟩
      · exact Or.inl h2
      · exact Or.inr (Or.inl h2)
      · exact absurd h2 h3
      · exact Or.inr (Or.inr h2)
    · rintro (h2 | h2 | h2)
      · have := hr1 y h2
        exact ⟨Or.inl h2, by omega⟩
      · exact ⟨Or.inr (Or.inl h2), by omega⟩
      · have := hr3 y h2
        exact ⟨Or.inr (Or.inr (Or.inr h2)), by omega⟩

/-! ## Coalescing -/

theorem coalesce_block_of_next_alloc (h : Heap) (x : Nat)
    (hn : get_alloc h (find_next h x) = true) :
    coalesce_block h x =
      if extract_alloc (h.mem (find_prev_footer x)) = false then
        (remove_block
          (write_footer
            (write_header h (find_prev h x)
              ((get_size h x + get_size h (find_prev h x)) % W) false)
            (find_prev h x) ((get_size h x + get_size h (find_prev h x)) % W) false) x,
          find_prev h x)
      else (h, x) := by
  unfold coalesce_block
  simp [hn]

theorem coalesce_block_of_next_free (h : Heap) (x : Nat)
    (hn : get_alloc h (find_next h x) = false) :
    coalesce_block h x =
      if extract_alloc
          ((remove_block
            (write_footer
              (write_header h x ((get_size h x + get_size h (find_next h x)) % W) false)
              x ((get_size h x + get_size h (find_next h x)) % W) false)
            (find_next h x)).mem (find_prev_footer x)) = false then
        (remove_block
          (write_footer
            (write_header
              (remove_block
                (write_footer
                  (write_header h x ((get_size h x + get_size h (find_next h x)) % W) false)
                  x ((get_size h x + get_size h (find_next h x)) % W) false)
                (find_next h x))
              (find_prev h x)
              (((get_size h x + get_size h (find_next h x)) % W +
                get_size
                  (remove_block
                    (write_footer
                      (write_header h x ((get_size h x + get_size h (find_next h x)) % W)
                        false)
                      x ((get_size h x + get_size h (find_next h x)) % W) false)
                    (find_next h x))
                  (find_prev h x)) % W) false)
            (find_prev h x)
            (((get_size h x + get_size h (find_next h x)) % W +
                get_size
                  (remove_block
                    (write_footer
                      (write_header h x ((get_size h x + get_size h (find_next h x)) % W)
                        false)
                      x ((get_size h x + get_size h (find_next h x)) % W) false)
                    (find_next h x))
                  (find_prev h x)) % W) false) x,
          find_prev h x)
      else
        (remove_block
          (write_footer
            (write_header h x ((get_size h x + get_size h (find_next h x)) % W) false)
            x ((get_size h x + get_size h (find_next h x)) % W) false)
          (find_next h x), x) := by
  unfold coalesce_block
  simp [hn]

/-- A run is empty or ends with a block. -/
theorem blk_last_cases (pre : List Blk) :
    (pre.getLastD (0, true)).2 = true ∨ ∃ pre2 sp, pre = pre2 ++ [(sp, false)] := by
  rcases List.eq_nil_or_concat pre with hp | ⟨pre2, c, hp⟩
  · subst hp; left; rfl
  · rw [List.concat_eq_append] at hp
    subst hp
    obtain ⟨s, f⟩ := c
    cases f
    · right; exact ⟨pre2, s, rfl⟩
    · left; simp

theorem blk_head_cases (post : List Blk) :
    (post.headD (0, true)).2 = true ∨ ∃ sn post2, post = (sn, false) :: post2 := by
  cases post with
  | nil => left; rfl
  | cons c post2 =>
    obtain ⟨s, f⟩ := c
    cases f
    · right; exact ⟨s, post2, rfl⟩
    · left; rfl

/-- What `coalesce_block` reads around a block of the run. -/
theorem Tiled.reads (h : Heap) (pre post : List Blk) (b : Blk) (x : Nat)
    (hx : x = h.heap_start + total pre) (ht : Tiled h (pre ++ b :: post)) :
    get_size h x = b.1 ∧ get_alloc h x = b.2 ∧ find_next h x = x + b.1 ∧
    find_prev_footer x = x - 8 ∧
    get_alloc h (x + b.1) = (post.headD (0, true)).2 ∧
    extract_alloc (h.mem (x - 8)) = (pre.getLastD (0, true)).2 ∧
    extract_size (h.mem (x - 8)) = (pre.getLastD (0, true)).1 := by
  obtain ⟨h1, _, h16, h32, hbrk, hW, hst⟩ := ht.block_at h pre post b
  obtain ⟨h5, h6⟩ := ht.next_tag h pre post b
  obtain ⟨h7, h8⟩ := ht.prev_tag h pre post b
  rw [← hx] at h1 hbrk h5 h7
  have hg : get_size h x = b.1 := get_size_of_tag h x b.1 b.2 h1 h16 (by omega)
  have hlast : (pre.getLastD (0, true)).1 ≤ total pre := by
    rcases List.eq_nil_or_concat pre with hp | ⟨pre2, c, hp⟩
    · subst hp; simp
    · rw [List.concat_eq_append] at hp
      subst hp; simp
  refine ⟨hg, get_alloc_of_tag h x b.1 b.2 h1 h16, find_next_eq h x b.1 hg (by omega),
    find_prev_footer_eq x (by omega) (by omega), get_alloc_of_tag h _ _ _ h5 h6, ?_, ?_⟩
  · rw [h7]; exact extract_alloc_pack _ _ h8
  · rw [h7]; exact extract_size_pack _ _ h8 (by omega)

/-- Both neighbours allocated: `coalesce_block` changes nothing. -/
theorem coalesce_nn (h : Heap) (pre post : List Blk) (b : Blk) (x : Nat)
    (hx : x = h.heap_start + total pre) (ht : Tiled h (pre ++ b :: post))
    (hn : (post.headD (0, true)).2 = true) (hp : (pre.getLastD (0, true)).2 = true) :
    coalesce_block h x = (h, x) := by
  obtain ⟨_, _, h3, h4, h5, h6, _⟩ := ht.reads h pre post b x hx
  rw [coalesce_block_of_next_alloc h x (by rw [h3, h5, hn]), h4, h6, hp]
  simp

/-- What `coalesce_block` reads at a block that is followed by a block. -/
theorem Tiled.reads_next (h : Heap) (pre post : List Blk) (sz sn : Nat) (f1 f2 : Bool)
    (x : Nat) (hx : x = h.heap_start + total pre)
    (ht : Tiled h (pre ++ (sz, f1) :: (sn, f2) :: post)) :
    get_size h x = sz ∧ find_next h x = x + sz ∧ get_size h (x + sz) = sn ∧
    get_alloc h (x + sz) = f2 ∧ (sz + sn) % W = sz + sn ∧ find_prev_footer x = x - 8 := by
  obtain ⟨h1, _, h3, h4, h5, _, _⟩ := ht.reads h pre _ (sz, f1) x hx
  have ht2 : Tiled h ((pre ++ [(sz, f1)]) ++ (sn, f2) :: post) := by simpa using ht
  obtain ⟨g1, _, _, _, _, _, _⟩ := ht2.reads h (pre ++ [(sz, f1)]) post (sn, f2)
    (x + sz) (by simp [hx]; omega)
  obtain ⟨_, _, _, _, hbrk, hW, _⟩ := ht.block_at h pre _ (sz, f1)
  simp only [total_cons] at hbrk
  exact ⟨h1, h3, g1, h5, Nat.mod_eq_of_lt (by omega), h4⟩

/-- What `coalesce_block` reads at a block that follows a block. -/
theorem Tiled.reads_prev (h : Heap) (pre post : List Blk) (sp sz : Nat) (f1 f2 : Bool)
    (x : Nat) (hx : x = h.heap_start + total pre + sp)
    (ht : Tiled h (pre ++ (sp, f1) :: (sz, f2) :: post)) :
    find_prev_footer x = x - 8 ∧ extract_alloc (h.mem (x - 8)) = f1 ∧
    find_prev h x = x - sp ∧ get_size h (x - sp) = sp ∧ (sz + sp) % W = sp + sz ∧
    get_size h x = sz ∧ find_next h x = x + sz ∧
    get_alloc h (x + sz) = (post.headD (0, true)).2 := by
  have ht2 : Tiled h ((pre ++ [(sp, f1)]) ++ (sz, f2) :: post) := by simpa using ht
  obtain ⟨g1, _, g3, g4, g5, g6, g7⟩ := ht2.reads h (pre ++ [(sp, f1)]) post
    (sz, f2) x (by simp [hx]; omega)
  simp only [List.getLastD_concat] at g6 g7
  obtain ⟨h1, _, _, _, _, _, _⟩ := ht.reads h pre _ (sp, f1) (x - sp) (by omega)
  obtain ⟨_, _, _, _, hbrk, hW, _⟩ := ht.block_at h pre _ (sp, f1)
  simp only [total_cons] at hbrk
  refine ⟨g4, g6, ?_, h1, ?_, g1, g3, g5⟩
  · unfold find_prev
    rw [g4, g7]
    exact ptr_sub_eq _ _ (by omega) (by omega)
  · rw [Nat.mod_eq_of_lt (by omega)]; omega

/-- Only the next block is free: it is merged into the block. -/
theorem coalesce_next (h : Heap) (pre post : List Blk) (sz sn : Nat) (fl : List Nat)
    (x : Nat) (hx : x = h.heap_start + total pre)
    (hi : Inv h (pre ++ (sz, false) :: (sn, false) :: post) fl)
    (hp : (pre.getLastD (0, true)).2 = true) :
    (coalesce_block h x).2 = x ∧
    Inv (coalesce_block h x).1 (pre ++ (sz + sn, false) :: post) (fl.erase (x + sz)) ∧
    (∀ w, w ≠ x → w ≠ x + (sz + sn) - 8 → (∀ y ∈ fl, w ≠ y + 8 ∧ w ≠ y + 16) →
      (coalesce_block h x).1.mem w = h.mem w) := by
  obtain ⟨r1, r2, r3, r4, r5, r6⟩ := hi.tiled.reads_next h pre post sz sn false false x hx
  obtain ⟨h2, h4⟩ := merge_spec h pre post sz sn fl x (sz + sn) hx rfl hi
  obtain ⟨_, _, _, _, _, k6, _⟩ := h2.tiled.reads _ pre post (sz + sn, false) x (by simp [hx])
  rw [coalesce_block_of_next_free h x (by rw [r2, r4])]
  simp only [r1, r2, r3, r5, r6]
  rw [k6, hp]
  simp only [Bool.true_eq_false, if_false]
  exact ⟨trivial, h2, fun w w1 w2 w3 =>
    h4 w w1 w2 (fun y hy => w3 y (List.mem_of_mem_erase hy))⟩

/-- Only the previous block is free: the block is merged into it. -/
theorem coalesce_prev (h : Heap) (pre post : List Blk) (sp sz : Nat) (fl : List Nat)
    (x : Nat) (hx : x = h.heap_start + total pre + sp)
    (hi : Inv h (pre ++ (sp, false) :: (sz, false) :: post) fl)
    (hn : (post.headD (0, true)).2 = true) :
    (coalesce_block h x).2 = x - sp ∧
    Inv (coalesce_block h x).1 (pre ++ (sp + sz, false) :: post) (fl.erase x) ∧
    (∀ w, w ≠ x - sp → w ≠ x + sz - 8 → (∀ y ∈ fl, w ≠ y + 8 ∧ w ≠ y + 16) →
      (coalesce_block h x).1.mem w = h.mem w) := by
  obtain ⟨r1, r2, r3, r4, r5, r6, r7, r8⟩ :=
    hi.tiled.reads_prev h pre post sp sz false false x hx
  obtain ⟨h2, h4⟩ := merge_spec h pre post sp sz fl (x - sp) (sp + sz) (by omega) rfl hi
  have e : x - sp + sp = x := by omega
  rw [e] at h2 h4
  rw [coalesce_block_of_next_alloc h x (by rw [r7, r8]; exact hn)]
  simp only [r1, r2, r3, r4, r5, r6, if_true]
  exact ⟨trivial, h2, fun w w1 w2 w3 =>
    h4 w w1 (by omega) (fun y hy => w3 y (List.mem_of_mem_erase hy))⟩

/-- Both neighbours are free: the three blocks become one. -/
theorem coalesce_both (h : Heap) (pre post : List Blk) (sp sz sn : Nat) (fl : List Nat)
    (x : Nat) (hx : x = h.heap_start + total pre + sp)
    (hi : Inv h (pre ++ (sp, false) :: (sz, false) :: (sn, false) :: post) fl) :
    (coalesce_block h x).2 = x - sp ∧
    Inv (coalesce_block h x).1 (pre ++ (sp + (sz + sn), false) :: post)
      ((fl.erase (x + sz)).erase x) ∧
    (coalesce_block h x).1.mem x = pack (sz + sn) false ∧
    (∀ w, w ≠ x → w ≠ x - sp → w ≠ x + (sz + sn) - 8 →
      (∀ y ∈ fl, w ≠ y + 8 ∧ w ≠ y + 16) →
      (coalesce_block h x).1.mem w = h.mem w) := by
  have hi2 : Inv h ((pre ++ [(sp, false)]) ++ (sz, false) :: (sn, false) :: post) fl := by
    simpa using hi
  have hx2 : x = h.heap_start + total (pre ++ [(sp, false)]) := by simp [hx]; omega
  obtain ⟨r1, r2, r3, r4, r5, r6⟩ :=
    hi2.tiled.reads_next h _ post sz sn false false x hx2
  obtain ⟨p1, p2, p3, _, _, _, _, _⟩ :=
    hi.tiled.reads_prev h pre _ sp sz false false x hx
  obtain ⟨h2, h4⟩ := merge_spec h _ post sz sn fl x (sz + sn) hx2 rfl hi2
  have h2b : Inv (remove_block
        (write_footer (write_header h x (sz + sn) false) x (sz + sn) false) (x + sz))
      (pre ++ (sp, false) :: (sz + sn, false) :: post) (fl.erase (x + sz)) := by
    simpa using h2
  obtain ⟨q1, q2, q3, q4, q5, _, _, _⟩ :=
    h2b.tiled.reads_prev _ pre post sp (sz + sn) false false x (by simp [hx])
  obtain ⟨m2, m4⟩ := merge_spec _ pre post sp (sz + sn) (fl.erase (x + sz)) (x - sp)
    (sp + (sz + sn)) (by simp; omega) rfl h2b
  have e : x - sp + sp = x := by omega
  rw [e] at m2 m4
  rw [coalesce_block_of_next_free h x (by rw [r2, r4])]
  simp only [r1, r2, r3, r5, r6, p3, q2, q4, q5, if_true]
  obtain ⟨t1, _, _, k32, hbrk, hW, _⟩ := h2.tiled.block_at _ (pre ++ [(sp, false)]) post
    (sz + sn, false)
  simp only [remove_block_heap_start, write_footer_heap_start, write_header_heap_start,
    ← hx2] at t1
  have hsepx : ∀ y ∈ (fl.erase (x + sz)).erase x, x ≠ y + 8 ∧ x ≠ y + 16 := by
    intro y hy
    have hy1 : y ∈ fl.erase (x + sz) := List.mem_of_mem_erase hy
    have hyx : y ≠ x := ((h2.nodup.mem_erase_iff).1 hy).1
    have hxm : x ∈ fl := by
      rw [hi.listed, freeAddrs_append, List.mem_append]
      right; simp [freeAddrs, hx]
    have := addrs_sep _ _ _ hi.tiled.blocks y x
      (hi.node_addr _ _ _ y (List.mem_of_mem_erase hy1)) (hi.node_addr _ _ _ x hxm) hyx
    unfold Sep at this
    constructor <;> omega
  obtain ⟨_, _, _, s32, _, _, _⟩ := hi2.tiled.block_at h _ _ (sz, false)
  obtain ⟨_, _, _, p32, _, _, _⟩ := hi.tiled.block_at h _ _ (sp, false)
  simp only at s32 k32 p32
  refine ⟨trivial, m2, ?_, ?_⟩
  · rw [m4 x (by omega) (by omega) hsepx]
    exact t1
  · intro w w1 w2 w3 w4
    rw [m4 w w2 (by omega)
      (fun y hy => w4 y (List.mem_of_mem_erase (List.mem_of_mem_erase hy)))]
    exact h4 w w1 w3 (fun y hy => w4 y (List.mem_of_mem_erase hy))

/-! ## Neighbouring free blocks -/

theorem NoAdj_mid (pre post : List Blk) (b : Blk) :
    NoAdj (pre ++ b :: post) ↔
      NoAdj pre ∧ NoAdj post ∧ ((pre.getLastD (0, true)).2 = true ∨ b.2 = true) ∧
        (b.2 = true ∨ (post.headD (0, true)).2 = true) := by
  unfold NoAdj
  rw [List.chain'_append, List.chain'_cons']
  have e1 : (∀ x ∈ pre.getLast?, ∀ y ∈ (b :: post).head?, x.2 = true ∨ y.2 = true) ↔
      ((pre.getLastD (0, true)).2 = true ∨ b.2 = true) := by
    rcases List.eq_nil_or_concat pre with hp | ⟨pre2, c, hp⟩
    · subst hp; simp
    · rw [List.concat_eq_append] at hp
      subst hp; simp
  have e2 : (∀ y ∈ post.head?, b.2 = true ∨ y.2 = true) ↔
      (b.2 = true ∨ (post.headD (0, true)).2 = true) := by
    cases post with
    | nil => simp
    | cons c post2 => simp
  rw [e1, e2]
  tauto

theorem NoAdj_nil : NoAdj [] := List.chain'_nil

@[simp] theorem coalesce_block_start_brk (h : Heap) (x : Nat) :
    (coalesce_block h x).1.mem_start_brk = h.mem_start_brk := by
  unfold coalesce_block; dsimp only; split_ifs <;> simp
@[simp] theorem coalesce_block_brk (h : Heap) (x : Nat) :
    (coalesce_block h x).1.mem_brk = h.mem_brk := by
  unfold coalesce_block; dsimp only; split_ifs <;> simp
@[simp] theorem coalesce_block_heap_start (h : Heap) (x : Nat) :
    (coalesce_block h x).1.heap_start = h.heap_start := by
  unfold coalesce_block; dsimp only; split_ifs <;> simp

/-- The header of a block of the run. -/
theorem Tiled.header_at (h : Heap) (pre post : List Blk) (b : Blk) (x : Nat)
    (hx : x = h.heap_start + total pre) (ht : Tiled h (pre ++ b :: post)) :
    h.mem x = pack b.1 b.2 := by
  rw [hx]; exact (ht.block_at h pre post b).1

/-! ## The function `mm_free` -/

/-- On the payload pointer of an allocated block, `mm_free` marks the block
free, lists it and coalesces it. -/
theorem mm_free_eq (h : Heap) (pre post : List Blk) (sz : Nat) (x : Nat)
    (hx : x = h.heap_start + total pre) (ht : Tiled h (pre ++ (sz, true) :: post)) :
    mm_free h (x + 8) =
      (coalesce_block
        (insert_block (write_footer (write_header h x sz false) x sz false) x) x).1 := by
  obtain ⟨h1, h2, _, _, _, _, _⟩ := ht.reads h pre post (sz, true) x hx
  obtain ⟨_, _, _, _, hbrk, hW, hst⟩ := ht.block_at h pre post (sz, true)
  have hph : payload_to_header (x + 8) = x := by
    unfold payload_to_header
    rw [ptr_sub_eq _ _ (by omega) (by omega)]; omega
  unfold mm_free
  rw [if_neg (by omega)]
  simp [hph, h1, h2]

/-- Freeing a block whose neighbours are both allocated. -/
theorem mm_free_nn (h : Heap) (pre post : List Blk) (sz : Nat) (fl : List Nat) (x : Nat)
    (hx : x = h.heap_start + total pre) (hi : Inv h (pre ++ (sz, true) :: post) fl)
    (hp : (pre.getLastD (0, true)).2 = true) (hn : (post.headD (0, true)).2 = true) :
    Inv (mm_free h (x + 8)) (pre ++ (sz, false) :: post) (x :: fl) ∧
    (mm_free h (x + 8)).mem x = pack sz false := by
  obtain ⟨h1, _⟩ := free_insert_spec h pre post sz fl x hx hi
  rw [mm_free_eq h pre post sz x hx hi.tiled,
    coalesce_nn _ pre post (sz, false) x (by simp [hx]) h1.tiled hn hp]
  exact ⟨h1, h1.tiled.header_at _ pre post (sz, false) x (by simp [hx])⟩

/-- Freeing a block whose next neighbour only is free. -/
theorem mm_free_next (h : Heap) (pre post : List Blk) (sz sn : Nat) (fl : List Nat)
    (x : Nat) (hx : x = h.heap_start + total pre)
    (hi : Inv h (pre ++ (sz, true) :: (sn, false) :: post) fl)
    (hp : (pre.getLastD (0, true)).2 = true) :
    Inv (mm_free h (x + 8)) (pre ++ (sz + sn, false) :: post) (x :: fl.erase (x + sz)) ∧
    (mm_free h (x + 8)).mem x = pack (sz + sn) false := by
  obtain ⟨h1, _⟩ := free_insert_spec h pre _ sz fl x hx hi
  obtain ⟨_, _, _, h32, _, _, _⟩ := hi.tiled.block_at h pre _ (sz, true)
  simp only at h32
  obtain ⟨_, c2, _⟩ := coalesce_next _ pre post sz sn (x :: fl) x (by simp [hx]) h1 hp
  rw [mm_free_eq h pre _ sz x hx hi.tiled]
  have e : (x :: fl).erase (x + sz) = x :: fl.erase (x + sz) := by
    rw [List.erase_cons_tail]
    simp; omega
  rw [e] at c2
  exact ⟨c2, c2.tiled.header_at _ pre post (sz + sn, false) x (by simp [hx])⟩

/-- Freeing a block whose previous neighbour only is free. -/
theorem mm_free_prev (h : Heap) (pre post : List Blk) (sp sz : Nat) (fl : List Nat)
    (x : Nat) (hx : x = h.heap_start + total pre + sp)
    (hi : Inv h (pre ++ (sp, false) :: (sz, true) :: post) fl)
    (hn : (post.headD (0, true)).2 = true) :
    Inv (mm_free h (x + 8)) (pre ++ (sp + sz, false) :: post) fl ∧
    (mm_free h (x + 8)).mem x = pack sz false := by
  have hi2 : Inv h ((pre ++ [(sp, false)]) ++ (sz, true) :: post) fl := by simpa using hi
  have hx2 : x = h.heap_start + total (pre ++ [(sp, false)]) := by simp [hx]; omega
  obtain ⟨h1, _⟩ := free_insert_spec h _ post sz fl x hx2 hi2
  have h1b : Inv (insert_block (write_footer (write_header h x sz false) x sz false) x)
      (pre ++ (sp, false) :: (sz, false) :: post) (x :: fl) := by simpa using h1
  obtain ⟨_, _, _, h32, hbrk, hW, hst⟩ := hi2.tiled.block_at h _ post (sz, true)
  obtain ⟨_, _, _, p32, _, _, _⟩ := hi.tiled.block_at h pre _ (sp, false)
  simp only at h32 p32
  obtain ⟨_, c2, c3⟩ := coalesce_prev _ pre post sp sz (x :: fl) x (by simp [hx]) h1b hn
  rw [mm_free_eq h _ post sz x hx2 hi2.tiled]
  rw [List.erase_cons_head] at c2
  refine ⟨c2, ?_⟩
  have hsep := h1.node_sep
  rw [List.pairwise_cons] at hsep
  rw [c3 x (by omega) (by omega) ?_]
  · exact h1.tiled.header_at _ _ post (sz, false) x (by simp [hx]; omega)
  · intro y hy
    rcases List.mem_cons.1 hy with h2 | h2
    · subst h2; constructor <;> omega
    · have := hsep.1 y h2
      unfold Sep at this
      constructor <;> omega

/-- Freeing a block between two free blocks. -/
theorem mm_free_both (h : Heap) (pre post : List Blk) (sp sz sn : Nat) (fl : List Nat)
    (x : Nat) (hx : x = h.heap_start + total pre + sp)
    (hi : Inv h (pre ++ (sp, false) :: (sz, true) :: (sn, false) :: post) fl) :
    Inv (mm_free h (x + 8)) (pre ++ (sp + (sz + sn), false) :: post) (fl.erase (x + sz)) ∧
    (mm_free h (x + 8)).mem x = pack (sz + sn) false := by
  have hi2 : Inv h ((pre ++ [(sp, false)]) ++ (sz, true) :: (sn, false) :: post) fl := by
    simpa using hi
  have hx2 : x = h.heap_start + total (pre ++ [(sp, false)]) := by simp [hx]; omega
  obtain ⟨h1, _⟩ := free_insert_spec h _ _ sz fl x hx2 hi2
  have h1b : Inv (insert_block (write_footer (write_header h x sz false) x sz false) x)
      (pre ++ (sp, false) :: (sz, false) :: (sn, false) :: post) (x :: fl) := by
    simpa using h1
  obtain ⟨_, _, _, h32, _, _, _⟩ := hi2.tiled.block_at h _ _ (sz, true)
  simp only at h32
  obtain ⟨_, c2, c3, _⟩ := coalesce_both _ pre post sp sz sn (x :: fl) x (by simp [hx]) h1b
  rw [mm_free_eq h _ _ sz x hx2 hi2.tiled]
  have e : ((x :: fl).erase (x + sz)).erase x = fl.erase (x + sz) := by
    rw [List.erase_cons_tail (by simp; omega), List.erase_cons_head]
  rw [e] at c2
  exact ⟨c2, c3⟩

/-! ## The free-list search -/

theorem find_fit_loop_spec (h : Heap) (asize : Nat) (l : List Nat) (p c q : Nat)
    (fuel : Nat) (hs : Seg h.mem p c l q 0) (hb : ∀ y ∈ l, y + 16 < W)
    (hf : l.length < fuel) :
    find_fit_loop h asize fuel c = some (first_fit h asize l) := by
  induction l generalizing p c fuel with
  | nil =>
    obtain ⟨hc, _⟩ := hs
    cases fuel with
    | zero => simp at hf
    | succ n => simp [find_fit_loop, hc, first_fit]
  | cons x l ih =>
    obtain ⟨hc, hx0, _, hrest⟩ := hs
    cases fuel with
    | zero => simp at hf
    | succ n =>
      have hxb := hb x (by simp)
      have hn : get_next h x = h.mem (x + 16) := by
        unfold get_next; rw [ptr_add_eq _ _ (by omega)]
      subst hc
      by_cases hfit : asize ≤ get_size h c
      · simp [find_fit_loop, hx0, hfit, first_fit]
      · have := ih _ _ n hrest (fun y hy => hb y (List.mem_cons_of_mem _ hy))
          (by simpa using hf)
        simp only [find_fit_loop, hx0, if_false, ge_iff_le, hfit, hn, this]
        simp [first_fit, hfit]

theorem free_list_loop_spec (h : Heap) (l : List Nat) (p c q : Nat)
    (fuel : Nat) (hs : Seg h.mem p c l q 0) (hb : ∀ y ∈ l, y + 16 < W)
    (hf : l.length < fuel) :
    free_list_loop h fuel c = some l := by
  induction l generalizing p c fuel with
  | nil =>
    obtain ⟨hc, _⟩ := hs
    cases fuel with
    | zero => simp at hf
    | succ n => simp [free_list_loop, hc]
  | cons x l ih =>
    obtain ⟨hc, hx0, _, hrest⟩ := hs
    cases fuel with
    | zero => simp at hf
    | succ n =>
      have hxb := hb x (by simp)
      have hn : get_next h x = h.mem (x + 16) := by
        unfold get_next; rw [ptr_add_eq _ _ (by omega)]
      subst hc
      have := ih _ _ n hrest (fun y hy => hb y (List.mem_cons_of_mem _ hy))
        (by simpa using hf)
      simp [free_list_loop, hx0, hn, this]

/-- The free list is shorter than the fuel of the list walks. -/
theorem Inv.length_lt (h : Heap) (bs : List Blk) (fl : List Nat) (hi : Inv h bs fl) :
    fl.length < h.mem_brk - h.mem_start_brk + 1 := by
  have h1 : fl.length ≤ (addrs h.heap_start bs).length :=
    (List.subperm_of_subset hi.nodup (fun y hy => hi.node_addr _ _ _ y hy)).length_le
  have h2 := addrs_length _ _ _ hi.tiled.blocks
  have h3 := hi.tiled.brk
  have h4 := hi.tiled.start
  omega

/-- In a well-formed heap the search of `find_fit` ends, with the first node
in list order that is large enough. -/
theorem find_fit_spec (h : Heap) (bs : List Blk) (fl : List Nat) (hi : Inv h bs fl)
    (asize : Nat) : find_fit h asize = some (first_fit h asize fl) := by
  obtain ⟨q, hq⟩ := hi.chain
  exact find_fit_loop_spec h asize fl 0 _ q _ hq
    (fun y hy => (hi.node_bound _ _ _ y hy).1) (hi.length_lt _ _ _)

theorem free_list_spec (h : Heap) (bs : List Blk) (fl : List Nat) (hi : Inv h bs fl) :
    free_list h = some fl := by
  obtain ⟨q, hq⟩ := hi.chain
  exact free_list_loop_spec h fl 0 _ q _ hq
    (fun y hy => (hi.node_bound _ _ _ y hy).1) (hi.length_lt _ _ _)

theorem first_fit_zero (h : Heap) (asize : Nat) (l : List Nat) (h0 : ∀ y ∈ l, y ≠ 0) :
    first_fit h asize l = 0 ↔ ∀ y ∈ l, get_size h y < asize := by
  unfold first_fit
  cases hf : l.find? (fun y => decide (asize ≤ get_size h y)) with
  | none =>
    simp only [Option.getD_none, true_iff]
    intro y hy
    have := List.find?_eq_none.1 hf y hy
    simpa using this
  | some r =>
    have h1 := List.mem_of_find?_eq_some hf
    have h2 := List.find?_some hf
    simp only [Option.getD_some]
    constructor
    · intro h3; exact absurd h3 (h0 r h1)
    · intro h3
      have := h3 r h1
      simp at h2
      omega

theorem first_fit_mem (h : Heap) (asize : Nat) (l : List Nat)
    (hne : first_fit h asize l ≠ 0) :
    first_fit h asize l ∈ l ∧ asize ≤ get_size h (first_fit h asize l) := by
  unfold first_fit at hne ⊢
  cases hf : l.find? (fun y => decide (asize ≤ get_size h y)) with
  | none => rw [hf] at hne; simp at hne
  | some r =>
    have h1 := List.mem_of_find?_eq_some hf
    have h2 := List.find?_some hf
    simp only [Option.getD_some]
    exact ⟨h1, by simpa using h2⟩

theorem Inv.pre (h : Heap) (bs : List Blk) (fl : List Nat) (hi : Inv h bs fl) :
    Pre h bs fl :=
  ⟨hi.tiled, hi.chain, hi.nodup, fun y hy => hi.node_addr _ _ _ y hy⟩

theorem Pre.sep_of_nodes (h : Heap) (bs : List Blk) (fl : List Nat) (hp : Pre h bs fl) :
    fl.Pairwise Sep :=
  hp.nodup.pairwise_of_forall_ne (fun y hy z hz hne =>
    addrs_sep _ _ _ hp.tiled.blocks y z (hp.nodes y hy) (hp.nodes z hz) hne)

theorem Pre.bound_of_nodes (h : Heap) (bs : List Blk) (fl : List Nat) (hp : Pre h bs fl)
    (y : Nat) (hy : y ∈ fl) : y + 16 < W ∧ y ≠ 0 := by
  have := hp.tiled.addr_bound _ _ y (hp.nodes y hy)
  omega

/-- Stores into link fields of blocks keep the tiling. -/
theorem Tiled.links (h h2 : Heap) (bs : List Blk) (L : List Nat) (ht : Tiled h bs)
    (hs1 : h2.mem_start_brk = h.mem_start_brk) (hs2 : h2.mem_brk = h.mem_brk)
    (hs3 : h2.heap_start = h.heap_start)
    (hL : ∀ y ∈ L, y ∈ addrs h.heap_start bs)
    (hm : ∀ w, (∀ y ∈ L, w ≠ y + 8 ∧ w ≠ y + 16) → h2.mem w = h.mem w) :
    Tiled h2 bs := by
  have := Tiled.region h h2 bs [] [] [] L (by simpa using ht) hs1 hs2 hs3 trivial rfl
    (fun y hy => Or.inl (hL y hy)) (fun w _ hw => hm w hw)
  simpa using this

/-- Removing a node of the list in a state between two steps. -/
theorem Pre.remove (h : Heap) (bs : List Blk) (fl : List Nat) (hp : Pre h bs fl)
    (x : Nat) (hx : x ∈ fl) :
    Pre (remove_block h x) bs (fl.erase x) ∧
    (∀ w, (∀ y ∈ fl.erase x, w ≠ y + 8 ∧ w ≠ y + 16) →
      (remove_block h x).mem w = h.mem w) := by
  obtain ⟨l1, l2, hfl⟩ := List.append_of_mem hx
  have hnd := hp.nodup
  rw [hfl] at hnd
  have hnot1 : x ∉ l1 := fun hm =>
    (List.nodup_append.1 hnd).2.2 hm (List.mem_cons_self _ _)
  have herase : fl.erase x = l1 ++ l2 := by
    rw [hfl, List.erase_append_right _ hnot1, List.erase_cons_head]
  obtain ⟨q, hq⟩ := hp.chain
  have hsep := hp.sep_of_nodes
  rw [hfl] at hq hsep
  obtain ⟨⟨q2, hrem⟩, hfr⟩ := remove_block_spec h x l1 l2 q hq hsep
    (fun y hy => (hp.bound_of_nodes _ _ _ y (by rw [hfl]; exact hy)).1)
  rw [herase]
  have hsub : ∀ y ∈ l1 ++ l2, y ∈ fl := by
    rw [← herase]; exact fun y hy => List.mem_of_mem_erase hy
  refine ⟨⟨?_, ⟨q2, hrem⟩, ?_, ?_⟩, hfr⟩
  · exact Tiled.links h _ bs (l1 ++ l2) hp.tiled (by simp) (by simp) (by simp)
      (fun y hy => hp.nodes y (hsub y hy)) hfr
  · rw [← herase]; exact hp.nodup.erase x
  · intro y hy
    rw [remove_block_heap_start]
    exact hp.nodes y (hsub y hy)

/-! ## Placing a request in a free block -/

theorem Pre.loc (h : Heap) (pre post : List Blk) (b : Blk) (fl : List Nat) (x : Nat)
    (hx : x = h.heap_start + total pre) (hp : Pre h (pre ++ b :: post) fl) :
    ∀ y ∈ fl, (y ∈ addrs h.heap_start pre ∧ y + 32 ≤ x) ∨ y = x ∨
      (y ∈ addrs (x + b.1) post ∧ x + b.1 ≤ y) := by
  intro y hy
  have h1 := addrs_loc h.mem h.heap_start pre [b] post
    (by simpa using hp.tiled.blocks) y (by simpa using hp.nodes y hy)
  simp only [addrs, List.mem_cons, List.not_mem_nil, or_false, total_cons, total_nil,
    Nat.add_zero, ← hx] at h1
  rcases h1 with h1 | h1 | h1
  · exact Or.inl h1
  · exact Or.inr (Or.inl h1.1)
  · exact Or.inr (Or.inr h1)

/-- The two tag writes of `mm_malloc` that mark the chosen block allocated;
the block is still in the free list. -/
theorem mark_alloc_spec (h : Heap) (pre post : List Blk) (S : Nat) (f : Bool)
    (fl : List Nat) (x : Nat) (hx : x = h.heap_start + total pre)
    (hp : Pre h (pre ++ (S, f) :: post) fl) :
    Pre (write_footer (write_header h x S true) x S true) (pre ++ (S, true) :: post) fl ∧
    (∀ w, w ≠ x → w ≠ x + S - 8 →
      (write_footer (write_header h x S true) x S true).mem w = h.mem w) := by
  obtain ⟨_, _, h16, h32, hbrk, hW, hst⟩ := hp.tiled.block_at h pre post (S, f)
  simp only at h16 h32 hbrk
  rw [← hx] at hbrk
  have hloc := hp.loc h pre post (S, f) fl x hx
  have hmem2 := retag_mem h x S true h16 (by omega) (by omega)
  have hframe : ∀ w, w ≠ x → w ≠ x + S - 8 →
      (write_footer (write_header h x S true) x S true).mem w = h.mem w := by
    intro w h1 h2
    rw [hmem2, write_other _ _ _ _ h2, write_other _ _ _ _ h1]
  obtain ⟨q, hq⟩ := hp.chain
  refine ⟨⟨?_, ⟨q, ?_⟩, hp.nodup, ?_⟩, hframe⟩
  · have ht := Tiled.region h (write_footer (write_header h x S true) x S true)
      pre [(S, f)] [(S, true)] post [] (by simpa using hp.tiled) (by simp) (by simp)
      (by simp) ?_ (by simp) (by simp) ?_
    · simpa using ht
    · rw [← hx]
      refine ⟨h16, h32, ?_, ?_, trivial⟩
      · rw [hmem2, write_other _ _ _ _ (by omega), write_same]
      · show _ = pack S true
        rw [hmem2, write_same]
    · intro w hw _
      simp only [total_cons, total_nil, Nat.add_zero, ← hx] at hw
      exact hframe w (by omega) (by omega)
  · show Seg _ 0 h.free_list_head fl q 0
    refine Seg_congr _ _ _ _ _ _ _ (fun y hy => ?_) hq
    rcases hloc y hy with h1 | h1 | h1 <;>
      constructor <;> exact hframe _ (by omega) (by omega)
  · intro y hy
    have := hp.nodes y hy
    simp only [write_footer_heap_start, write_header_heap_start]
    simpa [addrs_append, addrs] using this

@[simp] theorem split_block_start_brk (h : Heap) (x a : Nat) :
    (split_block h x a).mem_start_brk = h.mem_start_brk := by
  unfold split_block; dsimp only; split_ifs <;> simp
@[simp] theorem split_block_brk (h : Heap) (x a : Nat) :
    (split_block h x a).mem_brk = h.mem_brk := by
  unfold split_block; dsimp only; split_ifs <;> simp
@[simp] theorem split_block_heap_start (h : Heap) (x a : Nat) :
    (split_block h x a).heap_start = h.heap_start := by
  unfold split_block; dsimp only; split_ifs <;> simp

/-- The remainder is too small: `split_block` changes nothing. -/
theorem split_block_whole (h : Heap) (pre post : List Blk) (S : Nat) (f : Bool) (x : Nat)
    (asize : Nat) (hx : x = h.heap_start + total pre) (ht : Tiled h (pre ++ (S, f) :: post))
    (ha : asize ≤ S) (hr : S < asize + 32) : split_block h x asize = h := by
  obtain ⟨h1, _, _, _, _, _, _⟩ := ht.reads h pre post (S, f) x hx
  obtain ⟨_, _, _, _, hbrk, hW, _⟩ := ht.block_at h pre post (S, f)
  simp only at h1 hbrk
  unfold split_block
  rw [h1, sub64_eq S asize ha (by omega)]
  simp [min_block_size]
  omega

/-- Listing a block of the run that is not yet in the list. -/
theorem Pre.insert (h : Heap) (bs : List Blk) (fl : List Nat) (hp : Pre h bs fl)
    (x : Nat) (hx : x ∈ addrs h.heap_start bs) (hnot : x ∉ fl) :
    Pre (insert_block h x) bs (x :: fl) ∧
    (∀ w, w ≠ x + 8 → w ≠ x + 16 → (∀ y ∈ fl, w ≠ y + 8) →
      (insert_block h x).mem w = h.mem w) := by
  have hb := hp.tiled.addr_bound _ _ x hx
  have hnd : (x :: fl).Nodup := List.nodup_cons.2 ⟨hnot, hp.nodup⟩
  have hnodes : ∀ y ∈ x :: fl, y ∈ addrs h.heap_start bs := by
    intro y hy
    rcases List.mem_cons.1 hy with k | k
    · rw [k]; exact hx
    · exact hp.nodes y k
  have hsep : (x :: fl).Pairwise Sep :=
    hnd.pairwise_of_forall_ne (fun y hy z hz hne =>
      addrs_sep _ _ _ hp.tiled.blocks y z (hnodes y hy) (hnodes z hz) hne)
  obtain ⟨q, hq⟩ := hp.chain
  obtain ⟨⟨q2, hins⟩, hfr⟩ := insert_block_spec h x fl q hq (by omega) hsep
    (fun y hy => by have := hp.tiled.addr_bound _ _ y (hnodes y hy); omega)
  refine ⟨⟨?_, ⟨q2, by rw [insert_block_head]; exact hins⟩, hnd, ?_⟩, hfr⟩
  · refine Tiled.links h _ bs (x :: fl) hp.tiled (by simp) (by simp) (by simp) hnodes ?_
    intro w hw
    have hwx := hw x (List.mem_cons_self _ _)
    exact hfr w hwx.1 hwx.2 (fun y hy => (hw y (List.mem_cons_of_mem _ hy)).1)
  · intro y hy
    rw [insert_block_heap_start]
    exact hnodes y hy

/-- The four tag writes of `split_block`: the block shrinks to `asize` bytes
and the rest gets the tags of a free block. -/
theorem split_tags_spec (h : Heap) (pre post : List Blk) (S : Nat) (fl : List Nat)
    (x asize : Nat) (T : Heap) (hx : x = h.heap_start + total pre)
    (hp : Pre h (pre ++ (S, true) :: post) fl)
    (ha16 : asize % 16 = 0) (ha32 : 32 ≤ asize) (hr : asize + 32 ≤ S)
    (hT : T = write_footer (write_header (write_footer (write_header h x asize true) x asize
      true) (x + asize) (S - asize) false) (x + asize) (S - asize) false) :
    Pre T (pre ++ (asize, true) :: (S - asize, false) :: post) fl ∧
    (∀ w, (w < x ∨ x + S ≤ w) → T.mem w = h.mem w) ∧
    find_next (write_footer (write_header h x asize true) x asize true) x = x + asize ∧
    find_next (write_header (write_footer (write_header h x asize true) x asize true)
      (x + asize) (S - asize) false) x = x + asize ∧
    find_next T x = x + asize := by
  obtain ⟨t1, _, h16, h32, hbrk, hW, hst⟩ := hp.tiled.block_at h pre post (S, true)
  simp only at h16 h32 hbrk
  rw [← hx] at hbrk
  have hloc := hp.loc h pre post (S, true) fl x hx
  simp only at hloc
  obtain ⟨r, hr2⟩ : ∃ r, S = asize + r := ⟨S - asize, by omega⟩
  subst hr2
  have er : asize + r - asize = r := by omega
  rw [er] at hT ⊢
  have hm2 := retag_mem h x asize true ha16 (by omega) (by omega)
  have hm4 := retag_mem (write_footer (write_header h x asize true) x asize true)
    (x + asize) r false (by omega) (by omega) (by omega)
  rw [← hT] at hm4
  have hfr4 : ∀ w, w ≠ x → w ≠ x + asize - 8 → w ≠ x + asize → w ≠ x + asize + r - 8 →
      T.mem w = h.mem w := by
    intro w w1 w2 w3 w4
    rw [hm4, write_other _ _ _ _ w4, write_other _ _ _ _ w3, hm2,
      write_other _ _ _ _ w2, write_other _ _ _ _ w1]
  have hx4 : T.mem x = pack asize true := by
    rw [hm4, write_other _ _ _ _ (by omega), write_other _ _ _ _ (by omega), hm2,
      write_other _ _ _ _ (by omega), write_same]
  have hTs : T.heap_start = h.heap_start := by rw [hT]; rfl
  have hTh : T.free_list_head = h.free_list_head := by rw [hT]; rfl
  obtain ⟨q, hq⟩ := hp.chain
  refine ⟨⟨?_, ⟨q, ?_⟩, hp.nodup, ?_⟩, ?_, ?_, ?_, ?_⟩
  · have ht := Tiled.region h T pre [(asize + r, true)] [(asize, true), (r, false)] post []
      (by simpa using hp.tiled) (by rw [hT]; rfl) (by rw [hT]; rfl) hTs ?_ (by simp) (by simp)
      ?_
    · simpa using ht
    · rw [← hx]
      refine ⟨ha16, ha32, hx4, ?_, by show r % 16 = 0; omega, by show 32 ≤ r; omega, ?_, ?_,
        trivial⟩
      · show _ = pack asize true
        rw [hm4, write_other _ _ _ _ (by omega), write_other _ _ _ _ (by omega), hm2,
          write_same]
      · show _ = pack r false
        rw [hm4, write_other _ _ _ _ (by omega), write_same]
      · show _ = pack r false
        rw [hm4, write_same]
    · intro w hw _
      simp only [total_cons, total_nil, Nat.add_zero, ← hx] at hw
      exact hfr4 w (by omega) (by omega) (by omega) (by omega)
  · rw [hTh]
    refine Seg_congr _ _ _ _ _ _ _ (fun y hy => ?_) hq
    rcases hloc y hy with k | k | k <;>
      constructor <;> exact hfr4 _ (by omega) (by omega) (by omega) (by omega)
  · intro y hy
    rw [hTs, addrs_append]
    simp only [addrs, List.mem_append, List.mem_cons, ← hx]
    rcases hloc y hy with k2 | k2 | k2
    · exact Or.inl k2.1
    · right; left; exact k2
    · right; right; right
      rw [Nat.add_assoc]; exact k2.1
  · intro w hw
    exact hfr4 w (by omega) (by omega) (by omega) (by omega)
  · exact find_next_eq _ x asize (get_size_of_tag _ x asize true
      (by rw [hm2, write_other _ _ _ _ (by omega), write_same]) ha16 (by omega)) (by omega)
  · exact find_next_eq _ x asize (get_size_of_tag _ x asize true
      (by rw [write_header_mem, write_other _ _ _ _ (by omega), hm2,
        write_other _ _ _ _ (by omega), write_same]) ha16 (by omega)) (by omega)
  · exact find_next_eq _ x asize (get_size_of_tag _ x asize true hx4 ha16 (by omega))
      (by omega)

/-- The remainder is large enough: `split_block` shrinks the block to
`asize` bytes and makes the rest a free block at the head of the list. -/
theorem split_block_spec (h : Heap) (pre post : List Blk) (S : Nat) (fl : List Nat)
    (x asize : Nat) (hx : x = h.heap_start + total pre)
    (hp : Pre h (pre ++ (S, true) :: post) fl)
    (hn : (post.headD (0, true)).2 = true)
    (ha16 : asize % 16 = 0) (ha32 : 32 ≤ asize) (hr : asize + 32 ≤ S) :
    Pre (split_block h x asize) (pre ++ (asize, true) :: (S - asize, false) :: post)
      ((x + asize) :: fl) ∧
    (∀ w, (w < x ∨ x + S ≤ w) → (∀ y ∈ fl, w ≠ y + 8) →
      (split_block h x asize).mem w = h.mem w) := by
  obtain ⟨h1, _, _, _, _, _, _⟩ := hp.tiled.reads h pre post (S, true) x hx
  obtain ⟨_, _, _, _, hbrk, hW, _⟩ := hp.tiled.block_at h pre post (S, true)
  simp only at h1 hbrk
  have hloc := hp.loc h pre post (S, true) fl x hx
  simp only at hloc
  obtain ⟨T, hT⟩ : ∃ T, T = write_footer (write_header (write_footer (write_header h x asize
      true) x asize true) (x + asize) (S - asize) false) (x + asize) (S - asize) false :=
    ⟨_, rfl⟩
  obtain ⟨pT, fT, fn2, fn3, fn4⟩ :=
    split_tags_spec h pre post S fl x asize T hx hp ha16 ha32 hr hT
  have hTs : T.heap_start = h.heap_start := by rw [hT]; rfl
  have hxa : x + asize ∈ addrs T.heap_start
      (pre ++ (asize, true) :: (S - asize, false) :: post) := by
    rw [hTs, addrs_append]
    simp [addrs, ← hx]
  have hnot : x + asize ∉ fl := by
    intro hm
    rcases hloc _ hm with k | k | k <;> omega
  obtain ⟨pI, fI⟩ := pT.insert T _ fl (x + asize) hxa hnot
  have hxI : (insert_block T (x + asize)).mem x = pack asize true := by
    have := pI.tiled.header_at _ pre _ (asize, true) x
      (by rw [insert_block_heap_start, hTs]; exact hx)
    exact this
  have fn5 : find_next (insert_block T (x + asize)) x = x + asize :=
    find_next_eq _ x asize (get_size_of_tag _ x asize true hxI ha16 (by omega)) (by omega)
  have hco := coalesce_nn (insert_block T (x + asize)) (pre ++ [(asize, true)]) post
      (S - asize, false) (x + asize)
      (by rw [insert_block_heap_start, hTs]; simp [hx]; omega)
      (by simpa using pI.tiled) hn (by simp)
  have hsplit : split_block h x asize = insert_block T (x + asize) := by
    unfold split_block
    rw [h1, sub64_eq S asize (by omega) (by omega),
      if_pos (by unfold min_block_size; omega)]
    simp only [fn2, fn3, ← hT, fn4, fn5, hco]
  rw [hsplit]
  refine ⟨pI, fun w hw hl => ?_⟩
  rw [fI w (by omega) (by omega) hl]
  exact fT w hw

theorem place_eq (h : Heap) (pre post : List Blk) (S : Nat) (f : Bool) (x asize : Nat)
    (hx : x = h.heap_start + total pre) (ht : Tiled h (pre ++ (S, f) :: post)) :
    place h x asize =
      remove_block (split_block (write_footer (write_header h x S true) x S true) x asize)
        x := by
  obtain ⟨h1, _, _, _, _, _, _⟩ := ht.reads h pre post (S, f) x hx
  obtain ⟨_, _, h16, _, hbrk, hW, _⟩ := ht.block_at h pre post (S, f)
  simp only at h1 h16 hbrk
  have h2 : get_size (write_header h x S true) x = S :=
    get_size_of_tag _ x S true (by simp) h16 (by omega)
  unfold place
  simp only [h1, h2]

/-- Placement with a split: the chosen free block of `S` bytes becomes an
allocated block of `asize` bytes followed by a free block, which takes its
place in the free list as the new head. -/
theorem place_split (h : Heap) (pre post : List Blk) (S : Nat) (fl : List Nat)
    (x asize : Nat) (hx : x = h.heap_start + total pre)
    (hi : Inv h (pre ++ (S, false) :: post) fl)
    (hn : (post.headD (0, true)).2 = true)
    (ha16 : asize % 16 = 0) (ha32 : 32 ≤ asize) (hr : asize + 32 ≤ S) :
    Inv (place h x asize) (pre ++ (asize, true) :: (S - asize, false) :: post)
      ((x + asize) :: fl.erase x) ∧
    (∀ w, (w < x ∨ x + S ≤ w) → (∀ y ∈ fl, w ≠ y + 8 ∧ w ≠ y + 16) →
      (place h x asize).mem w = h.mem w) := by
  obtain ⟨pA, fA⟩ := mark_alloc_spec h pre post S false fl x hx hi.pre
  obtain ⟨pS, fS⟩ := split_block_spec _ pre post S fl x asize (by simp [hx]) pA hn ha16 ha32 hr
  obtain ⟨pR, fR⟩ := pS.remove _ _ _ x (by
    rw [List.mem_cons]; right
    rw [hi.listed, freeAddrs_append, List.mem_append]
    right; simp [freeAddrs, hx])
  have e : ((x + asize) :: fl).erase x = (x + asize) :: fl.erase x := by
    rw [List.erase_cons_tail (by simp; omega)]
  rw [e] at pR fR
  rw [place_eq h pre post S false x asize hx hi.tiled]
  obtain ⟨_, _, _, _, hbrk, hW, _⟩ := hi.tiled.block_at h pre post (S, false)
  simp only at hbrk
  refine ⟨⟨pR.tiled, pR.chain, pR.nodup, ?_⟩, ?_⟩
  · intro y
    have hb := hi.tiled.blocks
    rw [Blocks_append, Blocks_cons] at hb
    have hr1 := fun z hz => addrs_range _ _ _ hb.1 z (freeAddrs_sub _ _ _ hz)
    have hr3 := fun z hz => addrs_range _ _ _ hb.2.2.2.2.2 z (freeAddrs_sub _ _ _ hz)
    have hl := hi.listed y
    simp only [remove_block_heap_start, split_block_heap_start, write_footer_heap_start,
      write_header_heap_start]
    simp only [freeAddrs_append, freeAddrs, List.mem_append, List.mem_cons,
      Bool.false_eq_true, if_false, if_true, ← hx] at hl hr3 ⊢
    have e2 : x + asize + (S - asize) = x + S := by omega
    rw [hi.nodup.mem_erase_iff, hl, e2]
    constructor
    · rintro (k | ⟨_, k | k | k⟩)
      · right; left; exact k
      · left; exact k
      · contradiction
      · right; right; exact k
    · rintro (k | k | k)
      · have := hr1 y k
        right; exact ⟨by omega, Or.inl k⟩
      · left; exact k
      · have := hr3 y k
        right; exact ⟨by omega, Or.inr (Or.inr k)⟩
  · intro w hw hl
    rw [fR w (fun y hy => ?_), fS w hw (fun y hy => (hl y hy).1), fA w (by omega) (by omega)]
    rcases List.mem_cons.1 hy with k | k
    · subst k; constructor <;> omega
    · exact hl y (List.mem_of_mem_erase k)

/-- Placement without a split: the whole chosen block is granted. -/
theorem place_whole (h : Heap) (pre post : List Blk) (S : Nat) (fl : List Nat)
    (x asize : Nat) (hx : x = h.heap_start + total pre)
    (hi : Inv h (pre ++ (S, false) :: post) fl)
    (ha : asize ≤ S) (hr : S < asize + 32) :
    Inv (place h x asize) (pre ++ (S, true) :: post) (fl.erase x) ∧
    (∀ w, w ≠ x → w ≠ x + S - 8 → (∀ y ∈ fl, w ≠ y + 8 ∧ w ≠ y + 16) →
      (place h x asize).mem w = h.mem w) := by
  obtain ⟨pA, fA⟩ := mark_alloc_spec h pre post S false fl x hx hi.pre
  have hsp := split_block_whole _ pre post S true x asize (by simp [hx]) pA.tiled ha hr
  obtain ⟨pR, fR⟩ := pA.remove _ _ _ x (by
    rw [hi.listed, freeAddrs_append, List.mem_append]
    right; simp [freeAddrs, hx])
  rw [place_eq h pre post S false x asize hx hi.tiled, hsp]
  refine ⟨⟨pR.tiled, pR.chain, pR.nodup, ?_⟩, ?_⟩
  · intro y
    have hb := hi.tiled.blocks
    rw [Blocks_append, Blocks_cons] at hb
    have hr1 := fun z hz => addrs_range _ _ _ hb.1 z (freeAddrs_sub _ _ _ hz)
    have hr3 := fun z hz => addrs_range _ _ _ hb.2.2.2.2.2 z (freeAddrs_sub _ _ _ hz)
    have hl := hi.listed y
    simp only [remove_block_heap_start, write_footer_heap_start, write_header_heap_start]
    simp only [freeAddrs_append, freeAddrs, List.mem_append, List.mem_cons,
      Bool.false_eq_true, if_false, if_true, ← hx] at hl hr3 ⊢
    rw [hi.nodup.mem_erase_iff, hl]
    obtain ⟨_, _, _, h32, _, _, _⟩ := hi.tiled.block_at h pre post (S, false)
    simp only at h32
    constructor
    · rintro ⟨_, k | k | k⟩
      · left; exact k
      · contradiction
      · right; exact k
    · rintro (k | k)
      · have := hr1 y k
        exact ⟨by omega, Or.inl k⟩
      · have := hr3 y k
        exact ⟨by omega, Or.inr (Or.inr k)⟩
  · intro w w1 w2 hl
    rw [fR w (fun y hy => hl y (List.mem_of_mem_erase hy)), fA w w1 w2]

/-! ## Growing the arena -/

/-- The new free block that `extend_heap` builds on freshly granted bytes,
before coalescing: the old epilogue header becomes its header, it is put at
the head of the free list, and a new epilogue header follows it. -/
theorem extend_insert_spec (h : Heap) (bs : List Blk) (fl : List Nat) (sz e : Nat)
    (G T : Heap) (hi : Inv h bs fl) (he : e = h.heap_start + total bs)
    (h16 : sz % 16 = 0) (h32 : 32 ≤ sz) (hW : h.mem_brk + sz < W - 1)
    (hG : G = { h with mem_brk := h.mem_brk + sz })
    (hT : T = write_footer (write_header G e sz false) e sz false) :
    Inv (write_header (insert_block T e) (e + sz) 0 true) (bs ++ [(sz, false)]) (e :: fl) ∧
    find_next (insert_block T e) e = e + sz ∧
    (∀ w, w < e → (∀ y ∈ fl, w ≠ y + 8) →
      (write_header (insert_block T e) (e + sz) 0 true).mem w = h.mem w) := by
  have hbrk := hi.tiled.brk
  have hst := hi.tiled.start
  rw [← he] at hbrk
  have hloc : ∀ y ∈ fl, y ∈ addrs h.heap_start bs ∧ h.heap_start ≤ y ∧ y + 32 ≤ e := by
    intro y hy
    have h1 := hi.node_addr _ _ _ y hy
    have h2 := addrs_range _ _ _ hi.tiled.blocks y h1
    exact ⟨h1, h2.1, by omega⟩
  have hGm : G.mem = h.mem := by rw [hG]
  have hmT : T.mem = write (write h.mem e (pack sz false)) (e + sz - 8) (pack sz false) := by
    rw [hT, retag_mem G e sz false h16 (by omega) (by omega), hGm]
  have hTs : T.heap_start = h.heap_start := by rw [hT, hG]; rfl
  have hTl : T.mem_start_brk = h.mem_start_brk := by rw [hT, hG]; rfl
  have hTb : T.mem_brk = h.mem_brk + sz := by rw [hT, hG]; rfl
  have hTh : T.free_list_head = h.free_list_head := by rw [hT, hG]; rfl
  obtain ⟨q, hq⟩ := hi.chain
  have hsegT : Seg T.mem 0 T.free_list_head fl q 0 := by
    rw [hTh, hmT]
    refine Seg_congr _ _ _ _ _ _ _ (fun y hy => ?_) hq
    have := hloc y hy
    constructor <;> rw [write_other _ _ _ _ (by omega), write_other _ _ _ _ (by omega)]
  have hsep : (e :: fl).Pairwise Sep := by
    rw [List.pairwise_cons]
    refine ⟨fun y hy => ?_, hi.node_sep⟩
    have := hloc y hy
    unfold Sep; omega
  obtain ⟨⟨q2, hins⟩, hfr⟩ := insert_block_spec T e fl q hsegT (by omega) hsep
    (fun y hy => by
      rcases List.mem_cons.1 hy with k | k
      · omega
      · have := hloc y k; omega)
  have hlnk : ∀ y ∈ fl, ∀ w, e ≤ w → w ≠ y + 8 ∧ w ≠ y + 16 := by
    intro y hy w hw
    have := hloc y hy
    constructor <;> omega
  have hIe : (insert_block T e).mem e = pack sz false := by
    rw [hfr e (by omega) (by omega) (fun y hy => (hlnk y hy e (le_refl _)).1), hmT,
      write_other _ _ _ _ (by omega), write_same]
  have hIf : (insert_block T e).mem (e + sz - 8) = pack sz false := by
    rw [hfr _ (by omega) (by omega) (fun y hy => (hlnk y hy _ (by omega)).1), hmT,
      write_same]
  have hframe : ∀ w, w < e → (∀ y ∈ fl, w ≠ y + 8) →
      (write_header (insert_block T e) (e + sz) 0 true).mem w = h.mem w := by
    intro w hw hl
    rw [write_header_mem, write_other _ _ _ _ (by omega), hfr w (by omega) (by omega) hl,
      hmT, write_other _ _ _ _ (by omega), write_other _ _ _ _ (by omega)]
  refine ⟨⟨⟨?_, ?_, ?_, ?_, ?_, ?_⟩, ⟨q2, ?_⟩, ?_, ?_⟩,
    find_next_eq _ e sz (get_size_of_tag _ e sz false hIe h16 (by omega)) (by omega),
    hframe⟩
  · simp only [write_header_heap_start, write_header_start_brk, insert_block_heap_start,
      insert_block_start_brk, hTs, hTl]
    exact hst
  · simp only [write_header_start_brk, insert_block_start_brk, hTl]
    rw [hframe _ (by omega) (fun y hy => by have := hloc y hy; omega)]
    exact hi.tiled.prologue
  · simp only [write_header_heap_start, insert_block_heap_start, hTs]
    rw [Blocks_append, ← he]
    constructor
    · refine Blocks_frame h.mem _ _ bs hi.tiled.blocks (fun w hw1 hw2 hw3 => ?_)
      rw [← he] at hw2
      exact hframe w hw2 (fun y hy => (hw3 y (hloc y hy).1).1)
    · refine ⟨h16, h32, ?_, ?_, trivial⟩
      · rw [write_header_mem, write_other _ _ _ _ (by omega)]; exact hIe
      · show _ = pack sz false
        rw [write_header_mem, write_other _ _ _ _ (by omega)]; exact hIf
  · simp only [write_header_heap_start, insert_block_heap_start, hTs, total_append,
      total_cons, total_nil, Nat.add_zero, write_header_mem]
    rw [← Nat.add_assoc, ← he, write_same]
  · simp only [write_header_heap_start, insert_block_heap_start, hTs, total_append,
      total_cons, total_nil, Nat.add_zero, write_header_brk, insert_block_brk, hTb]
    omega
  · simp only [write_header_brk, insert_block_brk, hTb]
    exact hW
  · rw [write_header_head, insert_block_head, write_header_mem]
    refine Seg_congr _ _ _ _ _ _ _ (fun y hy => ?_) hins
    rcases List.mem_cons.1 hy with k | k
    · subst k
      constructor <;> rw [write_other _ _ _ _ (by omega)]
    · have := hloc y k
      constructor <;> rw [write_other _ _ _ _ (by omega)]
  · rw [List.nodup_cons]
    exact ⟨fun hm => by have := hloc e hm; omega, hi.nodup⟩
  · intro y
    simp only [write_header_heap_start, insert_block_heap_start, hTs, freeAddrs_append,
      freeAddrs, List.mem_append, List.mem_cons, List.not_mem_nil, or_false,
      Bool.false_eq_true, if_false, ← he, ← hi.listed y]
    tauto

theorem round_up_eq (n : Nat) (h16 : n % 16 = 0) (hn : n + 15 < W) :
    round_up n dsize = n := by
  unfold round_up dsize
  rw [W_eq] at *
  omega

theorem round_up_mod (n : Nat) : round_up n dsize % 16 = 0 := by
  unfold round_up dsize
  rw [W_eq]
  omega

theorem mem_sbrk_ok (h : Heap) (incr : Nat) (hW : h.mem_brk + incr < W - 1) :
    mem_sbrk h incr true = ({ h with mem_brk := h.mem_brk + incr }, h.mem_brk) := by
  unfold mem_sbrk; rw [if_pos ⟨rfl, hW⟩]

theorem mem_sbrk_fail (h : Heap) (incr : Nat) (g : Bool)
    (hf : ¬(g = true ∧ h.mem_brk + incr < W - 1)) : mem_sbrk h incr g = (h, W - 1) := by
  unfold mem_sbrk; rw [if_neg hf]

@[simp] theorem mem_sbrk_heap_start (h : Heap) (n : Nat) (g : Bool) :
    (mem_sbrk h n g).1.heap_start = h.heap_start := by
  unfold mem_sbrk; split_ifs <;> rfl
@[simp] theorem mem_sbrk_start_brk (h : Heap) (n : Nat) (g : Bool) :
    (mem_sbrk h n g).1.mem_start_brk = h.mem_start_brk := by
  unfold mem_sbrk; split_ifs <;> rfl
@[simp] theorem extend_heap_heap_start (h : Heap) (n : Nat) (g : Bool) :
    (extend_heap h n g).1.heap_start = h.heap_start := by
  unfold extend_heap; dsimp only; split_ifs <;> simp
@[simp] theorem extend_heap_start_brk (h : Heap) (n : Nat) (g : Bool) :
    (extend_heap h n g).1.mem_start_brk = h.mem_start_brk := by
  unfold extend_heap; dsimp only; split_ifs <;> simp

/-- When the growth provider refuses, `extend_heap` returns null and changes
nothing. -/
theorem extend_heap_fail (h : Heap) (n : Nat) (g : Bool)
    (hf : ¬(g = true ∧ h.mem_brk + round_up n dsize < W - 1)) :
    extend_heap h n g = (h, 0) := by
  unfold extend_heap
  simp only [mem_sbrk_fail h _ g hf, if_true]

/-- When the growth provider grants the bytes, `extend_heap` builds the new
free block at the old epilogue header and coalesces it. -/
theorem extend_heap_ok (h : Heap) (bs : List Blk) (fl : List Nat) (n sz e : Nat)
    (hi : Inv h bs fl) (he : e = h.heap_start + total bs)
    (hsz : round_up n dsize = sz) (h32 : 32 ≤ sz) (hW : h.mem_brk + sz < W - 1) :
    ∃ H, Inv H (bs ++ [(sz, false)]) (e :: fl) ∧ extend_heap h n true = coalesce_block H e ∧
      H.heap_start = h.heap_start ∧
      (∀ w, w < e → (∀ y ∈ fl, w ≠ y + 8) → H.mem w = h.mem w) := by
  have h16 : sz % 16 = 0 := by rw [← hsz]; exact round_up_mod n
  have hbrk := hi.tiled.brk
  have hst := hi.tiled.start
  rw [← he] at hbrk
  obtain ⟨G, hG⟩ : ∃ G : Heap, G = { h with mem_brk := h.mem_brk + sz } := ⟨_, rfl⟩
  obtain ⟨T, hT⟩ : ∃ T, T = write_footer (write_header G e sz false) e sz false := ⟨_, rfl⟩
  obtain ⟨h1, h2, h3⟩ := extend_insert_spec h bs fl sz e G T hi he h16 h32 hW hG hT
  refine ⟨_, h1, ?_, by rw [hT, hG]; simp, h3⟩
  have hfp : find_prev_footer h.mem_brk = e := by
    rw [find_prev_footer_eq _ (by omega) (by omega)]; omega
  unfold extend_heap
  simp only [hsz, mem_sbrk_ok h sz hW]
  rw [if_neg (by omega), hfp, ← hG, ← hT, h2]

/-- Growth after an allocated last block (or in an arena without blocks):
the new block is the result. -/
theorem extend_heap_last_alloc (h : Heap) (bs : List Blk) (fl : List Nat) (n sz e : Nat)
    (hi : Inv h bs fl) (he : e = h.heap_start + total bs)
    (hsz : round_up n dsize = sz) (h32 : 32 ≤ sz) (hW : h.mem_brk + sz < W - 1)
    (hl : (bs.getLastD (0, true)).2 = true) :
    (extend_heap h n true).2 = e ∧
    Inv (extend_heap h n true).1 (bs ++ [(sz, false)]) (e :: fl) ∧
    (∀ w, w < e → (∀ y ∈ fl, w ≠ y + 8) → (extend_heap h n true).1.mem w = h.mem w) := by
  obtain ⟨H, h1, h2, h3, h4⟩ := extend_heap_ok h bs fl n sz e hi he hsz h32 hW
  rw [h2, coalesce_nn H bs [] (sz, false) e (by rw [h3]; exact he) h1.tiled rfl hl]
  exact ⟨rfl, h1, h4⟩

/-- Growth after a free last block: the new block is merged into it. -/
theorem extend_heap_last_free (h : Heap) (bs : List Blk) (fl : List Nat) (n sz sp e : Nat)
    (hi : Inv h (bs ++ [(sp, false)]) fl) (he : e = h.heap_start + total bs + sp)
    (hsz : round_up n dsize = sz) (h32 : 32 ≤ sz) (hW : h.mem_brk + sz < W - 1) :
    (extend_heap h n true).2 = e - sp ∧
    Inv (extend_heap h n true).1 (bs ++ [(sp + sz, false)]) fl ∧
    (∀ w, w < e - sp → (∀ y ∈ fl, w ≠ y + 8 ∧ w ≠ y + 16) →
      (extend_heap h n true).1.mem w = h.mem w) := by
  obtain ⟨H, h1, h2, h3, h4⟩ := extend_heap_ok h _ fl n sz e hi (by simp [he]; omega) hsz
    h32 hW
  have h1b : Inv H (bs ++ (sp, false) :: (sz, false) :: []) (e :: fl) := by simpa using h1
  obtain ⟨c1, c2, c3⟩ := coalesce_prev H bs [] sp sz (e :: fl) e (by rw [h3]; exact he) h1b
    rfl
  rw [List.erase_cons_head] at c2
  obtain ⟨_, _, _, p32, _, _, _⟩ := hi.tiled.block_at h bs [] (sp, false)
  simp only at p32
  rw [h2]
  refine ⟨c1, c2, fun w hw hl => ?_⟩
  rw [c3 w (by omega) (by omega) (fun y hy => ?_), h4 w (by omega) (fun y hy => (hl y hy).1)]
  rcases List.mem_cons.1 hy with k | k
  · subst k; constructor <;> omega
  · exact hl y k

/-! ## The function `mm_malloc` -/

theorem mm_malloc_eq (h : Heap) (size : Nat) (g : Bool) (hs : size ≠ 0) (fit : Nat)
    (hf : find_fit h (adjusted_size size) = some fit) :
    mm_malloc h size g =
      some (if (choose h (adjusted_size size) fit g).2 = 0 then
          ((choose h (adjusted_size size) fit g).1, 0)
        else
          (place (choose h (adjusted_size size) fit g).1 (choose h (adjusted_size size) fit g).2
            (adjusted_size size),
            header_to_payload (choose h (adjusted_size size) fit g).2)) := by
  unfold mm_malloc
  rw [if_neg hs]
  simp only [hf]
  unfold choose place
  split_ifs <;> rfl

theorem adjusted_size_facts (s : Nat) (h0 : s ≠ 0) (hs : s ≤ 2 ^ 62) :
    adjusted_size s % 16 = 0 ∧ 32 ≤ adjusted_size s ∧ s + 16 ≤ adjusted_size s ∧
    adjusted_size s ≤ s + 32 := by
  unfold adjusted_size round_up dsize min_block_size
  rw [W_eq]
  norm_num at hs
  split_ifs with h1
  · omega
  · omega

theorem allocAddrs_free_disjoint (m : Nat → Nat) (a : Nat) (bs : List Blk)
    (hb : Blocks m a bs) (x : Nat) (hx : x ∈ freeAddrs a bs) : x ∉ allocAddrs a bs := by
  obtain ⟨pre, sz, post, e1, e2⟩ := freeAddrs_split a bs x hx
  subst e1
  rw [Blocks_append, Blocks_cons] at hb
  obtain ⟨hb1, _, h32, _, _, hb3⟩ := hb
  rw [allocAddrs_append, List.mem_append]
  simp only [allocAddrs, Bool.false_eq_true, if_false]
  rintro (k | k)
  · have := addrs_range _ _ _ hb1 x (allocAddrs_sub _ _ _ k); omega
  · have := addrs_range _ _ _ hb3 x (allocAddrs_sub _ _ _ k)
    simp only at h32 this
    omega

/-- The block chosen by `mm_malloc` in a well-formed heap: either there is no
fit and no growth, and nothing changes, or the chosen block is a free block
of the (possibly grown) well-formed heap with room for `asize` bytes. -/
theorem choose_spec (h : Heap) (bs : List Blk) (fl : List Nat) (hi : Inv h bs fl)
    (hna : NoAdj bs) (asize : Nat) (g : Bool)
    (ha16 : asize % 16 = 0) (ha32 : 32 ≤ asize) (haW : asize * 2 + 15 < W) :
    (choose h asize (first_fit h asize fl) g = (h, 0) ∧ first_fit h asize fl = 0 ∧
      ¬(g = true ∧ h.mem_brk + asize * 2 < W - 1)) ∨
    ((choose h asize (first_fit h asize fl) g).2 ≠ 0 ∧
      (first_fit h asize fl ≠ 0 ∨ (g = true ∧ h.mem_brk + asize * 2 < W - 1)) ∧
      (first_fit h asize fl ≠ 0 →
        choose h asize (first_fit h asize fl) g = (h, first_fit h asize fl)) ∧
      ∃ pre S post fl0,
        Inv (choose h asize (first_fit h asize fl) g).1 (pre ++ (S, false) :: post) fl0 ∧
        NoAdj (pre ++ (S, false) :: post) ∧
        (choose h asize (first_fit h asize fl) g).2 = h.heap_start + total pre ∧
        (choose h asize (first_fit h asize fl) g).1.heap_start = h.heap_start ∧
        asize ≤ S ∧
        (∀ y, y ∈ allocAddrs h.heap_start (pre ++ (S, false) :: post) ↔
          y ∈ allocAddrs h.heap_start bs)) := by
  have hmod : (asize * 2) % W = asize * 2 := Nat.mod_eq_of_lt (by omega)
  have hru : round_up (asize * 2) dsize = asize * 2 := round_up_eq _ (by omega) haW
  by_cases hfit : first_fit h asize fl = 0
  · by_cases hsb : g = true ∧ h.mem_brk + asize * 2 < W - 1
    · right
      obtain ⟨hg, hW⟩ := hsb
      subst hg
      have hch : choose h asize (first_fit h asize fl) true =
          extend_heap h (asize * 2) true := by
        unfold choose; rw [if_pos hfit, hmod]
      rw [hch]
      have hst := hi.tiled.start
      rcases blk_last_cases bs with hl | ⟨bs2, sp, hbs⟩
      · obtain ⟨e1, e2, _⟩ := extend_heap_last_alloc h bs fl (asize * 2) (asize * 2) _ hi rfl
          hru (by omega) hW hl
        refine ⟨by rw [e1]; omega, Or.inr ⟨rfl, hW⟩, fun k => absurd hfit k,
          bs, asize * 2, [], _, e2, ?_, e1, by simp, by omega, ?_⟩
        · rw [NoAdj_mid]; exact ⟨hna, NoAdj_nil, Or.inl hl, Or.inr rfl⟩
        · intro y
          rw [allocAddrs_append]
          simp [allocAddrs]
      · subst hbs
        obtain ⟨e1, e2, _⟩ := extend_heap_last_free h bs2 fl (asize * 2) (asize * 2) sp _ hi
          rfl hru (by omega) (by simpa using hW)
        rw [Nat.add_sub_cancel] at e1
        have hna2 := (NoAdj_mid bs2 [] (sp, false)).1 hna
        refine ⟨by rw [e1]; omega, Or.inr ⟨rfl, hW⟩, fun k => absurd hfit k,
          bs2, sp + asize * 2, [], _, e2, ?_, e1, by simp, by omega, ?_⟩
        · rw [NoAdj_mid]
          refine ⟨hna2.1, NoAdj_nil, ?_, Or.inr rfl⟩
          rcases hna2.2.2.1 with k | k
          · exact Or.inl k
          · simp at k
        · intro y
          rw [allocAddrs_append, allocAddrs_append]
          simp [allocAddrs]
    · left
      refine ⟨?_, hfit, hsb⟩
      unfold choose
      rw [if_pos hfit, hmod, extend_heap_fail h _ g (by rw [hru]; exact hsb)]
  · right
    obtain ⟨hm, hsz⟩ := first_fit_mem h asize fl hfit
    have hch : choose h asize (first_fit h asize fl) g = (h, first_fit h asize fl) := by
      unfold choose; rw [if_neg hfit]
    obtain ⟨pre, S, post, e1, e2⟩ := freeAddrs_split _ _ _ ((hi.listed _).1 hm)
    subst e1
    obtain ⟨r1, _, _, _, _, _, _⟩ := hi.tiled.reads h pre post (S, false) _ e2
    rw [r1] at hsz
    rw [hch]
    exact ⟨hfit, Or.inl hfit, fun _ => rfl, pre, S, post, fl, hi, hna, e2, rfl, hsz,
      fun y => Iff.rfl⟩

/-! ## The function `mm_init` -/

theorem round_up_chunksize : round_up chunksize dsize = 4096 := by
  decide

/-- The state in which `mm_init` calls `extend_heap`: an arena of two words,
the prologue footer and the epilogue header, and no block. -/
theorem mm_init_empty (base : Nat) (m : Nat → Nat) (hW : base + 16 < W - 1) (H : Heap)
    (hH : H = Heap.mk (write (write m base (pack 0 true)) (base + 8) (pack 0 true))
      base (base + 16) (base + 8) 0) :
    Inv H [] [] := by
  subst hH
  refine ⟨⟨rfl, ?_, trivial, ?_, rfl, hW⟩, ⟨0, rfl, rfl⟩, List.nodup_nil, fun x => by
    simp [freeAddrs]⟩
  · show write (write m base (pack 0 true)) (base + 8) (pack 0 true) base = pack 0 true
    rw [write_other _ _ _ _ (by omega), write_same]
  · show write (write m base (pack 0 true)) (base + 8) (pack 0 true) (base + 8 + 0) = _
    rw [Nat.add_zero, write_same]

/-- A successful `mm_init` leaves one free block of 4096 bytes, alone in the
free list, between the two sentinels. -/
theorem mm_init_spec (base : Nat) (m : Nat → Nat) (g1 g2 : Bool)
    (hok : (mm_init (fresh base m) g1 g2).2 = 0) :
    Inv (mm_init (fresh base m) g1 g2).1 [(4096, false)] [base + 8] ∧
    (mm_init (fresh base m) g1 g2).1.mem_start_brk = base ∧
    base + 16 + 4096 < W - 1 := by
  by_cases hs1 : g1 = true ∧ base + 16 < W - 1
  · obtain ⟨hg1, hW1⟩ := hs1
    subst hg1
    obtain ⟨H, hH⟩ : ∃ H : Heap,
        H = Heap.mk (write (write m base (pack 0 true)) (base + 8) (pack 0 true))
          base (base + 16) (base + 8) 0 := ⟨_, rfl⟩
    have hI := mm_init_empty base m hW1 H hH
    have e8 : ptr_add base wsize = base + 8 := ptr_add_eq _ _ (by unfold wsize; omega)
    have hsb : mem_sbrk (fresh base m) (2 * wsize) true =
        ({ fresh base m with mem_brk := base + 16 }, base) :=
      mem_sbrk_ok (fresh base m) 16 hW1
    have hinit : mm_init (fresh base m) true g2 =
        if (extend_heap H chunksize g2).2 = 0 then ((extend_heap H chunksize g2).1, -1)
        else
          (set_next (set_prev { (extend_heap H chunksize g2).1 with
              free_list_head := (extend_heap H chunksize g2).2 }
            (extend_heap H chunksize g2).2 0) (extend_heap H chunksize g2).2 0, 0) := by
      unfold mm_init
      simp only [hsb, e8]
      rw [if_neg (by omega)]
      simp only [hH, fresh, Heap.store, set_prev_head, set_next_mem, set_prev_mem]
    rw [hinit] at hok ⊢
    by_cases hs2 : g2 = true ∧ H.mem_brk + 4096 < W - 1
    · obtain ⟨hg2, hW2⟩ := hs2
      subst hg2
      obtain ⟨x1, x2, _⟩ := extend_heap_last_alloc H [] [] chunksize 4096 (base + 8) hI
        (by rw [hH]; rfl) round_up_chunksize (by omega) hW2 rfl
      have hHb : H.mem_brk = base + 16 := by rw [hH]
      have hHl : H.mem_start_brk = base := by rw [hH]
      have hHs : H.heap_start = base + 8 := by rw [hH]
      rw [if_neg (by rw [x1]; omega), x1]
      have hEl : (extend_heap H chunksize true).1.mem_start_brk = base := by
        rw [extend_heap_start_brk, hHl]
      generalize (extend_heap H chunksize true).1 = E at x2 hEl ⊢
      obtain ⟨q, hq⟩ := x2.chain
      have hhd := hq.1
      obtain ⟨_, hx0, hp, hn, _⟩ := hq
      have a8 : ptr_add (base + 8) 8 = base + 8 + 8 := ptr_add_eq _ _ (by omega)
      have a16 : ptr_add (base + 8) 16 = base + 8 + 16 := ptr_add_eq _ _ (by omega)
      have hfr : ∀ w, (set_next (set_prev { E with
              free_list_head := base + 8 } (base + 8) 0) (base + 8) 0).mem w =
            E.mem w := by
        intro w
        simp only [set_next_mem, set_prev_mem, a8, a16]
        by_cases k1 : w = base + 8 + 16
        · rw [k1, write_same]
          have := hn
          simp only [List.nil_append] at this
          exact (this).symm
        · rw [write_other _ _ _ _ k1]
          by_cases k2 : w = base + 8 + 8
          · rw [k2, write_same]; exact hp.symm
          · rw [write_other _ _ _ _ k2]
      refine ⟨⟨?_, ⟨base + 8, rfl, hx0, ?_, ?_, rfl⟩, x2.nodup, ?_⟩, ?_, by omega⟩
      · exact Tiled.links _ _ _ [] x2.tiled rfl rfl rfl (by simp) (fun w _ => hfr w)
      · rw [hfr]; exact hp
      · rw [hfr]; exact hn
      · intro y
        have := x2.listed y
        simpa using this
      · exact hEl
    · rw [extend_heap_fail H chunksize g2 (by rw [round_up_chunksize]; exact hs2)] at hok
      simp at hok
  · have hsb : mem_sbrk (fresh base m) (2 * wsize) g1 = (fresh base m, W - 1) :=
      mem_sbrk_fail (fresh base m) 16 g1 hs1
    unfold mm_init at hok
    simp [hsb] at hok

/-! ## Well-formedness is preserved -/

@[simp] theorem mm_free_heap_start (h : Heap) (p : Nat) :
    (mm_free h p).heap_start = h.heap_start := by
  unfold mm_free; dsimp only; split_ifs <;> simp
@[simp] theorem mm_free_start_brk (h : Heap) (p : Nat) :
    (mm_free h p).mem_start_brk = h.mem_start_brk := by
  unfold mm_free; dsimp only; split_ifs <;> simp
@[simp] theorem mm_free_brk (h : Heap) (p : Nat) :
    (mm_free h p).mem_brk = h.mem_brk := by
  unfold mm_free; dsimp only; split_ifs <;> simp

/-- Allocated blocks of a run after its middle part is replaced: those of
the old run without `x`, when `x` is the only allocated block of the old
middle part and the new one has none. -/
theorem allocAddrs_drop (m : Nat → Nat) (a : Nat) (pre mid mid2 post : List Blk) (x : Nat)
    (hb : Blocks m a (pre ++ mid ++ post)) (ht : total mid2 = total mid)
    (h1 : allocAddrs (a + total pre) mid = [x]) (h2 : allocAddrs (a + total pre) mid2 = [])
    (hx : a + total pre ≤ x ∧ x < a + total pre + total mid) (y : Nat) :
    y ∈ allocAddrs a (pre ++ mid2 ++ post) ↔ y ∈ allocAddrs a (pre ++ mid ++ post) ∧ y ≠ x := by
  rw [Blocks_append, Blocks_append] at hb
  obtain ⟨⟨hb1, _⟩, hb3⟩ := hb
  simp only [total_append] at hb3
  have hr1 := fun z hz => addrs_range _ _ _ hb1 z (allocAddrs_sub _ _ _ hz)
  have hr3 := fun z hz => addrs_range _ _ _ hb3 z (allocAddrs_sub _ _ _ hz)
  simp only [allocAddrs_append, total_append, List.mem_append, h1, h2, ht, List.not_mem_nil,
    List.mem_singleton, or_false]
  constructor
  · rintro (k | k)
    · have := hr1 y k
      exact ⟨Or.inl (Or.inl k), by omega⟩
    · have := hr3 y k
      exact ⟨Or.inr k, by omega⟩
  · rintro ⟨(k | k) | k, hne⟩
    · exact Or.inl k
    · exact absurd k hne
    · exact Or.inr k

/-- Allocated blocks of a run after its middle part is replaced: those of
the old run and `x`, when the old middle part has no allocated block and `x`
is the only one of the new middle part. -/
theorem allocAddrs_add (a : Nat) (pre mid mid2 post : List Blk) (x : Nat)
    (ht : total mid2 = total mid)
    (h1 : allocAddrs (a + total pre) mid = []) (h2 : allocAddrs (a + total pre) mid2 = [x])
    (y : Nat) :
    y ∈ allocAddrs a (pre ++ mid2 ++ post) ↔ y = x ∨ y ∈ allocAddrs a (pre ++ mid ++ post) := by
  simp only [allocAddrs_append, total_append, List.mem_append, h1, h2, ht, List.not_mem_nil,
    List.mem_singleton, or_false]
  tauto

/-- On a well-formed heap, `mm_free` of the payload pointer of an allocated
block gives a well-formed heap in which that block is no longer allocated,
the other allocated blocks are the same, and the header word at the block's
address has the allocated bit clear. -/
theorem mm_free_wf (h : Heap) (bs : List Blk) (fl : List Nat) (hi : Inv h bs fl)
    (hna : NoAdj bs) (x : Nat) (hx : x ∈ allocAddrs h.heap_start bs) :
    ∃ bs2 fl2, Inv (mm_free h (x + 8)) bs2 fl2 ∧ NoAdj bs2 ∧
      (∀ y, y ∈ allocAddrs h.heap_start bs2 ↔ y ∈ allocAddrs h.heap_start bs ∧ y ≠ x) ∧
      get_alloc (mm_free h (x + 8)) x = false := by
  obtain ⟨pre, sz, post, e1, e2⟩ := allocAddrs_split _ _ _ hx
  subst e1
  obtain ⟨_, _, s16, s32, _, _, _⟩ := hi.tiled.block_at h pre post (sz, true)
  simp only at s16 s32
  have hna0 := (NoAdj_mid pre post (sz, true)).1 hna
  have hclear : ∀ c, c % 16 = 0 → (mm_free h (x + 8)).mem x = pack c false →
      get_alloc (mm_free h (x + 8)) x = false :=
    fun c hc hm => get_alloc_of_tag _ x c false hm hc
  rcases blk_last_cases pre with hp | ⟨pre2, sp, hpre⟩ <;>
    rcases blk_head_cases post with hn | ⟨sn, post2, hpost⟩
  · obtain ⟨k1, k2⟩ := mm_free_nn h pre post sz fl x e2 hi hp hn
    refine ⟨_, _, k1, ?_, ?_, hclear sz s16 k2⟩
    · rw [NoAdj_mid]; exact ⟨hna0.1, hna0.2.1, Or.inl hp, Or.inr hn⟩
    · intro y
      have := allocAddrs_drop h.mem h.heap_start pre [(sz, true)] [(sz, false)] post x
        (by simpa using hi.tiled.blocks) rfl (by simp [allocAddrs, e2])
        (by simp [allocAddrs]) (by simp [e2]; omega) y
      simpa using this
  · subst hpost
    have hna1 := (NoAdj_mid [] post2 (sn, false)).1 hna0.2.1
    obtain ⟨_, _, n16, n32, _, _, _⟩ := Tiled.block_at h (pre ++ [(sz, true)]) post2
      (sn, false) (by simpa using hi.tiled)
    obtain ⟨k1, k2⟩ := mm_free_next h pre post2 sz sn fl x e2 hi hp
    refine ⟨_, _, k1, ?_, ?_, hclear (sz + sn) (by simp only at n16; omega) k2⟩
    · rw [NoAdj_mid]
      refine ⟨hna0.1, hna1.2.1, Or.inl hp, ?_⟩
      rcases hna1.2.2.2 with k | k
      · simp at k
      · exact Or.inr k
    · intro y
      have := allocAddrs_drop h.mem h.heap_start pre [(sz, true), (sn, false)]
        [(sz + sn, false)] post2 x
        (by simpa using hi.tiled.blocks) (by simp) (by simp [allocAddrs, e2])
        (by simp [allocAddrs]) (by simp [e2]; omega) y
      simpa using this
  · subst hpre
    have hna1 := (NoAdj_mid pre2 [] (sp, false)).1 hna0.1
    have e3 : x = h.heap_start + total pre2 + sp := by simp [e2]; omega
    obtain ⟨k1, k2⟩ := mm_free_prev h pre2 post sp sz fl x e3 (by simpa using hi) hn
    refine ⟨_, _, k1, ?_, ?_, hclear sz s16 k2⟩
    · rw [NoAdj_mid]
      refine ⟨hna1.1, hna0.2.1, ?_, Or.inr hn⟩
      rcases hna1.2.2.1 with k | k
      · exact Or.inl k
      · simp at k
    · intro y
      have := allocAddrs_drop h.mem h.heap_start pre2 [(sp, false), (sz, true)]
        [(sp + sz, false)] post x
        (by simpa using hi.tiled.blocks) (by simp) (by simp [allocAddrs, e3])
        (by simp [allocAddrs]) (by simp [e3]; omega) y
      simpa using this
  · subst hpre hpost
    have hna1 := (NoAdj_mid pre2 [] (sp, false)).1 hna0.1
    have hna2 := (NoAdj_mid [] post2 (sn, false)).1 hna0.2.1
    have e3 : x = h.heap_start + total pre2 + sp := by simp [e2]; omega
    obtain ⟨_, _, n16, n32, _, _, _⟩ := Tiled.block_at h (pre2 ++ [(sp, false), (sz, true)])
      post2 (sn, false) (by simpa using hi.tiled)
    obtain ⟨k1, k2⟩ := mm_free_both h pre2 post2 sp sz sn fl x e3 (by simpa using hi)
    refine ⟨_, _, k1, ?_, ?_, hclear (sz + sn) (by simp only at n16; omega) k2⟩
    · rw [NoAdj_mid]
      refine ⟨hna1.1, hna2.2.1, ?_, ?_⟩
      · rcases hna1.2.2.1 with k | k
        · exact Or.inl k
        · simp at k
      · rcases hna2.2.2.2 with k | k
        · simp at k
        · exact Or.inr k
    · intro y
      have := allocAddrs_drop h.mem h.heap_start pre2 [(sp, false), (sz, true), (sn, false)]
        [(sp + (sz + sn), false)] post2 x
        (by simpa using hi.tiled.blocks) (by simp) (by simp [allocAddrs, e3])
        (by simp [allocAddrs]) (by simp [e3]; omega) y
      simpa using this

/-- On a well-formed heap, a request that finds no fit and gets no growth
returns null and changes nothing. -/
theorem mm_malloc_null (h : Heap) (bs : List Blk) (fl : List Nat) (hi : Inv h bs fl)
    (s : Nat) (g : Bool)
    (hfit : first_fit h (adjusted_size s) fl = 0)
    (hsb : ¬(g = true ∧ h.mem_brk + round_up ((adjusted_size s * 2) % W) dsize < W - 1)) :
    mm_malloc h s g = some (h, 0) := by
  by_cases hs : s = 0
  · unfold mm_malloc; rw [if_pos hs]
  · rw [mm_malloc_eq h s g hs _ (find_fit_spec h bs fl hi _)]
    have hch : choose h (adjusted_size s) (first_fit h (adjusted_size s) fl) g = (h, 0) := by
      unfold choose
      rw [if_pos hfit, extend_heap_fail h _ g hsb]
    rw [hch]
    simp

/-- On a well-formed heap, a request of at most `2 ^ 62` bytes that finds a
fit or gets growth is placed in a free block of a well-formed heap (the heap
itself, or the heap grown by `extend_heap`) whose size is at least the
adjusted size. -/
theorem mm_malloc_ok (h : Heap) (bs : List Blk) (fl : List Nat) (hi : Inv h bs fl)
    (hna : NoAdj bs) (s : Nat) (g : Bool) (hs0 : s ≠ 0) (hs : s ≤ 2 ^ 62)
    (hsucc : first_fit h (adjusted_size s) fl ≠ 0 ∨
      (g = true ∧ h.mem_brk + adjusted_size s * 2 < W - 1)) :
    ∃ h0 pre S post fl0 x,
      Inv h0 (pre ++ (S, false) :: post) fl0 ∧ NoAdj (pre ++ (S, false) :: post) ∧
      x = h0.heap_start + total pre ∧ h0.heap_start = h.heap_start ∧
      adjusted_size s ≤ S ∧
      (∀ y, y ∈ allocAddrs h.heap_start (pre ++ (S, false) :: post) ↔
        y ∈ allocAddrs h.heap_start bs) ∧
      (first_fit h (adjusted_size s) fl ≠ 0 →
        h0 = h ∧ x = first_fit h (adjusted_size s) fl) ∧
      mm_malloc h s g = some (place h0 x (adjusted_size s), x + 8) := by
  obtain ⟨a16, a32, a1, a2⟩ := adjusted_size_facts s hs0 hs
  have haW : adjusted_size s * 2 + 15 < W := by
    rw [W_eq]; norm_num at hs; omega
  rw [mm_malloc_eq h s g hs0 _ (find_fit_spec h bs fl hi _)]
  have hcs := choose_spec h bs fl hi hna (adjusted_size s) g a16 a32 haW
  generalize choose h (adjusted_size s) (first_fit h (adjusted_size s) fl) g = c at hcs ⊢
  rcases hcs with ⟨_, k2, k3⟩ | ⟨k1, _, k3, pre, S, post, fl0, c1, c2, c3, c4, c5, c6⟩
  · rcases hsucc with k | k
    · exact absurd k2 k
    · exact absurd k k3
  · refine ⟨c.1, pre, S, post, fl0, c.2, c1, c2, by rw [c4]; exact c3, c4, c5, c6, ?_, ?_⟩
    · intro hne
      rw [k3 hne]
      exact ⟨rfl, rfl⟩
    · rw [if_neg k1]
      have hb := c1.tiled.addr_bound _ _ c.2 (by
          rw [c3, c4, addrs_append]
          simp [addrs])
      unfold header_to_payload
      rw [ptr_add_eq _ _ (by omega)]

/-- On a well-formed heap `mm_malloc` of at most `2 ^ 62` bytes returns;
either it returns null and the heap is unchanged, or the heap is again
well-formed, with one more allocated block, whose payload is returned. -/
theorem mm_malloc_wf (h : Heap) (bs : List Blk) (fl : List Nat) (hi : Inv h bs fl)
    (hna : NoAdj bs) (s : Nat) (g : Bool) (hs : s ≤ 2 ^ 62) :
    mm_malloc h s g = some (h, 0) ∨
    ∃ h2 x bs2 fl2, mm_malloc h s g = some (h2, x + 8) ∧ Inv h2 bs2 fl2 ∧ NoAdj bs2 ∧
      h2.heap_start = h.heap_start ∧ x ∉ allocAddrs h.heap_start bs ∧
      (∀ y, y ∈ allocAddrs h.heap_start bs2 ↔ y = x ∨ y ∈ allocAddrs h.heap_start bs) := by
  by_cases hs0 : s = 0
  · left; unfold mm_malloc; rw [if_pos hs0]
  obtain ⟨a16, a32, a1, a2⟩ := adjusted_size_facts s hs0 hs
  have haW : adjusted_size s * 2 + 15 < W := by
    rw [W_eq]; norm_num at hs; omega
  by_cases hsucc : first_fit h (adjusted_size s) fl ≠ 0 ∨
      (g = true ∧ h.mem_brk + adjusted_size s * 2 < W - 1)
  · right
    obtain ⟨h0, pre, S, post, fl0, x, c1, c2, c3, c4, c5, c6, _, c8⟩ :=
      mm_malloc_ok h bs fl hi hna s g hs0 hs hsucc
    have hna0 := (NoAdj_mid pre post (S, false)).1 c2
    have hn : (post.headD (0, true)).2 = true := by
      rcases hna0.2.2.2 with k | k
      · simp at k
      · exact k
    have hxfree : x ∉ allocAddrs h.heap_start bs := by
      rw [← c6, ← c4]
      apply allocAddrs_free_disjoint _ _ _ c1.tiled.blocks
      rw [freeAddrs_append, List.mem_append]
      right; simp [freeAddrs, c3]
    have hph : place h0 x (adjusted_size s) = place h0 x (adjusted_size s) := rfl
    have hps : (place h0 x (adjusted_size s)).heap_start = h.heap_start := by
      rw [← c4]
      unfold place
      simp
    by_cases hsplit : adjusted_size s + 32 ≤ S
    · obtain ⟨p1, _⟩ := place_split h0 pre post S fl0 x (adjusted_size s) c3 c1 hn a16 a32
        hsplit
      refine ⟨_, x, _, _, c8, p1, ?_, hps, hxfree, fun y => ?_⟩
      · rw [NoAdj_mid]
        refine ⟨hna0.1, ?_, Or.inr rfl, Or.inl rfl⟩
        rw [← List.nil_append ((S - adjusted_size s, false) :: post), NoAdj_mid]
        exact ⟨NoAdj_nil, hna0.2.1, Or.inl rfl, Or.inr hn⟩
      · have := allocAddrs_add h.heap_start pre [(S, false)]
          [(adjusted_size s, true), (S - adjusted_size s, false)] post x
          (by simp; omega) (by simp [allocAddrs]) (by simp [allocAddrs, c3, c4]) y
        rw [← c6]
        simpa using this
    · obtain ⟨p1, _⟩ := place_whole h0 pre post S fl0 x (adjusted_size s) c3 c1 c5
        (by omega)
      refine ⟨_, x, _, _, c8, p1, ?_, hps, hxfree, fun y => ?_⟩
      · rw [NoAdj_mid]
        exact ⟨hna0.1, hna0.2.1, Or.inr rfl, Or.inl rfl⟩
      · have := allocAddrs_add h.heap_start pre [(S, false)] [(S, true)] post x
          rfl (by simp [allocAddrs]) (by simp [allocAddrs, c3, c4]) y
        rw [← c6]
        simpa using this
  · left
    rw [not_or, not_not] at hsucc
    refine mm_malloc_null h bs fl hi s g hsucc.1 ?_
    rw [Nat.mod_eq_of_lt (by omega), round_up_eq _ (by omega) haW]
    exact hsucc.2

/-! ## Reachable states -/

theorem mm_free_null (h : Heap) : mm_free h 0 = h := by
  unfold mm_free; simp

theorem reachable_inv (h : Heap) (live : List Nat) (hr : Reachable h live) : RInv h live := by
  induction hr with
  | init base m g1 g2 hok =>
    obtain ⟨h1, _, _⟩ := mm_init_spec base m g1 g2 hok
    refine ⟨_, _, h1, ?_, List.nodup_nil, fun p => ?_⟩
    · unfold NoAdj; simp
    · simp [allocAddrs]
  | malloc h live size grant h2 p _ hs hm ih =>
    obtain ⟨bs, fl, hi, hna, hnd, hl⟩ := ih
    rcases mm_malloc_wf h bs fl hi hna size grant hs with k | ⟨h3, x, bs2, fl2, k1, k2, k3, k4,
      k5, k6⟩
    · rw [k] at hm
      simp only [Option.some.injEq, Prod.mk.injEq] at hm
      obtain ⟨e1, e2⟩ := hm
      subst e1 e2
      simp only [if_true]
      exact ⟨bs, fl, hi, hna, hnd, hl⟩
    · rw [k1] at hm
      simp only [Option.some.injEq, Prod.mk.injEq] at hm
      obtain ⟨e1, e2⟩ := hm
      subst e1 e2
      rw [if_neg (by omega)]
      refine ⟨bs2, fl2, k2, k3, ?_, fun p => ?_⟩
      · rw [List.nodup_cons]
        refine ⟨fun hmem => ?_, hnd⟩
        obtain ⟨y, hy, e⟩ := (hl _).1 hmem
        have : y = x := by omega
        subst this
        exact k5 hy
      · rw [List.mem_cons, hl, k4]
        constructor
        · rintro (k | ⟨y, hy, e⟩)
          · exact ⟨x, (k6 x).2 (Or.inl rfl), k⟩
          · exact ⟨y, (k6 y).2 (Or.inr hy), e⟩
        · rintro ⟨y, hy, e⟩
          rcases (k6 y).1 hy with k | k
          · left; rw [e, k]
          · right; exact ⟨y, k, e⟩
  | free h live p _ hp ih =>
    obtain ⟨bs, fl, hi, hna, hnd, hl⟩ := ih
    have h0 : (0 : Nat) ∉ live := by
      intro hm
      obtain ⟨y, _, e⟩ := (hl 0).1 hm
      omega
    rcases hp with hp | hp
    · subst hp
      rw [mm_free_null, List.erase_of_not_mem h0]
      exact ⟨bs, fl, hi, hna, hnd, hl⟩
    · obtain ⟨x, hx, e⟩ := (hl p).1 hp
      subst e
      obtain ⟨bs2, fl2, k1, k2, k3, _⟩ := mm_free_wf h bs fl hi hna x hx
      refine ⟨bs2, fl2, k1, k2, hnd.erase _, fun q => ?_⟩
      rw [hnd.mem_erase_iff, hl, mm_free_heap_start]
      constructor
      · rintro ⟨hne, y, hy, e⟩
        exact ⟨y, (k3 y).2 ⟨hy, by omega⟩, e⟩
      · rintro ⟨y, hy, e⟩
        have := (k3 y).1 hy
        exact ⟨by omega, y, this.1, e⟩

theorem reachable_wf (h : Heap) (live : List Nat) (hr : Reachable h live) : WF h := by
  obtain ⟨bs, fl, hi, hna, _, _⟩ := reachable_inv h live hr
  exact ⟨bs, fl, hi, hna⟩

/-! ## The arena walk -/

theorem examine_loop_spec (h : Heap) (a : Nat) (bs : List Blk) (fuel : Nat)
    (hb : Blocks h.mem a bs) (he : h.mem (a + total bs) = pack 0 true)
    (hk : a + total bs + 8 = h.mem_brk) (hW : h.mem_brk < W - 1) (hf : bs.length < fuel) :
    examine_loop h fuel a = layout a bs := by
  induction bs generalizing a fuel with
  | nil =>
    cases fuel with
    | zero => simp at hf
    | succ n =>
      have : get_size h a = 0 := get_size_of_tag h a 0 true (by simpa using he) rfl (by
        rw [W_eq]; norm_num)
      simp [examine_loop, this, layout]
  | cons b l ih =>
    obtain ⟨h1, h2, h3, _, h5⟩ := hb
    simp only [total_cons] at he hk
    cases fuel with
    | zero => simp at hf
    | succ n =>
      have hg : get_size h a = b.1 := get_size_of_tag h a b.1 b.2 h3 h1 (by omega)
      have hga : get_alloc h a = b.2 := get_alloc_of_tag h a b.1 b.2 h3 h1
      have hfn : find_next h a = a + b.1 := find_next_eq h a b.1 hg (by omega)
      have hcond : get_size h a > 0 ∧ a < mem_heap_hi h := by
        unfold mem_heap_hi; omega
      have hrec := ih (a + b.1) n h5 (by rw [Nat.add_assoc]; exact he) (by omega)
        (by simpa using hf)
      rw [hg] at hcond
      simp only [examine_loop, hg, hga, hfn, layout, hrec, if_pos hcond]

theorem addrs_length_eq (a : Nat) (bs : List Blk) : (addrs a bs).length = bs.length := by
  induction bs generalizing a with
  | nil => rfl
  | cons b l ih => simp [addrs, ih]

theorem examine_heap_spec (h : Heap) (bs : List Blk) (ht : Tiled h bs) :
    examine_heap h = layout h.heap_start bs := by
  have h1 := addrs_length _ _ _ ht.blocks
  have h2 := addrs_length_eq h.heap_start bs
  have h3 := ht.brk
  have h4 := ht.start
  exact examine_loop_spec h _ bs _ ht.blocks ht.epilogue ht.brk ht.bound (by omega)

theorem layout_chain (a : Nat) (bs : List Blk) :
    List.Chain' (fun x y : Nat × Nat × Bool => x.2.2 = true ∨ y.2.2 = true) (layout a bs) ↔
      NoAdj bs := by
  unfold NoAdj
  induction bs generalizing a with
  | nil => simp [layout]
  | cons b l ih =>
    cases l with
    | nil => simp [layout]
    | cons c l2 =>
      have := ih (a + b.1)
      simp only [layout, List.chain'_cons] at this ⊢
      rw [this]

theorem layout_sizes (a : Nat) (bs : List Blk) :
    ((layout a bs).map (fun b => b.2.1)).sum = total bs := by
  induction bs generalizing a with
  | nil => rfl
  | cons b l ih => simp [layout, ih]

theorem layout_free (a : Nat) (bs : List Blk) (x : Nat) :
    (∃ sz, (x, sz, false) ∈ layout a bs) ↔ x ∈ freeAddrs a bs := by
  induction bs generalizing a with
  | nil => simp [layout, freeAddrs]
  | cons b l ih =>
    obtain ⟨s, f⟩ := b
    cases f
    · simp only [layout, List.mem_cons, Prod.mk.injEq, freeAddrs, Bool.false_eq_true,
        if_false, ← ih]
      constructor
      · rintro ⟨sz, (⟨k, _, _⟩ | k)⟩
        · exact Or.inl k
        · exact Or.inr ⟨sz, k⟩
      · rintro (k | ⟨sz, k⟩)
        · exact ⟨s, Or.inl ⟨k, rfl, trivial⟩⟩
        · exact ⟨sz, Or.inr k⟩
    · simp only [layout, List.mem_cons, Prod.mk.injEq, freeAddrs, if_true, ← ih]
      constructor
      · rintro ⟨sz, (⟨_, _, k⟩ | k)⟩
        · simp at k
        · exact ⟨sz, k⟩
      · rintro ⟨sz, k⟩
        exact ⟨sz, Or.inr k⟩

/-! ## Supporting facts for the claims -/

theorem extract_size_lt (w : Nat) : extract_size w < W := by
  have : extract_size w ≤ size_mask := Nat.and_le_right
  unfold size_mask at this
  rw [W_eq]; omega

theorem extract_size_mod_W (w : Nat) : extract_size w = extract_size (w % W) := by
  unfold extract_size size_mask
  apply Nat.eq_of_testBit_eq
  intro i
  have hW : W = 2 ^ 64 := rfl
  rw [Nat.testBit_and, Nat.testBit_and, hW, Nat.testBit_mod_two_pow]
  by_cases h64 : i < 64
  · simp [h64]
  · have hm : Nat.testBit 0xFFFFFFFFFFFFFFF0 i = false :=
      Nat.testBit_lt_two_pow (lt_of_lt_of_le (by norm_num : 0xFFFFFFFFFFFFFFF0 < 2 ^ 64)
        (Nat.pow_le_pow_right (by norm_num) (by omega)))
    simp [hm]

theorem extract_size_mod16 (w : Nat) : extract_size w % 16 = 0 := by
  rw [extract_size_mod_W]
  exact extract_size_mod _ (Nat.mod_lt _ (by rw [W_eq]; norm_num))

theorem addrs_mod (m : Nat → Nat) (a : Nat) (bs : List Blk) (hb : Blocks m a bs)
    (y : Nat) (hy : y ∈ addrs a bs) : y % 16 = a % 16 := by
  induction bs generalizing a with
  | nil => simp [addrs] at hy
  | cons b l ih =>
    obtain ⟨h1, _, _, _, h5⟩ := hb
    simp only [addrs, List.mem_cons] at hy
    rcases hy with k | k
    · rw [k]
    · rw [ih _ h5 k]; omega

theorem total_mod (m : Nat → Nat) (a : Nat) (bs : List Blk) (hb : Blocks m a bs) :
    total bs % 16 = 0 := by
  induction bs generalizing a with
  | nil => rfl
  | cons b l ih =>
    obtain ⟨h1, _, _, _, h5⟩ := hb
    have := ih _ h5
    simp only [total_cons]; omega

theorem ptr_sub_mod (b k : Nat) (hk : k % 16 = 0) : ptr_sub b k % 16 = b % 16 := by
  unfold ptr_sub
  rw [W_eq]
  omega

theorem ptr_add_mod (b k : Nat) : ptr_add b k % 16 = (b + k) % 16 := by
  unfold ptr_add
  rw [W_eq]
  omega

/-- The block returned by `coalesce_block` is the block itself or the block
found through the footer in front of it. -/
theorem coalesce_block_result (h : Heap) (b : Nat) :
    (coalesce_block h b).2 = b ∨ (coalesce_block h b).2 = find_prev h b := by
  unfold coalesce_block
  dsimp only
  split_ifs <;> simp

theorem coalesce_block_result_mod (h : Heap) (b : Nat) :
    (coalesce_block h b).2 % 16 = b % 16 := by
  rcases coalesce_block_result h b with k | k
  · rw [k]
  · rw [k]; unfold find_prev; exact ptr_sub_mod _ _ (extract_size_mod16 _)

/-- The block returned by `extend_heap` is null or has the alignment of the
old epilogue header. -/
theorem extend_heap_result_mod (h : Heap) (n : Nat) (g : Bool) :
    (extend_heap h n g).2 = 0 ∨ (extend_heap h n g).2 % 16 = (h.mem_brk + 8) % 16 := by
  unfold extend_heap
  dsimp only
  split_ifs with k
  · left; rfl
  · right
    rw [coalesce_block_result_mod]
    have : (mem_sbrk h (round_up n dsize) g).2 = h.mem_brk := by
      unfold mem_sbrk at k ⊢
      split_ifs with k2
      · rfl
      · rw [if_neg k2] at k; exact absurd rfl k
    rw [this]
    unfold find_prev_footer wsize ptr_sub
    rw [W_eq]
    omega

/-- The links of a segment, read forwards and backwards. -/
theorem Seg_links (m : Nat → Nat) (l : List Nat) (p c q e : Nat) (hs : Seg m p c l q e) :
    (∀ x ∈ l.head?, m (x + 8) = p) ∧
    List.Chain' (fun x y => m (x + 16) = y ∧ m (y + 8) = x) l := by
  induction l generalizing p c with
  | nil => simp
  | cons x l ih =>
    obtain ⟨_, _, h3, h4⟩ := hs
    have := ih _ _ h4
    refine ⟨by simpa using h3, ?_⟩
    cases l with
    | nil => simp
    | cons y l2 =>
      rw [List.chain'_cons]
      refine ⟨⟨h4.1, ?_⟩, this.2⟩
      exact this.1 y (by simp)

theorem Inv.head_eq (h : Heap) (bs : List Blk) (fl : List Nat) (hi : Inv h bs fl) :
    h.free_list_head = fl.headD 0 := by
  obtain ⟨q, hq⟩ := hi.chain
  exact Seg_entry _ _ _ _ _ _ hq

theorem reachable_allocated (h : Heap) (live : List Nat) (hr : Reachable h live)
    (p : Nat) (hp : p ∈ live) : Allocated h p := by
  obtain ⟨bs, fl, hi, hna, _, hl⟩ := reachable_inv h live hr
  exact ⟨bs, fl, hi, hna, (hl p).1 hp⟩

theorem mm_free_of_free (h : Heap) (p : Nat)
    (hf : get_alloc h (payload_to_header p) = false) : mm_free h p = h := by
  unfold mm_free
  dsimp only
  rw [if_pos hf]
  simp

/-! ## The claims -/

/-- C1. No-adjacent-free invariant: in every state reached from a successful
`mm_init` by `mm_malloc` calls of at most `2 ^ 62` bytes and `mm_free` calls on
null or on live pointers, whatever the growth provider answers, the walk of
the arena in address order from `heap_start` never meets two consecutive
blocks that are both free; the walk ends at the epilogue header, the last
word of the arena, of size 0 and allocated. -/
theorem no_adjacent_free (h : Heap) (live : List Nat) (hr : Reachable h live) :
    List.Chain' (fun x y : Nat × Nat × Bool => x.2.2 = true ∨ y.2.2 = true)
      (examine_heap h) ∧
    h.heap_start + ((examine_heap h).map (fun b => b.2.1)).sum + 8 = h.mem_brk ∧
    get_size h (h.mem_brk - 8) = 0 ∧ get_alloc h (h.mem_brk - 8) = true := by
  obtain ⟨bs, fl, hi, hna, _, _⟩ := reachable_inv h live hr
  rw [examine_heap_spec h bs hi.tiled, layout_chain, layout_sizes]
  have hk := hi.tiled.brk
  have he := hi.tiled.epilogue
  have e : h.mem_brk - 8 = h.heap_start + total bs := by omega
  rw [e]
  exact ⟨hna, hk, get_size_of_tag h _ 0 true he rfl (by rw [W_eq]; norm_num),
    get_alloc_of_tag h _ 0 true he rfl⟩

/-- C2. Free-list/arena agreement: in every reachable state the chain
followed from `free_list_head` through the `next` links ends at null, visits
no block twice, has consistent back-links (the head has a null `prev`, and
each node is the `prev` of its successor), and visits exactly the blocks of
the arena walk whose header has the allocated bit clear. -/
theorem free_list_agrees (h : Heap) (live : List Nat) (hr : Reachable h live) :
    ∃ fl, free_list h = some fl ∧ fl.Nodup ∧
      (∀ x ∈ fl.head?, get_prev h x = 0) ∧
      List.Chain' (fun x y => get_next h x = y ∧ get_prev h y = x) fl ∧
      ∀ a, a ∈ fl ↔ ∃ sz, (a, sz, false) ∈ examine_heap h := by
  obtain ⟨bs, fl, hi, _, _, _⟩ := reachable_inv h live hr
  obtain ⟨q, hq⟩ := hi.chain
  obtain ⟨l1, l2⟩ := Seg_links _ _ _ _ _ _ hq
  have hgp : ∀ y ∈ fl, get_prev h y = h.mem (y + 8) := by
    intro y hy
    unfold get_prev
    rw [ptr_add_eq _ _ (by have := hi.node_bound _ _ _ y hy; omega)]
  have hgn : ∀ y ∈ fl, get_next h y = h.mem (y + 16) := by
    intro y hy
    unfold get_next
    rw [ptr_add_eq _ _ (by have := hi.node_bound _ _ _ y hy; omega)]
  refine ⟨fl, free_list_spec h bs fl hi, hi.nodup, ?_, ?_, fun a => ?_⟩
  · intro x hx
    rw [hgp x (List.mem_of_mem_head? hx)]
    exact l1 x hx
  · refine (List.Chain'.iff_mem.1 l2).imp ?_
    rintro x y ⟨hx, hy, hxy⟩
    rw [hgn x hx, hgp y hy]
    exact hxy
  · rw [examine_heap_spec h bs hi.tiled, layout_free]
    exact hi.listed a

/-- C3, at the failing input: right after `mm_init` on an arena at address
65536, the request of `2 ^ 64 - 17` bytes gets the adjusted size 0, and
`mm_malloc` returns the non-null pointer 65552 to a block whose header
records 4096 bytes, far less than requested, with the allocated bit clear. -/
theorem mm_malloc_wraps :
    (mm_init (fresh 65536 (fun _ => 0)) true true).2 = 0 ∧
    adjusted_size (2 ^ 64 - 17) = 0 ∧
    (mm_malloc (mm_init (fresh 65536 (fun _ => 0)) true true).1 (2 ^ 64 - 17) true).map
      (fun r => (r.2, get_size r.1 (payload_to_header r.2),
        get_alloc r.1 (payload_to_header r.2))) = some (65552, 4096, false) := by
  refine ⟨by decide, by decide, by decide⟩

/-- C4. Alignment: in every reachable state whose arena starts at a multiple
of 16 (the first address handed out by the growth provider in `mm_init`) and
for every size, whenever `mm_malloc` returns a non-null pointer, the pointer
is a multiple of 16 and the block header, one word below it, records a size
that is a multiple of 16. For sizes of at most `2 ^ 62` the call does
return. -/
theorem malloc_aligned (h : Heap) (live : List Nat) (hr : Reachable h live)
    (hbase : h.mem_start_brk % 16 = 0) (s : Nat) (g : Bool) :
    (∀ h2 p, mm_malloc h s g = some (h2, p) → p ≠ 0 →
      p % 16 = 0 ∧ get_size h2 (payload_to_header p) % 16 = 0) ∧
    (s ≤ 2 ^ 62 → ∃ h2 p, mm_malloc h s g = some (h2, p)) := by
  have key : ∃ h2 p, mm_malloc h s g = some (h2, p) ∧
      (p ≠ 0 → p % 16 = 0 ∧ get_size h2 (payload_to_header p) % 16 = 0) := by
    obtain ⟨bs, fl, hi, _, _, _⟩ := reachable_inv h live hr
    by_cases hs : s = 0
    · refine ⟨h, 0, by unfold mm_malloc; rw [if_pos hs], fun k => absurd rfl k⟩
    rw [mm_malloc_eq h s g hs _ (find_fit_spec h bs fl hi _)]
    have hst := hi.tiled.start
    have hk := hi.tiled.brk
    have ht := total_mod _ _ _ hi.tiled.blocks
    have hc : (choose h (adjusted_size s) (first_fit h (adjusted_size s) fl) g).2 = 0 ∨
        (choose h (adjusted_size s) (first_fit h (adjusted_size s) fl) g).2 % 16 = 8 := by
      unfold choose
      split_ifs with k
      · rcases extend_heap_result_mod h ((adjusted_size s * 2) % W) g with k2 | k2
        · exact Or.inl k2
        · right; rw [k2]; omega
      · right
        have := addrs_mod _ _ _ hi.tiled.blocks _
          (hi.node_addr _ _ _ _ (first_fit_mem h _ fl k).1)
        simp only
        omega
    split_ifs with k
    · exact ⟨_, _, rfl, fun k2 => absurd rfl k2⟩
    · refine ⟨_, _, rfl, fun _ => ⟨?_, extract_size_mod16 _⟩⟩
      rcases hc with k2 | k2
      · exact absurd k2 k
      · unfold header_to_payload
        rw [ptr_add_mod]; omega
  obtain ⟨h2, p, e, k⟩ := key
  refine ⟨fun h3 q hm hq => ?_, fun _ => ⟨h2, p, e⟩⟩
  rw [e] at hm
  simp only [Option.some.injEq, Prod.mk.injEq] at hm
  obtain ⟨e1, e2⟩ := hm
  subst e1 e2
  exact k hq

/-- C5. On a well-formed heap and for a size of at most `2 ^ 62`, `mm_malloc`
returns, and it returns null exactly when the size is 0 or no block of the
free list has the adjusted size (32 for sizes up to 16, otherwise the size
plus 16 rounded up to a multiple of 16) and the growth request for twice the
adjusted size fails. -/
theorem malloc_null_iff (h : Heap) (hwf : WF h) (s : Nat) (hs : s ≤ 2 ^ 62) (g : Bool) :
    ∃ fl h2 p, free_list h = some fl ∧ mm_malloc h s g = some (h2, p) ∧
      (p = 0 ↔ s = 0 ∨ ((∀ y ∈ fl, get_size h y < adjusted_size s) ∧
        (mem_sbrk h (adjusted_size s * 2) g).2 = W - 1)) ∧
      adjusted_size s = (if s ≤ 16 then 32 else 16 * ((s + 16 + 15) / 16)) := by
  obtain ⟨bs, fl, hi, hna⟩ := hwf
  have hadj : adjusted_size s = (if s ≤ 16 then 32 else 16 * ((s + 16 + 15) / 16)) := by
    unfold adjusted_size round_up dsize min_block_size
    rw [W_eq]
    norm_num at hs
    split_ifs <;> omega
  have hsb : (mem_sbrk h (adjusted_size s * 2) g).2 = W - 1 ↔
      ¬(g = true ∧ h.mem_brk + adjusted_size s * 2 < W - 1) := by
    unfold mem_sbrk
    split_ifs with k
    · simp only [k, and_self, not_true_eq_false, iff_false]
      have := k.2
      show ¬(h.mem_brk = W - 1)
      omega
    · simp [k]
  have h0 := first_fit_zero h (adjusted_size s) fl (fun y hy => (hi.node_bound _ _ _ y hy).2)
  by_cases hs0 : s = 0
  · refine ⟨fl, h, 0, free_list_spec h bs fl hi, by unfold mm_malloc; rw [if_pos hs0], ?_,
      hadj⟩
    simp [hs0]
  by_cases hsucc : first_fit h (adjusted_size s) fl ≠ 0 ∨
      (g = true ∧ h.mem_brk + adjusted_size s * 2 < W - 1)
  · obtain ⟨h0', pre, S, post, fl0, x, _, _, _, _, _, _, _, c8⟩ :=
      mm_malloc_ok h bs fl hi hna s g hs0 hs hsucc
    refine ⟨fl, _, _, free_list_spec h bs fl hi, c8, ?_, hadj⟩
    rw [hsb, ← h0]
    constructor
    · intro k; omega
    · rintro (k | ⟨k1, k2⟩)
      · exact absurd k hs0
      · rcases hsucc with k3 | k3
        · exact absurd k1 k3
        · exact absurd k3 k2
  · rw [not_or, not_not] at hsucc
    obtain ⟨a16, a32, a1, a2⟩ := adjusted_size_facts s hs0 hs
    have haW : adjusted_size s * 2 + 15 < W := by
      rw [W_eq]; norm_num at hs; omega
    refine ⟨fl, h, 0, free_list_spec h bs fl hi,
      mm_malloc_null h bs fl hi s g hsucc.1 ?_, ?_, hadj⟩
    · rw [Nat.mod_eq_of_lt (by omega), round_up_eq _ (by omega) haW]
      exact hsucc.2
    · rw [hsb, ← h0]
      simp only [true_iff]
      exact Or.inr ⟨hsucc.1, hsucc.2⟩

/-- C6. Exhaustion is atomic: on a well-formed heap, when every block of the
free list is smaller than the adjusted size and the growth provider fails on
the request that `mm_malloc` makes, `mm_malloc` returns null and the state
(memory, arena bounds, `heap_start`, `free_list_head`) is unchanged. -/
theorem exhaustion_atomic (h : Heap) (hwf : WF h) (s : Nat) (g : Bool) (fl : List Nat)
    (hfl : free_list h = some fl)
    (hsmall : ∀ y ∈ fl, get_size h y < adjusted_size s)
    (hfail : (mem_sbrk h (round_up ((adjusted_size s * 2) % W) dsize) g).2 = W - 1) :
    mm_malloc h s g = some (h, 0) := by
  obtain ⟨bs, fl2, hi, _⟩ := hwf
  have e : fl2 = fl := by
    have := free_list_spec h bs fl2 hi
    rw [hfl] at this
    exact (Option.some.inj this).symm
  subst e
  refine mm_malloc_null h bs fl2 hi s g ?_ ?_
  · exact (first_fit_zero h _ fl2 (fun y hy => (hi.node_bound _ _ _ y hy).2)).2 hsmall
  · intro k
    rw [mem_sbrk, if_pos k] at hfail
    have := k.2
    simp only at hfail
    omega

/-- C7. Idempotent double free: for a pointer that is currently allocated in
a well-formed heap, freeing it twice gives the same state as freeing it once;
the second call returns at the test of the allocated bit, without a store. -/
theorem double_free_idempotent (h : Heap) (p : Nat) (hp : Allocated h p) :
    get_alloc (mm_free h p) (payload_to_header p) = false ∧
    mm_free (mm_free h p) p = mm_free h p := by
  obtain ⟨bs, fl, hi, hna, x, hx, e⟩ := hp
  subst e
  obtain ⟨_, _, _, _, _, k⟩ := mm_free_wf h bs fl hi hna x hx
  have hb := hi.tiled.addr_bound _ _ x (allocAddrs_sub _ _ _ hx)
  have hph : payload_to_header (x + 8) = x := by
    unfold payload_to_header
    rw [ptr_sub_eq _ _ (by omega) (by omega)]; omega
  rw [hph]
  exact ⟨k, mm_free_of_free _ _ (by rw [hph]; exact k)⟩

@[simp] theorem place_heap_start (h : Heap) (x a : Nat) :
    (place h x a).heap_start = h.heap_start := by
  unfold place; simp

/-- A free block at the head of the free list that is large enough is the
result of the first-fit search. -/
theorem first_fit_head (h : Heap) (asize x : Nat) (l : List Nat)
    (hx : asize ≤ get_size h x) : first_fit h asize (x :: l) = x := by
  unfold first_fit
  simp [hx]

/-- C8. Round-trip reuse: on a well-formed heap, when `mm_malloc` of a size
between 1 and `2 ^ 62` returns a non-null pointer and that pointer is freed
at once, the next `mm_malloc` of the same size returns the same pointer. -/
theorem round_trip_reuse (h : Heap) (hwf : WF h) (s : Nat) (hs0 : 0 < s) (hs : s ≤ 2 ^ 62)
    (g1 g2 : Bool) (h1 : Heap) (p : Nat) (hm : mm_malloc h s g1 = some (h1, p))
    (hp : p ≠ 0) :
    ∃ h3, mm_malloc (mm_free h1 p) s g2 = some (h3, p) := by
  obtain ⟨bs, fl, hi, hna⟩ := hwf
  have hs1 : s ≠ 0 := by omega
  obtain ⟨a16, a32, _, _⟩ := adjusted_size_facts s hs1 hs
  have haW : adjusted_size s * 2 + 15 < W := by
    rw [W_eq]; norm_num at hs; omega
  by_cases hsucc : first_fit h (adjusted_size s) fl ≠ 0 ∨
      (g1 = true ∧ h.mem_brk + adjusted_size s * 2 < W - 1)
  · obtain ⟨h0, pre, S, post, fl0, x, c1, c2, c3, c4, c5, _, _, c8⟩ :=
      mm_malloc_ok h bs fl hi hna s g1 hs1 hs hsucc
    rw [c8] at hm
    simp only [Option.some.injEq, Prod.mk.injEq] at hm
    obtain ⟨e1, e2⟩ := hm
    subst e1 e2
    have hna0 := (NoAdj_mid pre post (S, false)).1 c2
    have hn : (post.headD (0, true)).2 = true := by
      rcases hna0.2.2.2 with k | k
      · simp at k
      · exact k
    have hpv : (pre.getLastD (0, true)).2 = true := by
      rcases hna0.2.2.1 with k | k
      · exact k
      · simp at k
    have hfinal : ∀ (hF : Heap) (S2 : Nat) (flr : List Nat),
        Inv hF (pre ++ (S2, false) :: post) (x :: flr) → hF.heap_start = h0.heap_start →
        adjusted_size s ≤ S2 → ∃ h3, mm_malloc hF s g2 = some (h3, x + 8) := by
      intro hF S2 flr iF eF hS
      obtain ⟨r1, _, _, _, _, _, _⟩ := iF.tiled.reads hF pre post (S2, false) x
        (by rw [eF]; exact c3)
      have hff : first_fit hF (adjusted_size s) (x :: flr) = x :=
        first_fit_head hF _ x flr (by rw [r1]; exact hS)
      have hx0 : x ≠ 0 := (iF.node_bound _ _ _ x (by simp)).2
      have hna2 : NoAdj (pre ++ (S2, false) :: post) := by
        rw [NoAdj_mid]; exact ⟨hna0.1, hna0.2.1, Or.inl hpv, Or.inr hn⟩
      obtain ⟨h0', pre', S', post', fl0', x', _, _, _, _, _, _, d7, d8⟩ :=
        mm_malloc_ok hF _ _ iF hna2 s g2 hs1 hs (Or.inl (by rw [hff]; exact hx0))
      obtain ⟨_, d9⟩ := d7 (by rw [hff]; exact hx0)
      rw [hff] at d9
      subst d9
      exact ⟨_, d8⟩
    by_cases hsplit : adjusted_size s + 32 ≤ S
    · obtain ⟨p1, _⟩ := place_split h0 pre post S fl0 x (adjusted_size s) c3 c1 hn a16 a32
        hsplit
      obtain ⟨f1, _⟩ := mm_free_next (place h0 x (adjusted_size s)) pre post (adjusted_size s)
        (S - adjusted_size s) _ x (by rw [place_heap_start]; exact c3) p1 hpv
      exact hfinal _ _ _ f1 (by simp) (by omega)
    · obtain ⟨p1, _⟩ := place_whole h0 pre post S fl0 x (adjusted_size s) c3 c1 c5
        (by omega)
      obtain ⟨f1, _⟩ := mm_free_nn (place h0 x (adjusted_size s)) pre post S _ x
        (by rw [place_heap_start]; exact c3) p1 hpv hn
      exact hfinal _ _ _ f1 (by simp) c5
  · rw [not_or, not_not] at hsucc
    have := mm_malloc_null h bs fl hi s g1 hsucc.1 (by
      rw [Nat.mod_eq_of_lt (by omega), round_up_eq _ (by omega) haW]
      exact hsucc.2)
    rw [this] at hm
    simp only [Option.some.injEq, Prod.mk.injEq] at hm
    exact absurd hm.2.symm hp

/-- C9. Coalescing collapse: in a heap that satisfies the representation
invariant and has three consecutive allocated blocks `A`, `B`, `C` between
allocated neighbours (blocks or sentinels), freeing `B`, then `A`, then `C`
leaves one free block at the address of `A` whose header and footer record
the sum of the three sizes with the allocated bit clear; the free list holds
that block once, and neither `B` nor `C`. -/
theorem coalescing_collapse (h : Heap) (pre post : List Blk) (sA sB sC : Nat)
    (fl : List Nat) (A : Nat) (hA : A = h.heap_start + total pre)
    (hi : Inv h (pre ++ (sA, true) :: (sB, true) :: (sC, true) :: post) fl)
    (hp : (pre.getLastD (0, true)).2 = true) (hn : (post.headD (0, true)).2 = true) :
    Inv (mm_free (mm_free (mm_free h (A + sA + 8)) (A + 8)) (A + sA + sB + 8))
      (pre ++ (sA + sB + sC, false) :: post) (A :: fl) ∧
    (mm_free (mm_free (mm_free h (A + sA + 8)) (A + 8)) (A + sA + sB + 8)).mem A =
      pack (sA + sB + sC) false ∧
    (mm_free (mm_free (mm_free h (A + sA + 8)) (A + 8)) (A + sA + sB + 8)).mem
      (A + (sA + sB + sC) - 8) = pack (sA + sB + sC) false ∧
    free_list (mm_free (mm_free (mm_free h (A + sA + 8)) (A + 8)) (A + sA + sB + 8)) =
      some (A :: fl) ∧
    (A :: fl).count A = 1 ∧ A + sA ∉ A :: fl ∧ A + sA + sB ∉ A :: fl := by
  obtain ⟨_, _, _, a32, _, _, _⟩ := hi.tiled.block_at h pre _ (sA, true)
  obtain ⟨_, _, _, b32, _, _, _⟩ := Tiled.block_at h (pre ++ [(sA, true)]) _ (sB, true)
    (by simpa using hi.tiled)
  obtain ⟨_, _, _, c32, _, _, _⟩ := Tiled.block_at h (pre ++ [(sA, true), (sB, true)]) _
    (sC, true) (by simpa using hi.tiled)
  simp only at a32 b32 c32
  -- free B
  obtain ⟨i1, _⟩ := mm_free_nn h (pre ++ [(sA, true)]) ((sC, true) :: post) sB fl (A + sA)
    (by simp [hA]; omega) (by simpa using hi) (by simp) rfl
  -- free A
  obtain ⟨i2, _⟩ := mm_free_next (mm_free h (A + sA + 8)) pre ((sC, true) :: post) sA sB
    ((A + sA) :: fl) A (by simp [hA]) (by simpa using i1) hp
  rw [List.erase_cons_head] at i2
  -- free C
  obtain ⟨i3, _⟩ := mm_free_prev (mm_free (mm_free h (A + sA + 8)) (A + 8)) pre post (sA + sB)
    sC (A :: fl) (A + sA + sB) (by simp [hA]; omega) i2 hn
  have e : sA + sB + sC = sA + sB + sC := rfl
  obtain ⟨t1, t2, _, _, _, _, _⟩ := i3.tiled.block_at _ pre post (sA + sB + sC, false)
  simp only [mm_free_heap_start, ← hA] at t1 t2
  have hfree : ∀ y ∈ fl, y ≠ A ∧ y ≠ A + sA ∧ y ≠ A + sA + sB := by
    intro y hy
    have h1 := freeAddrs_loc h.mem h.heap_start pre [(sA, true), (sB, true), (sC, true)] post
      (by simpa using hi.tiled.blocks) y (by simpa using (hi.listed y).1 hy)
    simp only [freeAddrs, if_true, List.not_mem_nil, false_and, false_or, total_cons,
      total_nil, Nat.add_zero, ← hA] at h1
    rcases h1 with k | k <;> refine ⟨?_, ?_, ?_⟩ <;> omega
  refine ⟨i3, t1, t2, free_list_spec _ _ _ i3, ?_, ?_, ?_⟩
  · rw [List.count_cons_self, List.count_eq_zero_of_not_mem]
    exact fun k => (hfree A k).1 rfl
  · rw [List.mem_cons]
    rintro (k | k)
    · omega
    · exact (hfree _ k).2.1 rfl
  · rw [List.mem_cons]
    rintro (k | k)
    · omega
    · exact (hfree _ k).2.2 rfl

/-- Sufficiency where the adjusted size does not wrap: on a well-formed heap
and for a size between 1 and `2 ^ 62`, the block behind a non-null result of
`mm_malloc` is allocated and its size, less the 16 bytes of header and
footer, is at least the requested size. -/
theorem malloc_sufficient (h : Heap) (hwf : WF h) (s : Nat) (hs0 : 0 < s) (hs : s ≤ 2 ^ 62)
    (g : Bool) (h2 : Heap) (p : Nat) (hm : mm_malloc h s g = some (h2, p)) (hp : p ≠ 0) :
    s ≤ get_size h2 (payload_to_header p) - 16 ∧
    get_alloc h2 (payload_to_header p) = true := by
  obtain ⟨bs, fl, hi, hna⟩ := hwf
  have hs1 : s ≠ 0 := by omega
  obtain ⟨a16, a32, a1, _⟩ := adjusted_size_facts s hs1 hs
  have haW : adjusted_size s * 2 + 15 < W := by
    rw [W_eq]; norm_num at hs; omega
  by_cases hsucc : first_fit h (adjusted_size s) fl ≠ 0 ∨
      (g = true ∧ h.mem_brk + adjusted_size s * 2 < W - 1)
  · obtain ⟨h0, pre, S, post, fl0, x, c1, c2, c3, c4, c5, _, _, c8⟩ :=
      mm_malloc_ok h bs fl hi hna s g hs1 hs hsucc
    rw [c8] at hm
    simp only [Option.some.injEq, Prod.mk.injEq] at hm
    obtain ⟨e1, e2⟩ := hm
    subst e1 e2
    have hna0 := (NoAdj_mid pre post (S, false)).1 c2
    have hn : (post.headD (0, true)).2 = true := by
      rcases hna0.2.2.2 with k | k
      · simp at k
      · exact k
    have hb := c1.tiled.addr_bound _ _ x (by rw [c3, addrs_append]; simp [addrs])
    have hph : payload_to_header (x + 8) = x := by
      unfold payload_to_header
      rw [ptr_sub_eq _ _ (by omega) (by omega)]; omega
    rw [hph]
    by_cases hsplit : adjusted_size s + 32 ≤ S
    · obtain ⟨p1, _⟩ := place_split h0 pre post S fl0 x (adjusted_size s) c3 c1 hn a16 a32
        hsplit
      obtain ⟨r1, r2, _, _, _, _, _⟩ := p1.tiled.reads _ pre _ (adjusted_size s, true) x
        (by rw [place_heap_start]; exact c3)
      rw [r1, r2]
      exact ⟨by simp only; omega, rfl⟩
    · obtain ⟨p1, _⟩ := place_whole h0 pre post S fl0 x (adjusted_size s) c3 c1 c5
        (by omega)
      obtain ⟨r1, r2, _, _, _, _, _⟩ := p1.tiled.reads _ pre _ (S, true) x
        (by rw [place_heap_start]; exact c3)
      rw [r1, r2]
      exact ⟨by simp only; omega, rfl⟩
  · rw [not_or, not_not] at hsucc
    have := mm_malloc_null h bs fl hi s g hsucc.1 (by
      rw [Nat.mod_eq_of_lt (by omega), round_up_eq _ (by omega) haW]
      exact hsucc.2)
    rw [this] at hm
    simp only [Option.some.injEq, Prod.mk.injEq] at hm
    exact absurd hm.2.symm hp

/-! ## Concrete states for the instances -/

theorem reach0 : Reachable heap0 [] :=
  Reachable.init 65536 (fun _ => 0) true true (by decide)

theorem run1 : mm_malloc heap0 64 true = some (heap1, 65552) := by rfl

theorem run2 : mm_malloc heap1 100 true = some (heap2, 65632) := by rfl

theorem run3 : mm_malloc heap2 8 true = some (heap3, 65760) := by rfl

theorem run4 : mm_malloc heap3 24 true = some (heap4, 65792) := by rfl

theorem run6 : mm_malloc heap5 64 true = some (heap6, 65632) := by rfl

theorem reach4 : Reachable heap4 [65792, 65760, 65632, 65552] :=
  Reachable.malloc heap3 [65760, 65632, 65552] 24 true heap4 65792
    (Reachable.malloc heap2 [65632, 65552] 8 true heap3 65760
      (Reachable.malloc heap1 [65552] 100 true heap2 65632
        (Reachable.malloc heap0 [] 64 true heap1 65552 reach0 (by norm_num) run1)
        (by norm_num) run2)
      (by norm_num) run3)
    (by norm_num) run4

theorem reach5 : Reachable heap5 [65792, 65760, 65552] :=
  Reachable.free heap4 [65792, 65760, 65632, 65552] 65632 reach4 (Or.inr (by decide))

/-- The blocks and the free list of `heap4`. -/
theorem inv4 : Inv heap4
    ([] ++ (80, true) :: (128, true) :: (32, true) :: [(48, true), (3808, false)])
    [65832] := by
  refine ⟨⟨by decide, by decide, ?_, by decide, by decide, by decide⟩, ⟨65832, ?_⟩,
    by decide, ?_⟩
  · simp only [List.nil_append, Blocks_cons, Blocks_nil, and_true]
    decide
  · simp only [Seg_cons, Seg_nil]
    decide
  · intro x
    have e : freeAddrs heap4.heap_start
        ([] ++ (80, true) :: (128, true) :: (32, true) :: [(48, true), (3808, false)]) =
        [65832] := by decide
    rw [e]

/-! ## The state after `mm_init` -/

/-- The function `mm_init` after a granted first request: the call of
`extend_heap` on the arena of two sentinel words decides the result. -/
theorem mm_init_eq (base : Nat) (m : Nat → Nat) (g2 : Bool) (hW1 : base + 16 < W - 1)
    (H : Heap)
    (hH : H = Heap.mk (write (write m base (pack 0 true)) (base + 8) (pack 0 true))
      base (base + 16) (base + 8) 0) :
    mm_init (fresh base m) true g2 =
      if (extend_heap H chunksize g2).2 = 0 then ((extend_heap H chunksize g2).1, -1)
      else
        (set_next (set_prev { (extend_heap H chunksize g2).1 with
            free_list_head := (extend_heap H chunksize g2).2 }
          (extend_heap H chunksize g2).2 0) (extend_heap H chunksize g2).2 0, 0) := by
  have e8 : ptr_add base wsize = base + 8 := ptr_add_eq _ _ (by unfold wsize; omega)
  have hsb : mem_sbrk (fresh base m) (2 * wsize) true =
      ({ fresh base m with mem_brk := base + 16 }, base) :=
    mem_sbrk_ok (fresh base m) 16 hW1
  unfold mm_init
  simp only [hsb, e8]
  rw [if_neg (by omega)]
  simp only [hH, fresh, Heap.store, set_prev_head, set_next_mem, set_prev_mem]

/-- When the growth provider grants both requests, `mm_init` succeeds. -/
theorem mm_init_ok (base : Nat) (m : Nat → Nat) (hW : base + 16 + 4096 < W - 1) :
    (mm_init (fresh base m) true true).2 = 0 := by
  have hW1 : base + 16 < W - 1 := by omega
  obtain ⟨H, hH⟩ : ∃ H : Heap,
      H = Heap.mk (write (write m base (pack 0 true)) (base + 8) (pack 0 true))
        base (base + 16) (base + 8) 0 := ⟨_, rfl⟩
  have hI := mm_init_empty base m hW1 H hH
  have hHb : H.mem_brk = base + 16 := by rw [hH]
  obtain ⟨x1, _, _⟩ := extend_heap_last_alloc H [] [] chunksize 4096 (base + 8) hI
    (by rw [hH]; rfl) round_up_chunksize (by omega) (by rw [hHb]; omega) rfl
  rw [mm_init_eq base m true hW1 H hH, if_neg (by rw [x1]; omega)]

/-- C11. Postcondition of `mm_init`: from an empty arena at `base` with an
empty free list, when the growth provider grants both requests (16 bytes,
then 4096 bytes), `mm_init` returns 0; the arena then holds the prologue
footer (size 0, allocated) in its first word, one free block of 4096 bytes at
`heap_start` with equal header and footer, and the epilogue header (size 0,
allocated) in its last word; `free_list_head` is that block, and both its
links are null. -/
theorem mm_init_post (base : Nat) (m : Nat → Nat) (hW : base + 16 + 4096 < W - 1) :
    ∃ H, mm_init (fresh base m) true true = (H, 0) ∧
      H.mem_start_brk = base ∧ H.mem_brk = base + 16 + 4096 ∧ H.heap_start = base + 8 ∧
      H.mem base = pack 0 true ∧
      H.mem H.heap_start = pack 4096 false ∧
      H.mem (H.heap_start + 4096 - 8) = pack 4096 false ∧
      H.mem (H.mem_brk - 8) = pack 0 true ∧
      examine_heap H = [(H.heap_start, 4096, false)] ∧
      H.free_list_head = H.heap_start ∧
      get_prev H H.free_list_head = 0 ∧ get_next H H.free_list_head = 0 ∧
      free_list H = some [H.heap_start] := by
  have hok := mm_init_ok base m hW
  obtain ⟨hi, hs, _⟩ := mm_init_spec base m true true hok
  refine ⟨(mm_init (fresh base m) true true).1, Prod.ext rfl hok, hs, ?_⟩
  generalize (mm_init (fresh base m) true true).1 = H at hi hs
  have ht := hi.tiled
  obtain ⟨b1, b2, _, _, b5, _, b7⟩ := Tiled.block_at H [] [] (4096, false) ht
  simp only [total_nil, Nat.add_zero] at b1 b2 b5
  have hst : H.heap_start = base + 8 := by rw [b7, hs]
  have hpro := ht.prologue
  have hep := ht.epilogue
  simp only [total_cons, total_nil, Nat.add_zero] at hep
  obtain ⟨q, hq⟩ := hi.chain
  obtain ⟨c1, _, c3, c4, _⟩ := hq
  have hfl := free_list_spec H _ _ hi
  have a8 : ptr_add (base + 8) 8 = base + 8 + 8 := ptr_add_eq _ _ (by omega)
  have a16 : ptr_add (base + 8) 16 = base + 8 + 16 := ptr_add_eq _ _ (by omega)
  have hbrk : H.mem_brk - 8 = H.heap_start + 4096 := by omega
  refine ⟨by omega, hst, by rw [← hs]; exact hpro, b1, b2, by rw [hbrk]; exact hep,
    ?_, by rw [c1, hst], ?_, ?_, by rw [hst]; exact hfl⟩
  · rw [examine_heap_spec H _ ht]
    simp [layout]
  · rw [c1]; unfold get_prev; rw [a8]; exact c3
  · rw [c1]; unfold get_next; rw [a16]; exact c4

/-! ## The consistency checker -/

theorem check_loop_spec (h : Heap) (s : Nat) (ss : List Nat) :
    ∀ (a fuel : Nat), Headers h.mem a (s :: ss) → a + (s :: ss).sum + 8 = h.mem_brk →
      h.mem_brk + 16 < W → (s :: ss).length ≤ fuel →
      check_loop h fuel a = some (tags_agree h.mem a (s :: ss).dropLast) := by
  induction ss generalizing s with
  | nil =>
    intro a fuel hh hb hW hf
    obtain ⟨h32, hsz, _⟩ := hh
    simp only [List.sum_cons, List.sum_nil, Nat.add_zero] at hb
    obtain ⟨f, rfl⟩ : ∃ f, fuel = f + 1 := ⟨fuel - 1, by simp at hf; omega⟩
    have hn : find_next h a = a + s := by
      unfold find_next get_size
      rw [hsz, ptr_add_eq _ _ (by omega)]
    have hp : ptr_add (a + s) sizeof_block = a + s + 24 :=
      ptr_add_eq _ _ (by unfold sizeof_block; omega)
    unfold check_loop
    simp only [hn, hp, mem_heap_hi]
    rw [if_neg (by omega)]
    rfl
  | cons s2 ss2 ih =>
    intro a fuel hh hb hW hf
    obtain ⟨h32, hsz, hh2⟩ := hh
    have h32b := hh2.1
    simp only [List.sum_cons] at hb
    obtain ⟨f, rfl⟩ : ∃ f, fuel = f + 1 := ⟨fuel - 1, by simp at hf; omega⟩
    have hn : find_next h a = a + s := by
      unfold find_next get_size
      rw [hsz, ptr_add_eq _ _ (by omega)]
    have hp : ptr_add (a + s) sizeof_block = a + s + 24 :=
      ptr_add_eq _ _ (by unfold sizeof_block; omega)
    have hpf : find_prev_footer (a + s) = a + s - 8 := by
      unfold find_prev_footer wsize
      rw [ptr_sub_eq _ _ (by omega) (by omega)]
    have ih2 := ih s2 (a + s) f hh2 (by simp only [List.sum_cons]; omega) hW
      (by simp only [List.length_cons] at hf ⊢; omega)
    unfold check_loop
    simp only [hn, hp, hpf, mem_heap_hi]
    rw [if_pos (by omega), ih2]
    simp only [List.dropLast_cons₂, tags_agree]
    by_cases k : h.mem a = h.mem (a + s - 8)
    · simp [k]
    · simp [k]

/-- On an arena laid out as a chain of blocks from `heap_start` up to the
epilogue header, `check_heap` returns, and it returns true exactly when every
block of the chain except the last one has a footer equal to its header: the
loop ends when it reaches the last block, whose footer it never reads. -/
theorem check_heap_spec (h : Heap) (ss : List Nat) (h0 : h.heap_start ≠ 0)
    (hlo : h.mem_start_brk ≤ h.heap_start)
    (hh : Headers h.mem h.heap_start ss)
    (he : extract_size (h.mem (h.heap_start + ss.sum)) = 0)
    (hb : h.heap_start + ss.sum + 8 = h.mem_brk) (hW : h.mem_brk + 16 < W) :
    check_heap h = some (tags_agree h.mem h.heap_start ss.dropLast) := by
  unfold check_heap
  rw [if_neg h0]
  cases ss with
  | nil =>
    simp only [List.sum_nil, Nat.add_zero] at he hb
    have hn : find_next h h.heap_start = h.heap_start := by
      unfold find_next get_size
      rw [he, ptr_add_eq _ _ (by omega)]; rfl
    have hp : ptr_add h.heap_start sizeof_block = h.heap_start + 24 :=
      ptr_add_eq _ _ (by unfold sizeof_block; omega)
    unfold check_loop
    simp only [hn, hp, mem_heap_hi]
    rw [if_neg (by omega)]
    rfl
  | cons s ss =>
    refine check_loop_spec h s ss _ _ hh hb hW ?_
    have hlen : ∀ (l : List Nat) (a : Nat), Headers h.mem a l → l.length ≤ l.sum := by
      intro l
      induction l with
      | nil => intro _ _; simp
      | cons x l ih =>
        intro a hl
        have := ih _ hl.2.2
        have := hl.1
        simp only [List.length_cons, List.sum_cons]
        omega
    have := hlen _ _ hh
    omega

/-- C12, at the failing input: in an arena of two allocated blocks whose last
block has a footer that differs from its header, `check_heap` returns true;
it does return false when the footer of the first block is overwritten
instead. -/
theorem check_heap_skips_last :
    mm_malloc heap1 4000 true = some (heap7, 65632) ∧
    examine_heap heap8 = [(65544, 80, true), (65624, 4016, true)] ∧
    heap8.mem 65624 = pack 4016 true ∧ heap8.mem (65624 + 4016 - 8) = 0 ∧
    check_heap heap8 = some true ∧
    check_heap (heap7.store (65544 + 80 - 8) 0) = some false := by
  refine ⟨by rfl, by decide, by decide, by decide, by decide, by decide⟩

/-! ## The split policy -/

theorem layout_append (a : Nat) (pre post : List Blk) :
    layout a (pre ++ post) = layout a pre ++ layout (a + total pre) post := by
  induction pre generalizing a with
  | nil => simp [layout, total]
  | cons b l ih => simp [layout, total, ih, Nat.add_assoc]

/-- C13. Split policy of `mm_malloc`: on a well-formed heap, a successful
request of 1 to `2 ^ 62` bytes is placed in a free block `x` of size `S`, at
least the adjusted size, of the heap in which the block is chosen (the heap
itself when the search finds a fit, the grown heap otherwise). When
`S - asize` is at least 32, the granted block has size `asize` and is
followed at once by a free block of `S - asize` bytes that is in the free
list; otherwise the granted block keeps the size `S` and the arena has the
same blocks as before. In both cases header and footer of the granted block
carry the allocated bit, and the block is not in the free list any more. -/
theorem split_policy (h : Heap) (hwf : WF h) (s : Nat) (hs0 : 0 < s) (hs : s ≤ 2 ^ 62)
    (g : Bool) (h2 : Heap) (p : Nat) (hm : mm_malloc h s g = some (h2, p)) (hp : p ≠ 0) :
    ∃ fit x S pre post fl0 fl2,
      find_fit h (adjusted_size s) = some fit ∧
      (fit ≠ 0 → choose h (adjusted_size s) fit g = (h, fit)) ∧
      x = (choose h (adjusted_size s) fit g).2 ∧ p = x + 8 ∧
      examine_heap (choose h (adjusted_size s) fit g).1 = pre ++ (x, S, false) :: post ∧
      adjusted_size s ≤ S ∧
      free_list (choose h (adjusted_size s) fit g).1 = some fl0 ∧ x ∈ fl0 ∧
      free_list h2 = some fl2 ∧ x ∉ fl2 ∧
      (32 ≤ S - adjusted_size s →
        examine_heap h2 = pre ++ (x, adjusted_size s, true) ::
          (x + adjusted_size s, S - adjusted_size s, false) :: post ∧
        x + adjusted_size s ∈ fl2 ∧
        h2.mem x = pack (adjusted_size s) true ∧
        h2.mem (x + adjusted_size s - 8) = pack (adjusted_size s) true) ∧
      (S - adjusted_size s < 32 →
        examine_heap h2 = pre ++ (x, S, true) :: post ∧
        h2.mem x = pack S true ∧ h2.mem (x + S - 8) = pack S true) := by
  obtain ⟨bs, fl, hi, hna⟩ := hwf
  have hs1 : s ≠ 0 := by omega
  obtain ⟨a16, a32, _, _⟩ := adjusted_size_facts s hs1 hs
  have haW : adjusted_size s * 2 + 15 < W := by
    rw [W_eq]; norm_num at hs; omega
  have hff := find_fit_spec h bs fl hi (adjusted_size s)
  rw [mm_malloc_eq h s g hs1 _ hff] at hm
  rcases choose_spec h bs fl hi hna (adjusted_size s) g a16 a32 haW with
    ⟨c0, _, _⟩ | ⟨c1, _, c3, pre, S, post, fl0, i0, n0, cx, cs, cS, _⟩
  · rw [c0] at hm
    simp only [if_true, Option.some.injEq, Prod.mk.injEq] at hm
    exact absurd hm.2.symm hp
  rw [if_neg c1] at hm
  simp only [Option.some.injEq, Prod.mk.injEq] at hm
  obtain ⟨e1, e2⟩ := hm
  obtain ⟨⟨h0, x⟩, hc⟩ :
      ∃ c, choose h (adjusted_size s) (first_fit h (adjusted_size s) fl) g = c := ⟨_, rfl⟩
  rw [hc] at c1 c3 i0 cx cs e1 e2
  simp only at c1 cx cs i0 e1 e2
  have cx2 : x = h0.heap_start + total pre := by rw [cs]; exact cx
  have hna0 := (NoAdj_mid pre post (S, false)).1 n0
  have hn : (post.headD (0, true)).2 = true := by
    rcases hna0.2.2.2 with k | k
    · simp at k
    · exact k
  have hb := i0.tiled.addr_bound _ _ x (by rw [cx2, addrs_append]; simp [addrs])
  have hpay : header_to_payload x = x + 8 := by
    unfold header_to_payload
    rw [ptr_add_eq _ _ (by omega)]
  have hx0 : x ∈ fl0 := by
    rw [i0.listed, cx2, freeAddrs_append]
    simp [freeAddrs]
  have hex0 : examine_heap h0 =
      layout h0.heap_start pre ++ (x, S, false) :: layout (x + S) post := by
    rw [examine_heap_spec h0 _ i0.tiled, layout_append, cx2]
    rfl
  refine ⟨first_fit h (adjusted_size s) fl, x, S, layout h0.heap_start pre, layout (x + S) post,
    fl0, (if adjusted_size s + 32 ≤ S then (x + adjusted_size s) :: fl0.erase x
      else fl0.erase x), hff, ?_⟩
  rw [hc]
  refine ⟨c3, rfl, by rw [← e2, hpay], hex0, cS, free_list_spec h0 _ _ i0, hx0, ?_⟩
  by_cases hsplit : adjusted_size s + 32 ≤ S
  · obtain ⟨p1, _⟩ := place_split h0 pre post S fl0 x (adjusted_size s) cx2 i0 hn a16 a32 hsplit
    rw [e1] at p1
    have hst : h2.heap_start = h0.heap_start := by rw [← e1, place_heap_start]
    obtain ⟨t1, t2, _⟩ := Tiled.block_at h2 pre _ (adjusted_size s, true) p1.tiled
    rw [hst, ← cx2] at t1 t2
    rw [if_pos hsplit]
    refine ⟨free_list_spec h2 _ _ p1, ?_, fun _ => ⟨?_, by simp, t1, t2⟩,
      fun k => absurd k (by omega)⟩
    · rw [List.mem_cons, not_or]
      exact ⟨by omega, fun k => (List.Nodup.mem_erase_iff i0.nodup).1 k |>.1 rfl⟩
    · rw [examine_heap_spec h2 _ p1.tiled, layout_append, hst, ← cx2]
      simp only [layout]
      rw [show x + adjusted_size s + (S - adjusted_size s) = x + S by omega]
  · obtain ⟨p1, _⟩ := place_whole h0 pre post S fl0 x (adjusted_size s) cx2 i0 cS (by omega)
    rw [e1] at p1
    have hst : h2.heap_start = h0.heap_start := by rw [← e1, place_heap_start]
    obtain ⟨t1, t2, _⟩ := Tiled.block_at h2 pre _ (S, true) p1.tiled
    rw [hst, ← cx2] at t1 t2
    rw [if_neg hsplit]
    refine ⟨free_list_spec h2 _ _ p1, ?_, fun k => absurd k (by omega),
      fun _ => ⟨?_, t1, t2⟩⟩
    · exact fun k => (List.Nodup.mem_erase_iff i0.nodup).1 k |>.1 rfl
    · rw [examine_heap_spec h2 _ p1.tiled, layout_append, hst, ← cx2]
      simp only [layout]

/-! ## The postcondition of `coalesce_block` -/

/-- The four cases of `coalesce_block` at a free, listed block `b` of a heap
that satisfies the invariant: the result is the run with `b` and its free
neighbours replaced by one free block, and the list without the absorbed
blocks. `sp` and `sn` are the sizes of the previous and the next block when
they are free, and 0 when they are allocated. -/
theorem coalesce_shape (h : Heap) (pre post : List Blk) (sz : Nat) (fl : List Nat) (b : Nat)
    (hb : b = h.heap_start + total pre)
    (hi : Inv h (pre ++ (sz, false) :: post) fl) (hpre : NoAdj pre) (hpost : NoAdj post) :
    ∃ pre2 post2 fl2,
      (coalesce_block h b).2 =
        b - (if (pre.getLastD (0, true)).2 = true then 0 else (pre.getLastD (0, true)).1) ∧
      Inv (coalesce_block h b).1
        (pre2 ++ ((if (pre.getLastD (0, true)).2 = true then 0 else (pre.getLastD (0, true)).1)
          + sz + (if (post.headD (0, true)).2 = true then 0 else (post.headD (0, true)).1),
            false) :: post2) fl2 ∧
      (pre2.getLastD (0, true)).2 = true ∧ (post2.headD (0, true)).2 = true ∧
      NoAdj pre2 ∧ NoAdj post2 ∧
      b - (if (pre.getLastD (0, true)).2 = true then 0 else (pre.getLastD (0, true)).1) =
        h.heap_start + total pre2 ∧
      ((pre.getLastD (0, true)).2 = false → b ∉ fl2) ∧
      ((post.headD (0, true)).2 = false → b + sz ∉ fl2) ∧
      ((pre.getLastD (0, true)).2 = true → (post.headD (0, true)).2 = true →
        coalesce_block h b = (h, b)) := by
  rcases blk_last_cases pre with hl | ⟨pre2, sp, rfl⟩
  · rcases blk_head_cases post with hn | ⟨sn, post2, rfl⟩
    · have e := coalesce_nn h pre post (sz, false) b hb hi.tiled hn hl
      refine ⟨pre, post, fl, ?_, ?_, hl, hn, hpre, hpost, ?_, ?_, ?_, fun _ _ => e⟩
      · rw [e, if_pos hl]; rfl
      · rw [e, if_pos hl, if_pos hn]; simpa using hi
      · rw [if_pos hl]; exact hb
      · intro k; rw [hl] at k; exact absurd k (by simp)
      · intro k; rw [hn] at k; exact absurd k (by simp)
    · obtain ⟨c1, c2, _⟩ := coalesce_next h pre post2 sz sn fl b hb hi hl
      have hp2 := (NoAdj_mid [] post2 (sn, false)).1 (by simpa using hpost)
      have hn2 : (post2.headD (0, true)).2 = true := by
        rcases hp2.2.2.2 with k | k
        · simp at k
        · exact k
      refine ⟨pre, post2, fl.erase (b + sz), ?_, ?_, hl, hn2, hpre, hp2.2.1, ?_, ?_, ?_, ?_⟩
      · rw [c1, if_pos hl]; rfl
      · rw [if_pos hl]; simpa using c2
      · rw [if_pos hl]; exact hb
      · intro k; rw [hl] at k; exact absurd k (by simp)
      · intro _ k
        exact ((List.Nodup.mem_erase_iff hi.nodup).1 k).1 rfl
      · intro _ k; simp at k
  · have hq := (NoAdj_mid pre2 [] (sp, false)).1 hpre
    have hl2 : (pre2.getLastD (0, true)).2 = true := by
      rcases hq.2.2.1 with k | k
      · exact k
      · simp at k
    have hb2 : b = h.heap_start + total pre2 + sp := by
      rw [hb, total_append]; simp [total]; omega
    have h32 : 32 ≤ sp := by
      have := Tiled.block_at h pre2 ((sz, false) :: post) (sp, false) (by simpa using hi.tiled)
      exact this.2.2.2.1
    have hlast : (pre2 ++ [(sp, false)]).getLastD (0, true) = (sp, false) := by simp
    rcases blk_head_cases post with hn | ⟨sn, post2, rfl⟩
    · obtain ⟨c1, c2, _⟩ := coalesce_prev h pre2 post sp sz fl b hb2 (by simpa using hi) hn
      refine ⟨pre2, post, fl.erase b, ?_, ?_, hl2, hn, hq.1, hpost, ?_, ?_, ?_, ?_⟩
      · rw [c1, hlast]; rfl
      · rw [hlast, if_pos hn]; simpa using c2
      · rw [hlast]; simp only [Bool.false_eq_true, if_false]; omega
      · intro _ k
        exact ((List.Nodup.mem_erase_iff hi.nodup).1 k).1 rfl
      · intro k; rw [hn] at k; exact absurd k (by simp)
      · intro k; rw [hlast] at k; simp at k
    · obtain ⟨c1, c2, _⟩ := coalesce_both h pre2 post2 sp sz sn fl b hb2 (by simpa using hi)
      have hp2 := (NoAdj_mid [] post2 (sn, false)).1 (by simpa using hpost)
      have hn2 : (post2.headD (0, true)).2 = true := by
        rcases hp2.2.2.2 with k | k
        · simp at k
        · exact k
      refine ⟨pre2, post2, (fl.erase (b + sz)).erase b, ?_, ?_, hl2, hn2, hq.1, hp2.2.1,
        ?_, ?_, ?_, ?_⟩
      · rw [c1, hlast]; rfl
      · rw [hlast]
        simp only [Bool.false_eq_true, if_false, List.headD_cons]
        rw [Nat.add_assoc]; exact c2
      · rw [hlast]; simp only [Bool.false_eq_true, if_false]; omega
      · intro _ k
        exact ((List.Nodup.mem_erase_iff (hi.nodup.erase _)).1 k).1 rfl
      · intro _ k
        exact ((List.Nodup.mem_erase_iff hi.nodup).1 (List.mem_of_mem_erase k)).1 rfl
      · intro k; rw [hlast] at k; simp at k

/-- The sizes that `coalesce_block` reads at the two neighbours of a block of
the run. -/
theorem Tiled.neighbour_sizes (h : Heap) (pre post : List Blk) (b : Blk) (x : Nat)
    (hx : x = h.heap_start + total pre) (ht : Tiled h (pre ++ b :: post)) :
    (if extract_alloc (h.mem (find_prev_footer x)) = true then 0
      else extract_size (h.mem (find_prev_footer x))) =
      (if (pre.getLastD (0, true)).2 = true then 0 else (pre.getLastD (0, true)).1) ∧
    (if get_alloc h (find_next h x) = true then 0 else get_size h (find_next h x)) =
      (if (post.headD (0, true)).2 = true then 0 else (post.headD (0, true)).1) ∧
    ((pre.getLastD (0, true)).2 = false → 32 ≤ (pre.getLastD (0, true)).1) ∧
    ((post.headD (0, true)).2 = false → 32 ≤ (post.headD (0, true)).1) := by
  obtain ⟨_, _, r3, r4, r5, r6, r7⟩ := ht.reads h pre post b x hx
  rw [r3, r4, r5, r6, r7]
  refine ⟨rfl, ?_, ?_, ?_⟩
  · rcases blk_head_cases post with hn | ⟨sn, post2, rfl⟩
    · rw [if_pos hn, if_pos hn]
    · obtain ⟨_, _, k, _⟩ := Tiled.reads_next h pre post2 b.1 sn b.2 false x hx ht
      simp [k]
  · rcases blk_last_cases pre with hl | ⟨pre2, sp, rfl⟩
    · intro k; rw [hl] at k; exact absurd k (by simp)
    · intro _
      have := Tiled.block_at h pre2 (b :: post) (sp, false) (by simpa using ht)
      simpa using this.2.2.2.1
  · rcases blk_head_cases post with hn | ⟨sn, post2, rfl⟩
    · intro k; rw [hn] at k; exact absurd k (by simp)
    · intro _
      have := Tiled.block_at h (pre ++ [b]) post2 (sn, false) (by simpa using ht)
      simpa using this.2.2.2.1

/-- C14. Postcondition of `coalesce_block`: in a heap that satisfies the
representation invariant and has no two adjacent free blocks except possibly
around the free, listed block `b` of size `sz`, let `sp` and `sn` be the
sizes of the previous and the next block when they are free, and 0 when they
are allocated. Then `coalesce_block` returns the block `b - sp`, free, with
`sp + sz + sn` in its header and footer, between allocated neighbours, in a
well-formed heap; the free list holds it once and holds no absorbed block;
when both neighbours are allocated nothing changes. -/
theorem coalesce_block_post (h : Heap) (pre post : List Blk) (sz : Nat) (fl : List Nat)
    (b : Nat) (hb : b = h.heap_start + total pre)
    (hi : Inv h (pre ++ (sz, false) :: post) fl) (hpre : NoAdj pre) (hpost : NoAdj post) :
    ∃ sp sn fl2,
      sp = (if extract_alloc (h.mem (find_prev_footer b)) = true then 0
        else extract_size (h.mem (find_prev_footer b))) ∧
      sn = (if get_alloc h (find_next h b) = true then 0 else get_size h (find_next h b)) ∧
      (coalesce_block h b).2 = b - sp ∧
      WF (coalesce_block h b).1 ∧
      (coalesce_block h b).1.mem (b - sp) = pack (sp + sz + sn) false ∧
      (coalesce_block h b).1.mem (b - sp + (sp + sz + sn) - 8) = pack (sp + sz + sn) false ∧
      get_alloc (coalesce_block h b).1 (find_next (coalesce_block h b).1 (b - sp)) = true ∧
      extract_alloc ((coalesce_block h b).1.mem (find_prev_footer (b - sp))) = true ∧
      free_list (coalesce_block h b).1 = some fl2 ∧ fl2.count (b - sp) = 1 ∧
      (sp ≠ 0 → b ∉ fl2) ∧ (sn ≠ 0 → b + sz ∉ fl2) ∧
      (sp = 0 → sn = 0 → coalesce_block h b = (h, b)) := by
  obtain ⟨n1, n2, n3, n4⟩ := hi.tiled.neighbour_sizes h pre post (sz, false) b hb
  obtain ⟨pre2, post2, fl2, s1, s2, s3, s4, s5, s6, s7, s8, s9, s10⟩ :=
    coalesce_shape h pre post sz fl b hb hi hpre hpost
  refine ⟨_, _, fl2, rfl, rfl, ?_⟩
  rw [n1, n2]
  obtain ⟨sp, hsp⟩ : ∃ sp, sp =
      (if (pre.getLastD (0, true)).2 = true then 0 else (pre.getLastD (0, true)).1) := ⟨_, rfl⟩
  obtain ⟨sn, hsn⟩ : ∃ sn, sn =
      (if (post.headD (0, true)).2 = true then 0 else (post.headD (0, true)).1) := ⟨_, rfl⟩
  rw [← hsp] at s1 s2 s7 ⊢
  rw [← hsn] at s2 ⊢
  have p0 : sp ≠ 0 → (pre.getLastD (0, true)).2 = false := by
    intro k
    by_cases k2 : (pre.getLastD (0, true)).2 = true
    · rw [if_pos k2] at hsp; exact absurd hsp k
    · simpa using k2
  have p1 : sp = 0 → (pre.getLastD (0, true)).2 = true := by
    intro k
    by_cases k2 : (pre.getLastD (0, true)).2 = true
    · exact k2
    · rw [if_neg k2] at hsp
      have := n3 (by simpa using k2)
      omega
  have q0 : sn ≠ 0 → (post.headD (0, true)).2 = false := by
    intro k
    by_cases k2 : (post.headD (0, true)).2 = true
    · rw [if_pos k2] at hsn; exact absurd hsn k
    · simpa using k2
  have q1 : sn = 0 → (post.headD (0, true)).2 = true := by
    intro k
    by_cases k2 : (post.headD (0, true)).2 = true
    · exact k2
    · rw [if_neg k2] at hsn
      have := n4 (by simpa using k2)
      omega
  have hst : (coalesce_block h b).1.heap_start = h.heap_start := coalesce_block_heap_start h b
  have hr : b - sp = (coalesce_block h b).1.heap_start + total pre2 := by rw [hst]; exact s7
  obtain ⟨t1, t2, _⟩ := s2.tiled.block_at _ pre2 post2 (sp + sz + sn, false)
  obtain ⟨_, _, r3, r4, r5, r6, _⟩ := s2.tiled.reads _ pre2 post2 (sp + sz + sn, false)
    (b - sp) hr
  rw [← hr] at t1 t2
  have hmem : b - sp ∈ fl2 := by
    rw [s2.listed, hr, freeAddrs_append]
    simp [freeAddrs]
  refine ⟨s1, ⟨_, _, s2, (NoAdj_mid _ _ _).2 ⟨s5, s6, Or.inl s3, Or.inr s4⟩⟩, t1, t2, ?_, ?_,
    free_list_spec _ _ _ s2, List.count_eq_one_of_mem s2.nodup hmem,
    fun k => s8 (p0 k), fun k => s9 (q0 k), fun k1 k2 => s10 (p1 k1) (q1 k2)⟩
  · rw [r3, r5]; exact s4
  · rw [r4, r6]; exact s3

/-! ## The postcondition of `extend_heap` -/

theorem round_up_large (n : Nat) (hn : 16 < n) (hn2 : n ≤ 2 ^ 63) :
    32 ≤ round_up n dsize ∧ n ≤ round_up n dsize ∧ round_up n dsize < n + 16 := by
  unfold round_up dsize
  rw [W_eq]
  norm_num at hn2
  omega

/-- The footer that `coalesce_block` finds below the old epilogue header: the
footer of the last block, or the prologue footer in an arena without
blocks. -/
theorem Tiled.last_footer (h : Heap) (bs : List Blk) (ht : Tiled h bs) :
    h.mem (h.mem_brk - 16) = pack (bs.getLastD (0, true)).1 (bs.getLastD (0, true)).2 ∧
    (bs.getLastD (0, true)).1 % 16 = 0 ∧ (bs.getLastD (0, true)).1 < W := by
  have hk := ht.brk
  have hst := ht.start
  have hW := ht.bound
  rcases List.eq_nil_or_concat bs with rfl | ⟨bs2, b, rfl⟩
  · simp only [total_nil, Nat.add_zero] at hk
    have e : h.mem_brk - 16 = h.mem_start_brk := by omega
    rw [e]
    exact ⟨ht.prologue, rfl, by rw [W_eq]; norm_num⟩
  · rw [List.concat_eq_append] at ht hk ⊢
    obtain ⟨f, f16, _⟩ := Blocks_last_footer _ _ bs2 b ht.blocks
    have e : h.mem_brk - 16 = h.heap_start + total (bs2 ++ [b]) - 8 := by omega
    have hl : (bs2 ++ [b]).getLastD (0, true) = b := by simp
    rw [e, hl]
    refine ⟨f, f16, ?_⟩
    simp only [total_append, total_cons, total_nil, Nat.add_zero] at hk
    omega

/-- C15, as amended. Postcondition of `extend_heap` on a well-formed heap, for
a request of more than 16 and at most `2 ^ 63` bytes (so that the rounded
request is at least one minimum block): when the growth provider fails,
`extend_heap` returns null and changes nothing; when it grants the rounded
request, the result is a free block whose header and footer record the
rounded request plus `sp`, the size of the former last block when that block
was free and 0 otherwise; the block ends at the new epilogue header (size 0,
allocated), the last word of the grown arena; the free list holds the block
once, and the heap is well-formed. -/
theorem extend_heap_post (h : Heap) (hwf : WF h) (n : Nat) (hn : 16 < n) (hn2 : n ≤ 2 ^ 63)
    (g : Bool) :
    ((mem_sbrk h (round_up n dsize) g).2 = W - 1 → extend_heap h n g = (h, 0)) ∧
    ((mem_sbrk h (round_up n dsize) g).2 ≠ W - 1 →
      ∃ sp fl2,
        sp = (if extract_alloc (h.mem (h.mem_brk - 16)) = true then 0
          else extract_size (h.mem (h.mem_brk - 16))) ∧
        (extend_heap h n g).2 = h.mem_brk - 8 - sp ∧ (extend_heap h n g).2 ≠ 0 ∧
        (extend_heap h n g).1.mem (extend_heap h n g).2 =
          pack (round_up n dsize + sp) false ∧
        (extend_heap h n g).1.mem ((extend_heap h n g).2 + (round_up n dsize + sp) - 8) =
          pack (round_up n dsize + sp) false ∧
        (extend_heap h n g).2 + (round_up n dsize + sp) = (extend_heap h n g).1.mem_brk - 8 ∧
        (extend_heap h n g).1.mem ((extend_heap h n g).1.mem_brk - 8) = pack 0 true ∧
        (extend_heap h n g).1.mem_brk = h.mem_brk + round_up n dsize ∧
        free_list (extend_heap h n g).1 = some fl2 ∧ fl2.count (extend_heap h n g).2 = 1 ∧
        WF (extend_heap h n g).1) := by
  obtain ⟨bs, fl, hi, hna⟩ := hwf
  obtain ⟨z32, _, _⟩ := round_up_large n hn hn2
  have hsb : (mem_sbrk h (round_up n dsize) g).2 = W - 1 ↔
      ¬(g = true ∧ h.mem_brk + round_up n dsize < W - 1) := by
    unfold mem_sbrk
    split_ifs with k
    · simp only [k, and_self, not_true_eq_false, iff_false]
      have := k.2
      show ¬(h.mem_brk = W - 1)
      omega
    · simp [k]
  refine ⟨fun k => extend_heap_fail h n g (hsb.1 k), fun k => ?_⟩
  rw [Ne, hsb, not_not] at k
  obtain ⟨hg, hW⟩ := k
  subst hg
  obtain ⟨f1, f16, fW⟩ := hi.tiled.last_footer
  have hk := hi.tiled.brk
  have hst := hi.tiled.start
  rw [f1, extract_alloc_pack _ _ f16, extract_size_pack _ _ f16 fW]
  have hfin : ∀ (bs2 : List Blk) (fl2 : List Nat) (T : Nat),
      Inv (extend_heap h n true).1 (bs2 ++ [(T, false)]) fl2 → NoAdj (bs2 ++ [(T, false)]) →
      (extend_heap h n true).2 = h.heap_start + total bs2 →
      h.heap_start + total bs2 + T = h.mem_brk + round_up n dsize - 8 →
      (extend_heap h n true).2 ≠ 0 ∧
      (extend_heap h n true).1.mem (extend_heap h n true).2 = pack T false ∧
      (extend_heap h n true).1.mem ((extend_heap h n true).2 + T - 8) = pack T false ∧
      (extend_heap h n true).2 + T = (extend_heap h n true).1.mem_brk - 8 ∧
      (extend_heap h n true).1.mem ((extend_heap h n true).1.mem_brk - 8) = pack 0 true ∧
      (extend_heap h n true).1.mem_brk = h.mem_brk + round_up n dsize ∧
      free_list (extend_heap h n true).1 = some fl2 ∧
      fl2.count (extend_heap h n true).2 = 1 ∧
      WF (extend_heap h n true).1 := by
    intro bs2 fl2 T i2 na2 e1 e2
    have hs2 : (extend_heap h n true).1.heap_start = h.heap_start := extend_heap_heap_start h n true
    obtain ⟨t1, t2, _, _, t5, _, _⟩ := i2.tiled.block_at _ bs2 [] (T, false)
    have hep := i2.tiled.epilogue
    simp only [total_append, total_cons, total_nil, Nat.add_zero] at hep t5
    rw [hs2] at t1 t2 t5 hep
    rw [← e1] at t1 t2
    have hmem : (extend_heap h n true).2 ∈ fl2 := by
      rw [i2.listed, e1, hs2, freeAddrs_append]
      simp [freeAddrs]
    have hbrk : (extend_heap h n true).1.mem_brk - 8 = h.heap_start + (total bs2 + T) := by
      omega
    refine ⟨by rw [e1]; omega, t1, t2, by rw [e1]; omega, by rw [hbrk]; exact hep,
      by omega, free_list_spec _ _ _ i2, List.count_eq_one_of_mem i2.nodup hmem,
      ⟨_, _, i2, na2⟩⟩
  rcases blk_last_cases bs with hl | ⟨bs2, sp, rfl⟩
  · obtain ⟨e1, e2, _⟩ := extend_heap_last_alloc h bs fl n _ _ hi rfl rfl z32 hW hl
    refine ⟨0, (h.heap_start + total bs) :: fl, by rw [if_pos hl], ?_⟩
    rw [Nat.add_zero]
    refine ⟨by rw [e1]; omega, ?_⟩
    exact hfin bs _ _ e2 ((NoAdj_mid bs [] _).2 ⟨hna, NoAdj_nil, Or.inl hl, Or.inr rfl⟩) e1
      (by omega)
  · have hl : (bs2 ++ [(sp, false)]).getLastD (0, true) = (sp, false) := by simp
    rw [hl] at f1 f16 fW ⊢
    simp only [total_append, total_cons, total_nil, Nat.add_zero] at hk
    obtain ⟨e1, e2, _⟩ := extend_heap_last_free h bs2 fl n _ sp _ hi rfl rfl z32 hW
    rw [Nat.add_sub_cancel] at e1
    have hq := (NoAdj_mid bs2 [] (sp, false)).1 hna
    refine ⟨sp, fl, by simp, by rw [e1]; omega, ?_⟩
    rw [Nat.add_comm (round_up n dsize) sp]
    exact hfin bs2 _ _ e2 ((NoAdj_mid bs2 [] _).2 ⟨hq.1, NoAdj_nil, hq.2.2.1, Or.inr rfl⟩) e1
      (by omega)

/-- C15, as stated, fails for a request of 8 bytes on the well-formed heap
right after `mm_init`, where the growth provider grants the 16 bytes. The
new block of 16 bytes has no room for two links between its header and its
footer. When `coalesce_block` merges it into the free block before it and
calls `remove_block` on it, its `prev` field holds the merged footer, 4112,
and its `next` field the new epilogue header, 1; both are non-null, so
`remove_block` stores through them, at the addresses 4128 and 9, which lie
below the arena (65536 to 69664). The call does not produce a listed free
block. -/
theorem extend_heap_small :
    WF heap0 ∧ 0 < 8 ∧ 8 ≤ 2 ^ 63 ∧
    (mem_sbrk heap0 (round_up 8 dsize) true).2 ≠ W - 1 ∧
    extend_heap heap0 8 true = coalesce_block heap0_grown 69640 ∧
    coalesce_block heap0_grown 69640 = (remove_block heap0_merged 69640, 65544) ∧
    get_prev heap0_merged 69640 = 4112 ∧ get_next heap0_merged 69640 = 1 ∧
    remove_block heap0_merged 69640 = set_prev (set_next heap0_merged 4112 1) 1 4112 ∧
    ptr_add 4112 16 = 4128 ∧ ptr_add 1 8 = 9 ∧
    heap0_merged.mem_start_brk = 65536 ∧ heap0_merged.mem_brk = 69664 ∧
    ptr_add (get_prev heap0_merged 69640) 16 < heap0_merged.mem_start_brk ∧
    ptr_add (get_next heap0_merged 69640) 8 < heap0_merged.mem_start_brk := by
  refine ⟨reachable_wf heap0 _ reach0, by norm_num, by norm_num, by decide, by rfl, by rfl,
    by decide, by decide, by rfl, by decide, by decide, by decide, by decide, by decide,
    by decide⟩

/-! ## First fit and the splice of `remove_block` -/

/-- C16. The function `find_fit` is first fit in list order: when the chain
from `free_list_head` through the `next` links is the null-terminated list
`fl` (of nodes inside the address space, no longer than the arena has
bytes), `find_fit` returns; the result is null exactly when every node of
`fl` is smaller than `asize` (so also when `fl` is empty), and otherwise it
is the first node of `fl` whose size is at least `asize`. The search is a
function of the state only: it stores nothing. -/
theorem find_fit_first (h : Heap) (fl : List Nat) (q asize : Nat)
    (hs : Seg h.mem 0 h.free_list_head fl q 0) (hb : ∀ y ∈ fl, y + 16 < W)
    (hlen : fl.length ≤ h.mem_brk - h.mem_start_brk) :
    ∃ r, find_fit h asize = some r ∧
      (r = 0 ↔ ∀ y ∈ fl, get_size h y < asize) ∧
      (r ≠ 0 → ∃ l1 l2, fl = l1 ++ r :: l2 ∧ asize ≤ get_size h r ∧
        ∀ y ∈ l1, get_size h y < asize) := by
  have h0 := Seg_ne_zero _ _ _ _ _ _ hs
  refine ⟨first_fit h asize fl,
    find_fit_loop_spec h asize fl 0 _ q _ hs hb (by omega),
    first_fit_zero h asize fl h0, fun hne => ?_⟩
  unfold first_fit at hne ⊢
  cases hf : fl.find? (fun y => decide (asize ≤ get_size h y)) with
  | none => rw [hf] at hne; exact absurd rfl hne
  | some r =>
    rw [List.find?_eq_some] at hf
    obtain ⟨k1, l1, l2, k2, k3⟩ := hf
    refine ⟨l1, l2, k2, by simpa using k1, fun y hy => ?_⟩
    have := k3 y hy
    simpa using this

/-- C17. The function `remove_block` splices a node out: when the free list
is the doubly linked list `L` of blocks that do not overlap and `b` is one of
them, the list after `remove_block` is `L` without `b`, the other nodes in
their order, again with a null `prev` at the head and consistent back-links;
`free_list_head` becomes the successor of `b` when `b` was the head, null
when `b` was the only node, and stays what it was otherwise. -/
theorem remove_block_splices (h : Heap) (L : List Nat) (b q : Nat)
    (hs : Seg h.mem 0 h.free_list_head L q 0) (hsep : L.Pairwise Sep)
    (hb : ∀ y ∈ L, y + 16 < W) (hmem : b ∈ L) :
    (∃ q2, Seg (remove_block h b).mem 0 (remove_block h b).free_list_head (L.erase b) q2 0) ∧
    (remove_block h b).free_list_head = (L.erase b).headD 0 ∧
    (∀ x ∈ (L.erase b).head?, get_prev (remove_block h b) x = 0) ∧
    List.Chain' (fun x y => get_next (remove_block h b) x = y ∧
      get_prev (remove_block h b) y = x) (L.erase b) ∧
    (L.head? = some b → (remove_block h b).free_list_head = get_next h b) ∧
    (L = [b] → (remove_block h b).free_list_head = 0) ∧
    (L.head? ≠ some b → (remove_block h b).free_list_head = h.free_list_head) := by
  have hnd : L.Nodup := hsep.imp (fun {y z} k => by unfold Sep at k; omega)
  obtain ⟨l1, l2, rfl⟩ := List.append_of_mem hmem
  have hb1 : b ∉ l1 := by
    intro k
    have := List.nodup_append.1 hnd
    exact this.2.2 k (by simp)
  have he : (l1 ++ b :: l2).erase b = l1 ++ l2 := by
    rw [List.erase_append_right _ hb1, List.erase_cons_head]
  rw [he]
  obtain ⟨⟨q2, hq2⟩, _⟩ := remove_block_spec h b l1 l2 q hs hsep hb
  have hent := Seg_entry _ _ _ _ _ _ hq2
  obtain ⟨k1, k2⟩ := Seg_links _ _ _ _ _ _ hq2
  have hbb := hb b (by simp)
  have hgn : get_next h b = h.mem (b + 16) := by
    unfold get_next; rw [ptr_add_eq _ _ (by omega)]
  have hgp : ∀ y ∈ l1 ++ l2, get_prev (remove_block h b) y = (remove_block h b).mem (y + 8) := by
    intro y hy
    unfold get_prev
    rw [ptr_add_eq _ _ (by
      have := hb y (by simp only [List.mem_append, List.mem_cons] at hy ⊢; tauto)
      omega)]
  have hgn2 : ∀ y ∈ l1 ++ l2,
      get_next (remove_block h b) y = (remove_block h b).mem (y + 16) := by
    intro y hy
    unfold get_next
    rw [ptr_add_eq _ _ (by
      have := hb y (by simp only [List.mem_append, List.mem_cons] at hy ⊢; tauto)
      omega)]
  have hs0 := hs
  rw [Seg_append] at hs
  obtain ⟨q1, e1, hs1, _, _, _, hs2⟩ := hs
  have hnx := Seg_entry _ _ _ _ _ _ hs2
  refine ⟨⟨q2, hq2⟩, hent, ?_, ?_, ?_, ?_, ?_⟩
  · intro x hx
    rw [hgp x (List.mem_of_mem_head? hx)]
    exact k1 x hx
  · refine (List.Chain'.iff_mem.1 k2).imp ?_
    rintro x y ⟨hx, hy, hxy⟩
    rw [hgn2 x hx, hgp y hy]
    exact hxy
  · intro k
    cases l1 with
    | nil => rw [hent, hgn, hnx]; rfl
    | cons z l =>
      simp only [List.cons_append, List.head?_cons, Option.some.injEq] at k
      exact absurd (by simp [k]) hb1
  · intro k
    cases l1 with
    | nil =>
      simp only [List.nil_append, List.cons.injEq, true_and] at k
      rw [hent, k]; rfl
    | cons z l =>
      simp only [List.cons_append, List.cons.injEq] at k
      exact absurd (by simp [k.1]) hb1
  · intro k
    cases l1 with
    | nil => simp at k
    | cons z l =>
      rw [hent, Seg_entry _ _ _ _ _ _ hs0]
      rfl

/-! ## Invariants of the arena walk -/

theorem layout_blocks (m : Nat → Nat) (a : Nat) (bs : List Blk) (hb : Blocks m a bs) :
    ∀ blk ∈ layout a bs, m blk.1 = pack blk.2.1 blk.2.2 ∧
      m (blk.1 + blk.2.1 - 8) = pack blk.2.1 blk.2.2 ∧ blk.2.1 % 16 = 0 ∧ 32 ≤ blk.2.1 ∧
      a ≤ blk.1 ∧ blk.1 + blk.2.1 ≤ a + total bs := by
  induction bs generalizing a with
  | nil => simp [layout]
  | cons b l ih =>
    obtain ⟨b16, b32, bh, bf, bl⟩ := hb
    intro blk hblk
    simp only [layout, List.mem_cons] at hblk
    rcases hblk with rfl | k
    · exact ⟨bh, bf, b16, b32, Nat.le_refl _, by simp only [total_cons]; omega⟩
    · obtain ⟨c1, c2, c3, c4, c5, c6⟩ := ih _ bl blk k
      exact ⟨c1, c2, c3, c4, by omega, by simp only [total_cons]; omega⟩

theorem layout_head (a : Nat) (bs : List Blk) : ∀ x ∈ (layout a bs).head?, x.1 = a := by
  cases bs with
  | nil => simp [layout]
  | cons b l => simp [layout]

theorem layout_steps (a : Nat) (bs : List Blk) :
    List.Chain' (fun x y : Nat × Nat × Bool => y.1 = x.1 + x.2.1) (layout a bs) := by
  induction bs generalizing a with
  | nil => simp [layout]
  | cons b l ih =>
    simp only [layout]
    rw [List.chain'_cons']
    refine ⟨fun y hy => ?_, ih _⟩
    exact layout_head _ _ y hy

/-- C18. Tag consistency: in every reachable state, every block that the walk
of the arena meets between `heap_start` and the epilogue header, allocated or
free, has a footer word (its last word) equal to its header word; the walk
covers the arena up to the epilogue header. -/
theorem tags_consistent (h : Heap) (live : List Nat) (hr : Reachable h live) :
    (∀ blk ∈ examine_heap h, h.mem (blk.1 + blk.2.1 - 8) = h.mem blk.1) ∧
    h.heap_start + ((examine_heap h).map (fun b => b.2.1)).sum = h.mem_brk - 8 := by
  obtain ⟨bs, fl, hi, _, _, _⟩ := reachable_inv h live hr
  rw [examine_heap_spec h bs hi.tiled, layout_sizes]
  have hk := hi.tiled.brk
  refine ⟨fun blk hblk => ?_, by omega⟩
  obtain ⟨c1, c2, _⟩ := layout_blocks _ _ _ hi.tiled.blocks blk hblk
  rw [c1, c2]

/-- C19. Block sizes: in every reachable state, every block that the walk of
the arena meets between `heap_start` and the epilogue header has, in its
header, a size that is a multiple of 16 and at least 32, the minimum block
size; the walk covers the arena up to the epilogue header. -/
theorem block_sizes (h : Heap) (live : List Nat) (hr : Reachable h live) :
    (∀ blk ∈ examine_heap h, get_size h blk.1 = blk.2.1 ∧ blk.2.1 % 16 = 0 ∧
      min_block_size ≤ blk.2.1) ∧
    h.heap_start + ((examine_heap h).map (fun b => b.2.1)).sum = h.mem_brk - 8 := by
  obtain ⟨bs, fl, hi, _, _, _⟩ := reachable_inv h live hr
  rw [examine_heap_spec h bs hi.tiled, layout_sizes]
  have hk := hi.tiled.brk
  have hW := hi.tiled.bound
  refine ⟨fun blk hblk => ?_, by omega⟩
  obtain ⟨c1, _, c3, c4, _, c6⟩ := layout_blocks _ _ _ hi.tiled.blocks blk hblk
  exact ⟨get_size_of_tag h _ _ _ c1 c3 (by omega), c3, c4⟩

/-- C20. Sentinels and tiling: in every reachable state the word just below
`heap_start` is the prologue footer, of size 0 and allocated; the walk from
`heap_start` that adds to each block address the size in its header visits
finitely many blocks of positive size, none of which reaches past the last
word of the arena, and ends at that last word, the epilogue header, of size 0
and allocated; the sizes sum to the arena size minus 16. -/
theorem sentinels_tiling (h : Heap) (live : List Nat) (hr : Reachable h live) :
    get_size h (h.heap_start - 8) = 0 ∧ get_alloc h (h.heap_start - 8) = true ∧
    h.heap_start - 8 = h.mem_start_brk ∧
    (∀ x ∈ (examine_heap h).head?, x.1 = h.heap_start) ∧
    List.Chain' (fun x y : Nat × Nat × Bool => y.1 = x.1 + x.2.1) (examine_heap h) ∧
    (∀ blk ∈ examine_heap h, get_size h blk.1 = blk.2.1 ∧ 0 < blk.2.1 ∧
      blk.1 + blk.2.1 ≤ h.mem_brk - 8) ∧
    h.heap_start + ((examine_heap h).map (fun b => b.2.1)).sum = h.mem_brk - 8 ∧
    get_size h (h.mem_brk - 8) = 0 ∧ get_alloc h (h.mem_brk - 8) = true ∧
    ((examine_heap h).map (fun b => b.2.1)).sum = h.mem_brk - h.mem_start_brk - 16 := by
  obtain ⟨bs, fl, hi, _, _, _⟩ := reachable_inv h live hr
  rw [examine_heap_spec h bs hi.tiled, layout_sizes]
  have hk := hi.tiled.brk
  have hW := hi.tiled.bound
  have hst := hi.tiled.start
  have hpro := hi.tiled.prologue
  have hep := hi.tiled.epilogue
  have e1 : h.heap_start - 8 = h.mem_start_brk := by omega
  have e2 : h.mem_brk - 8 = h.heap_start + total bs := by omega
  rw [e1, e2]
  refine ⟨get_size_of_tag h _ 0 true hpro rfl (by rw [W_eq]; norm_num),
    get_alloc_of_tag h _ 0 true hpro rfl, rfl, layout_head _ _, layout_steps _ _,
    fun blk hblk => ?_, rfl, get_size_of_tag h _ 0 true hep rfl (by rw [W_eq]; norm_num),
    get_alloc_of_tag h _ 0 true hep rfl, by omega⟩
  obtain ⟨c1, _, c3, c4, _, c6⟩ := layout_blocks _ _ _ hi.tiled.blocks blk hblk
  exact ⟨get_size_of_tag h _ _ _ c1 c3 (by omega), by omega, c6⟩

/-! ## Blocks of the walk and their regions -/

theorem layout_alloc (a : Nat) (bs : List Blk) (x : Nat) :
    (∃ sz, (x, sz, true) ∈ layout a bs) ↔ x ∈ allocAddrs a bs := by
  induction bs generalizing a with
  | nil => simp [layout, allocAddrs]
  | cons b l ih =>
    obtain ⟨s, f⟩ := b
    cases f
    · simp only [layout, List.mem_cons, Prod.mk.injEq, allocAddrs, Bool.false_eq_true,
        if_false, ← ih]
      constructor
      · rintro ⟨sz, (⟨_, _, k⟩ | k)⟩
        · simp at k
        · exact ⟨sz, k⟩
      · rintro ⟨sz, k⟩
        exact ⟨sz, Or.inr k⟩
    · simp only [layout, List.mem_cons, Prod.mk.injEq, allocAddrs, if_true, ← ih]
      constructor
      · rintro ⟨sz, (⟨k, _, _⟩ | k)⟩
        · exact Or.inl k
        · exact Or.inr ⟨sz, k⟩
      · rintro (k | ⟨sz, k⟩)
        · exact ⟨s, Or.inl ⟨k, rfl, trivial⟩⟩
        · exact ⟨sz, Or.inr k⟩

/-- Two blocks of a run are the same block or do not overlap. -/
theorem layout_disjoint (m : Nat → Nat) (a : Nat) (bs : List Blk) (hb : Blocks m a bs) :
    ∀ b1 ∈ layout a bs, ∀ b2 ∈ layout a bs,
      b1 = b2 ∨ b1.1 + b1.2.1 ≤ b2.1 ∨ b2.1 + b2.2.1 ≤ b1.1 := by
  induction bs generalizing a with
  | nil => simp [layout]
  | cons b l ih =>
    obtain ⟨_, _, _, _, bl⟩ := hb
    intro b1 h1 b2 h2
    simp only [layout, List.mem_cons] at h1 h2
    rcases h1 with rfl | h1
    · rcases h2 with rfl | h2
      · exact Or.inl rfl
      · have := (layout_blocks m _ l bl b2 h2).2.2.2.2.1
        exact Or.inr (Or.inl this)
    · rcases h2 with rfl | h2
      · have := (layout_blocks m _ l bl b1 h1).2.2.2.2.1
        exact Or.inr (Or.inr this)
      · exact ih _ bl b1 h1 b2 h2

/-- A word of an allocated block is not a link field of a free-list node. -/
theorem alloc_word_links (h : Heap) (bs : List Blk) (fl : List Nat) (hi : Inv h bs fl)
    (blk : Nat × Nat × Bool) (hb : blk ∈ layout h.heap_start bs) (ha : blk.2.2 = true)
    (w : Nat) (h1 : blk.1 ≤ w) (h2 : w < blk.1 + blk.2.1) :
    ∀ z ∈ fl, w ≠ z + 8 ∧ w ≠ z + 16 := by
  intro z hz
  obtain ⟨sz, hsz⟩ := (layout_free _ _ z).2 ((hi.listed z).1 hz)
  obtain ⟨_, _, _, z32, _, _⟩ := layout_blocks _ _ _ hi.tiled.blocks _ hsz
  simp only at z32
  rcases layout_disjoint _ _ _ hi.tiled.blocks blk hb _ hsz with k | k | k
  · rw [k] at ha; simp at ha
  · simp only at k; omega
  · simp only at k; omega

/-- An allocated block of the run `pre` ends before the last block of `pre`
when that block is free. -/
theorem layout_alloc_before (m : Nat → Nat) (a : Nat) (pre : List Blk) (hb : Blocks m a pre)
    (blk : Nat × Nat × Bool) (hblk : blk ∈ layout a pre) (ha : blk.2.2 = true) :
    blk.1 + blk.2.1 + (if (pre.getLastD (0, true)).2 = true then 0
      else (pre.getLastD (0, true)).1) ≤ a + total pre := by
  rcases blk_last_cases pre with hl | ⟨pre2, sp, rfl⟩
  · rw [if_pos hl]
    exact (layout_blocks m a pre hb blk hblk).2.2.2.2.2
  · have hlast : (pre2 ++ [(sp, false)]).getLastD (0, true) = (sp, false) := by simp
    rw [hlast]
    simp only [Bool.false_eq_true, if_false, total_append, total_cons, total_nil, Nat.add_zero]
    rw [layout_append, List.mem_append] at hblk
    rcases hblk with k | k
    · have := (layout_blocks m a pre2 ((Blocks_append _ _ _ _).1 hb).1 blk k).2.2.2.2.2
      omega
    · simp only [layout, List.mem_singleton] at k
      rw [k] at ha; simp at ha

/-- An allocated block of the run `post` starts after the first block of
`post` when that block is free. -/
theorem layout_alloc_after (c : Nat) (post : List Blk)
    (blk : Nat × Nat × Bool) (hblk : blk ∈ layout c post) (ha : blk.2.2 = true) :
    c + (if (post.headD (0, true)).2 = true then 0 else (post.headD (0, true)).1) ≤ blk.1 := by
  cases post with
  | nil => simp [layout] at hblk
  | cons b l =>
    obtain ⟨s, f⟩ := b
    simp only [layout, List.mem_cons] at hblk
    simp only [List.headD_cons]
    rcases hblk with rfl | k
    · simp only at ha
      rw [if_pos ha]; simp
    · have : ∀ (l : List Blk) (c : Nat) (blk : Nat × Nat × Bool), blk ∈ layout c l →
          c ≤ blk.1 := by
        intro l
        induction l with
        | nil => intro c blk hb; simp [layout] at hb
        | cons b l ih =>
          intro c blk hb
          simp only [layout, List.mem_cons] at hb
          rcases hb with rfl | hb
          · exact Nat.le_refl _
          · have := ih _ _ hb; omega
      have := this l _ blk k
      split_ifs <;> omega

/-! ## What `mm_free` leaves alone -/

/-- The stores of `coalesce_block` at a free, listed block `b` go to the
region of the merged block and to link fields of free-list nodes. -/
theorem coalesce_frame (h : Heap) (pre post : List Blk) (sz : Nat) (fl : List Nat) (b : Nat)
    (hb : b = h.heap_start + total pre) (hi : Inv h (pre ++ (sz, false) :: post) fl)
    (w : Nat)
    (hw : w + (if (pre.getLastD (0, true)).2 = true then 0 else (pre.getLastD (0, true)).1) < b ∨
      b + sz + (if (post.headD (0, true)).2 = true then 0 else (post.headD (0, true)).1) ≤ w)
    (hl : ∀ y ∈ fl, w ≠ y + 8 ∧ w ≠ y + 16) :
    (coalesce_block h b).1.mem w = h.mem w := by
  obtain ⟨_, _, _, z32, _, _, _⟩ := hi.tiled.block_at h pre post (sz, false)
  simp only at z32
  rcases blk_last_cases pre with hp | ⟨pre2, sp, rfl⟩
  · rw [if_pos hp] at hw
    rcases blk_head_cases post with hn | ⟨sn, post2, rfl⟩
    · rw [coalesce_nn h pre post (sz, false) b hb hi.tiled hn hp]
    · simp only [List.headD_cons, Bool.false_eq_true, if_false] at hw
      obtain ⟨_, _, c3⟩ := coalesce_next h pre post2 sz sn fl b hb hi hp
      exact c3 w (by omega) (by omega) hl
  · have hlast : (pre2 ++ [(sp, false)]).getLastD (0, true) = (sp, false) := by simp
    rw [hlast] at hw
    simp only [Bool.false_eq_true, if_false] at hw
    have hb2 : b = h.heap_start + total pre2 + sp := by
      rw [hb, total_append]; simp [total]; omega
    rcases blk_head_cases post with hn | ⟨sn, post2, rfl⟩
    · rw [if_pos hn] at hw
      obtain ⟨_, _, c3⟩ := coalesce_prev h pre2 post sp sz fl b hb2 (by simpa using hi) hn
      exact c3 w (by omega) (by omega) hl
    · simp only [List.headD_cons, Bool.false_eq_true, if_false] at hw
      obtain ⟨_, _, _, c4⟩ := coalesce_both h pre2 post2 sp sz sn fl b hb2 (by simpa using hi)
      exact c4 w (by omega) (by omega) (by omega) hl

/-- The stores of `mm_free` on the payload pointer of the allocated block `x`
go to the region of `x` and of its free neighbours and to link fields of
free-list nodes. -/
theorem mm_free_frame (h : Heap) (pre post : List Blk) (sz : Nat) (fl : List Nat) (x : Nat)
    (hx : x = h.heap_start + total pre) (hi : Inv h (pre ++ (sz, true) :: post) fl)
    (w : Nat)
    (hw : w + (if (pre.getLastD (0, true)).2 = true then 0 else (pre.getLastD (0, true)).1) < x ∨
      x + sz + (if (post.headD (0, true)).2 = true then 0 else (post.headD (0, true)).1) ≤ w)
    (hl : ∀ y ∈ fl, w ≠ y + 8 ∧ w ≠ y + 16) :
    (mm_free h (x + 8)).mem w = h.mem w := by
  obtain ⟨_, _, _, z32, _, _, _⟩ := hi.tiled.block_at h pre post (sz, true)
  simp only at z32
  obtain ⟨h1, f1⟩ := free_insert_spec h pre post sz fl x hx hi
  rw [mm_free_eq h pre post sz x hx hi.tiled]
  have hout : w < x ∨ x + sz ≤ w := by
    rcases hw with k | k
    · left; omega
    · right; omega
  rw [coalesce_frame _ pre post sz (x :: fl) x (by simp [hx]) h1 w hw ?_]
  · exact f1 w (by omega) (by omega) (by omega) (by omega) (fun y hy => (hl y hy).1)
  · intro y hy
    rcases List.mem_cons.1 hy with k | k
    · subst k; constructor <;> omega
    · exact hl y k

/-! ## What `mm_malloc` leaves alone -/

/-- An allocated block of one heap is a block of another heap that has the
same header word at that address and an allocated block there. -/
theorem layout_transfer (h H : Heap) (bs bs2 : List Blk) (ht : Tiled h bs)
    (ht2 : Tiled H bs2) (hs : H.heap_start = h.heap_start)
    (blk : Nat × Nat × Bool) (hb : blk ∈ layout h.heap_start bs) (ha : blk.2.2 = true)
    (hmem : blk.1 ∈ allocAddrs h.heap_start bs2) (hhdr : H.mem blk.1 = h.mem blk.1) :
    blk ∈ layout h.heap_start bs2 := by
  obtain ⟨s2, hs2⟩ := (layout_alloc _ _ _).2 hmem
  have hb2 := ht2.blocks
  rw [hs] at hb2
  obtain ⟨c1, _, c3, _, _, c6⟩ := layout_blocks _ _ _ hb2 _ hs2
  obtain ⟨d1, _, d3, _, _, d6⟩ := layout_blocks _ _ _ ht.blocks _ hb
  simp only at c1 c3 c6
  have k1 := ht.brk
  have k2 := ht.bound
  have k3 := ht2.brk
  have k4 := ht2.bound
  rw [hs] at k3
  rw [hhdr, d1, ha] at c1
  have e := congrArg extract_size c1
  rw [extract_size_pack _ _ d3 (by omega), extract_size_pack _ _ c3 (by omega)] at e
  obtain ⟨a, s, f⟩ := blk
  simp only at ha e
  subst ha e
  exact hs2

/-- Growth for `mm_malloc` leaves the words of the allocated blocks alone. -/
theorem choose_frame (h : Heap) (bs : List Blk) (fl : List Nat) (hi : Inv h bs fl)
    (asize fit : Nat) (g : Bool) (ha16 : asize % 16 = 0) (ha32 : 32 ≤ asize)
    (haW : asize * 2 + 15 < W)
    (blk : Nat × Nat × Bool) (hb : blk ∈ layout h.heap_start bs) (ha : blk.2.2 = true)
    (w : Nat) (h1 : blk.1 ≤ w) (h2 : w < blk.1 + blk.2.1) :
    (choose h asize fit g).1.mem w = h.mem w := by
  have hmod : (asize * 2) % W = asize * 2 := Nat.mod_eq_of_lt (by omega)
  have hru : round_up (asize * 2) dsize = asize * 2 := round_up_eq _ (by omega) haW
  have hlk := alloc_word_links h bs fl hi blk hb ha w h1 h2
  unfold choose
  split_ifs with hfit
  · rw [hmod]
    by_cases hsb : g = true ∧ h.mem_brk + asize * 2 < W - 1
    · obtain ⟨hg, hW⟩ := hsb
      subst hg
      rcases blk_last_cases bs with hl | ⟨bs2, sp, rfl⟩
      · obtain ⟨_, _, e3⟩ := extend_heap_last_alloc h bs fl (asize * 2) (asize * 2) _ hi rfl
          hru (by omega) hW hl
        have := (layout_blocks _ _ _ hi.tiled.blocks blk hb).2.2.2.2.2
        exact e3 w (by omega) (fun y hy => (hlk y hy).1)
      · obtain ⟨_, _, e3⟩ := extend_heap_last_free h bs2 fl (asize * 2) (asize * 2) sp _ hi
          rfl hru (by omega) (by simpa using hW)
        have := layout_alloc_before _ _ _ hi.tiled.blocks blk hb ha
        have hlast : (bs2 ++ [(sp, false)]).getLastD (0, true) = (sp, false) := by simp
        rw [hlast] at this
        simp only [Bool.false_eq_true, if_false, total_append, total_cons, total_nil,
          Nat.add_zero] at this
        exact e3 w (by omega) hlk
    · rw [extend_heap_fail h _ g (by rw [hru]; exact hsb)]
  · rfl

/-- Placement leaves the words of the allocated blocks alone. -/
theorem place_frame (h : Heap) (pre post : List Blk) (S : Nat) (fl : List Nat)
    (x asize : Nat) (hx : x = h.heap_start + total pre)
    (hi : Inv h (pre ++ (S, false) :: post) fl)
    (hn : (post.headD (0, true)).2 = true)
    (ha16 : asize % 16 = 0) (ha32 : 32 ≤ asize) (hS : asize ≤ S)
    (blk : Nat × Nat × Bool) (hb : blk ∈ layout h.heap_start (pre ++ (S, false) :: post))
    (ha : blk.2.2 = true) (w : Nat) (h1 : blk.1 ≤ w) (h2 : w < blk.1 + blk.2.1) :
    (place h x asize).mem w = h.mem w := by
  have hlk := alloc_word_links h _ fl hi blk hb ha w h1 h2
  have hxm : (x, S, false) ∈ layout h.heap_start (pre ++ (S, false) :: post) := by
    rw [layout_append, hx]
    simp [layout]
  have hd : blk.1 + blk.2.1 ≤ x ∨ x + S ≤ blk.1 := by
    rcases layout_disjoint _ _ _ hi.tiled.blocks blk hb _ hxm with k | k | k
    · rw [k] at ha; simp at ha
    · exact Or.inl k
    · exact Or.inr k
  obtain ⟨_, _, _, z32, _, _, _⟩ := hi.tiled.block_at h pre post (S, false)
  simp only at z32
  by_cases hsplit : asize + 32 ≤ S
  · obtain ⟨_, f⟩ := place_split h pre post S fl x asize hx hi hn ha16 ha32 hsplit
    exact f w (by omega) hlk
  · obtain ⟨_, f⟩ := place_whole h pre post S fl x asize hx hi hS (by omega)
    exact f w (by omega) (by omega) hlk

/-- On a well-formed heap `mm_malloc` leaves every word of every allocated
block alone. -/
theorem mm_malloc_frame (h : Heap) (bs : List Blk) (fl : List Nat) (hi : Inv h bs fl)
    (hna : NoAdj bs) (s : Nat) (g : Bool) (hs : s ≤ 2 ^ 62) (h2 : Heap) (p : Nat)
    (hm : mm_malloc h s g = some (h2, p))
    (blk : Nat × Nat × Bool) (hb : blk ∈ layout h.heap_start bs) (ha : blk.2.2 = true)
    (w : Nat) (h1 : blk.1 ≤ w) (h2w : w < blk.1 + blk.2.1) :
    h2.mem w = h.mem w := by
  by_cases hs0 : s = 0
  · unfold mm_malloc at hm
    rw [if_pos hs0] at hm
    simp only [Option.some.injEq, Prod.mk.injEq] at hm
    rw [← hm.1]
  obtain ⟨a16, a32, _, _⟩ := adjusted_size_facts s hs0 hs
  have haW : adjusted_size s * 2 + 15 < W := by
    rw [W_eq]; norm_num at hs; omega
  have hff := find_fit_spec h bs fl hi (adjusted_size s)
  rw [mm_malloc_eq h s g hs0 _ hff] at hm
  have fc := choose_frame h bs fl hi (adjusted_size s) (first_fit h (adjusted_size s) fl) g
    a16 a32 haW blk hb ha
  rcases choose_spec h bs fl hi hna (adjusted_size s) g a16 a32 haW with
    ⟨c0, _, _⟩ | ⟨c1, _, _, pre, S, post, fl0, i0, n0, cx, cs, cS, cA⟩
  · rw [c0] at hm
    simp only [if_true, Option.some.injEq, Prod.mk.injEq] at hm
    rw [← hm.1]
  rw [if_neg c1] at hm
  simp only [Option.some.injEq, Prod.mk.injEq] at hm
  obtain ⟨e1, _⟩ := hm
  obtain ⟨⟨h0, x⟩, hc⟩ :
      ∃ c, choose h (adjusted_size s) (first_fit h (adjusted_size s) fl) g = c := ⟨_, rfl⟩
  rw [hc] at c1 i0 cx cs e1 fc
  simp only at c1 cx cs i0 e1 fc
  have hna0 := (NoAdj_mid pre post (S, false)).1 n0
  have hn : (post.headD (0, true)).2 = true := by
    rcases hna0.2.2.2 with k | k
    · simp at k
    · exact k
  obtain ⟨_, _, _, b32, _, _⟩ := layout_blocks _ _ _ hi.tiled.blocks blk hb
  have hb0 : blk ∈ layout h.heap_start (pre ++ (S, false) :: post) :=
    layout_transfer h h0 bs _ hi.tiled i0.tiled cs blk hb ha
      ((cA blk.1).2 ((layout_alloc _ _ _).1 ⟨blk.2.1, by rw [← ha]; exact hb⟩))
      (fc blk.1 (Nat.le_refl _) (by omega))
  rw [← e1, place_frame h0 pre post S fl0 x (adjusted_size s) (by rw [cs]; exact cx) i0 hn
    a16 a32 cS blk (by rw [cs]; exact hb0) ha w h1 h2w]
  exact fc w h1 h2w

/-! ## Other allocations are untouched -/

/-- C21. Other allocations are untouched. On a well-formed heap, `mm_malloc`
of at most `2 ^ 62` bytes returns, and `mm_free` on a currently allocated
pointer returns, a state in which every block that was allocated before the
call (other than the block being freed) is a block of the arena walk at the
same address with the same size and flag, and every word from its header to
its footer, so its header word, its payload and its footer word, is
unchanged. The block behind a non-null result `x + 8` of `mm_malloc` was not
an allocated block before, and its region does not overlap the region of any
other block of the walk. -/
theorem others_untouched (h : Heap) (hwf : WF h) :
    (∀ (s : Nat) (g : Bool), s ≤ 2 ^ 62 →
      ∃ h2 p, mm_malloc h s g = some (h2, p) ∧
        (∀ blk ∈ examine_heap h, blk.2.2 = true →
          blk ∈ examine_heap h2 ∧
          ∀ w, blk.1 ≤ w → w < blk.1 + blk.2.1 → h2.mem w = h.mem w) ∧
        (p ≠ 0 → ∃ x S, p = x + 8 ∧ (x, S, true) ∈ examine_heap h2 ∧
          (∀ blk ∈ examine_heap h, blk.2.2 = true → blk.1 ≠ x) ∧
          ∀ blk ∈ examine_heap h2, blk.1 ≠ x →
            x + S ≤ blk.1 ∨ blk.1 + blk.2.1 ≤ x)) ∧
    (∀ p, Allocated h p →
      ∀ blk ∈ examine_heap h, blk.2.2 = true → blk.1 + 8 ≠ p →
        blk ∈ examine_heap (mm_free h p) ∧
        ∀ w, blk.1 ≤ w → w < blk.1 + blk.2.1 → (mm_free h p).mem w = h.mem w) := by
  constructor
  · obtain ⟨bs, fl, hi, hna⟩ := hwf
    intro s g hs
    rw [examine_heap_spec h bs hi.tiled]
    rcases mm_malloc_wf h bs fl hi hna s g hs with hm |
      ⟨h2, x, bs2, fl2, hm, i2, _, hst, hxn, hA⟩
    · exact ⟨h, 0, hm, fun blk hb _ => ⟨by rw [examine_heap_spec h bs hi.tiled]; exact hb,
        fun _ _ _ => rfl⟩, fun k => absurd rfl k⟩
    · refine ⟨h2, x + 8, hm, ?_, fun _ => ?_⟩
      · intro blk hb ha
        have hfr := mm_malloc_frame h bs fl hi hna s g hs h2 (x + 8) hm blk hb ha
        obtain ⟨_, _, _, b32, _, _⟩ := layout_blocks _ _ _ hi.tiled.blocks blk hb
        refine ⟨?_, hfr⟩
        rw [examine_heap_spec h2 bs2 i2.tiled, hst]
        exact layout_transfer h h2 bs bs2 hi.tiled i2.tiled hst blk hb ha
          ((hA blk.1).2 (Or.inr ((layout_alloc _ _ _).1 ⟨blk.2.1, by rw [← ha]; exact hb⟩)))
          (hfr blk.1 (Nat.le_refl _) (by omega))
      · obtain ⟨S, hS⟩ := (layout_alloc _ _ _).2 ((hA x).2 (Or.inl rfl))
        rw [examine_heap_spec h2 bs2 i2.tiled, hst]
        refine ⟨x, S, rfl, hS, ?_, ?_⟩
        · intro blk hb ha k
          exact hxn (by
            rw [← k]
            exact (layout_alloc _ _ _).1 ⟨blk.2.1, by rw [← ha]; exact hb⟩)
        · intro blk hb hne
          have hb2 := i2.tiled.blocks
          rw [hst] at hb2
          rcases layout_disjoint _ _ _ hb2 _ hS blk hb with k | k | k
          · exact absurd (by rw [← k]) hne
          · exact Or.inl k
          · exact Or.inr k
  · rintro p ⟨bs, fl, hi, hna, x, hx, rfl⟩ blk hb ha hne
    rw [examine_heap_spec h bs hi.tiled] at hb
    obtain ⟨bs2, fl2, i2, _, hA, _⟩ := mm_free_wf h bs fl hi hna x hx
    have hfr : ∀ w, blk.1 ≤ w → w < blk.1 + blk.2.1 → (mm_free h (x + 8)).mem w = h.mem w := by
      intro w h1 h2
      have hlk := alloc_word_links h bs fl hi blk hb ha w h1 h2
      obtain ⟨pre, sz, post, rfl, hxe⟩ := allocAddrs_split _ _ _ hx
      refine mm_free_frame h pre post sz fl x hxe hi w ?_ hlk
      have hbl := (Blocks_append _ _ _ _).1 hi.tiled.blocks
      rw [layout_append, List.mem_append] at hb
      rcases hb with k | k
      · left
        have := layout_alloc_before _ _ _ hbl.1 blk k ha
        omega
      · simp only [layout, List.mem_cons] at k
        rcases k with k | k
        · rw [k] at hne
          exact absurd (by rw [hxe]) hne
        · right
          have := layout_alloc_after _ post blk k ha
          simp only at this
          omega
    obtain ⟨_, _, _, b32, _, _⟩ := layout_blocks _ _ _ hi.tiled.blocks blk hb
    refine ⟨?_, hfr⟩
    rw [examine_heap_spec _ bs2 i2.tiled, mm_free_heap_start]
    exact layout_transfer h _ bs bs2 hi.tiled i2.tiled (mm_free_heap_start h _) blk hb ha
      ((hA blk.1).2 ⟨(layout_alloc _ _ _).1 ⟨blk.2.1, by rw [← ha]; exact hb⟩,
        fun k => hne (by rw [k])⟩)
      (hfr blk.1 (Nat.le_refl _) (by omega))

/-! ## Further concrete states -/

theorem inv4a : Inv heap4a
    ([(80, false), (128, true)] ++ (32, true) :: [(48, true), (3808, false)])
    [65544, 65832] :=
  (mm_free_nn heap4 [] [(128, true), (32, true), (48, true), (3808, false)] 80 [65832] 65544
    (by decide) inv4 rfl rfl).1

theorem inv4b : Inv heap4b
    ([(80, false)] ++ (128, true) :: [(32, false), (48, true), (3808, false)])
    [65752, 65544, 65832] :=
  (mm_free_nn heap4a [(80, false), (128, true)] [(48, true), (3808, false)] 32 [65544, 65832]
    65752 (by decide) inv4a rfl rfl).1

theorem inv9 : Inv heap9
    ([(80, false)] ++ (128, false) :: [(32, false), (48, true), (3808, false)])
    [65624, 65752, 65544, 65832] :=
  (free_insert_spec heap4b [(80, false)] [(32, false), (48, true), (3808, false)] 128
    [65752, 65544, 65832] 65624 (by decide) inv4b).1

theorem seg5 : Seg heap5.mem 0 heap5.free_list_head [65624, 65832] 65832 0 := by
  simp only [Seg_cons, Seg_nil]
  decide

theorem sep5 : ([65624, 65832] : List Nat).Pairwise Sep := by
  simp [Sep]

theorem bound5 : ∀ y ∈ ([65624, 65832] : List Nat), y + 16 < W := by
  decide

/-! ## Instances of the claims -/

/-- C1, instance: the state reached by four allocations and the release of
the second one. -/
theorem no_adjacent_free_witness :
    Reachable heap5 [65792, 65760, 65552] ∧
      (List.Chain' (fun x y : Nat × Nat × Bool => x.2.2 = true ∨ y.2.2 = true)
          (examine_heap heap5) ∧
        heap5.heap_start + ((examine_heap heap5).map (fun b => b.2.1)).sum + 8 =
          heap5.mem_brk ∧
        get_size heap5 (heap5.mem_brk - 8) = 0 ∧ get_alloc heap5 (heap5.mem_brk - 8) = true) :=
  ⟨reach5, no_adjacent_free heap5 [65792, 65760, 65552] reach5⟩

/-- C2, instance: the state reached by four allocations and the release of
the second one. -/
theorem free_list_agrees_witness :
    Reachable heap5 [65792, 65760, 65552] ∧
      ∃ fl, free_list heap5 = some fl ∧ fl.Nodup ∧
        (∀ x ∈ fl.head?, get_prev heap5 x = 0) ∧
        List.Chain' (fun x y => get_next heap5 x = y ∧ get_prev heap5 y = x) fl ∧
        ∀ a, a ∈ fl ↔ ∃ sz, (a, sz, false) ∈ examine_heap heap5 :=
  ⟨reach5, free_list_agrees heap5 [65792, 65760, 65552] reach5⟩

/-- C4, instance: a request of 24 bytes in a reachable state whose arena
starts at 65536. -/
theorem malloc_aligned_witness :
    (Reachable heap5 [65792, 65760, 65552] ∧ heap5.mem_start_brk % 16 = 0) ∧
      ((∀ h2 p, mm_malloc heap5 24 true = some (h2, p) → p ≠ 0 →
          p % 16 = 0 ∧ get_size h2 (payload_to_header p) % 16 = 0) ∧
        (24 ≤ 2 ^ 62 → ∃ h2 p, mm_malloc heap5 24 true = some (h2, p))) :=
  ⟨⟨reach5, by decide⟩, malloc_aligned heap5 [65792, 65760, 65552] reach5 (by decide) 24 true⟩

/-- C5, instance: a request of 5000 bytes that the growth provider refuses. -/
theorem malloc_null_iff_witness :
    (WF heap5 ∧ 5000 ≤ 2 ^ 62) ∧
      ∃ fl h2 p, free_list heap5 = some fl ∧ mm_malloc heap5 5000 false = some (h2, p) ∧
        (p = 0 ↔ 5000 = 0 ∨ ((∀ y ∈ fl, get_size heap5 y < adjusted_size 5000) ∧
          (mem_sbrk heap5 (adjusted_size 5000 * 2) false).2 = W - 1)) ∧
        adjusted_size 5000 = (if 5000 ≤ 16 then 32 else 16 * ((5000 + 16 + 15) / 16)) :=
  ⟨⟨reachable_wf heap5 _ reach5, by norm_num⟩,
    malloc_null_iff heap5 (reachable_wf heap5 _ reach5) 5000 (by norm_num) false⟩

/-- C6, instance: a request of 5000 bytes, larger than both free blocks, that
the growth provider refuses. -/
theorem exhaustion_atomic_witness :
    (WF heap5 ∧ free_list heap5 = some [65624, 65832] ∧
      (∀ y ∈ [65624, 65832], get_size heap5 y < adjusted_size 5000) ∧
      (mem_sbrk heap5 (round_up ((adjusted_size 5000 * 2) % W) dsize) false).2 = W - 1) ∧
      mm_malloc heap5 5000 false = some (heap5, 0) :=
  ⟨⟨reachable_wf heap5 _ reach5, by decide, by decide, by decide⟩,
    exhaustion_atomic heap5 (reachable_wf heap5 _ reach5) 5000 false [65624, 65832]
      (by decide) (by decide) (by decide)⟩

/-- C7, instance: the second of four allocated blocks is freed twice. -/
theorem double_free_idempotent_witness :
    Allocated heap4 65632 ∧
      (get_alloc (mm_free heap4 65632) (payload_to_header 65632) = false ∧
        mm_free (mm_free heap4 65632) 65632 = mm_free heap4 65632) :=
  ⟨reachable_allocated heap4 _ reach4 65632 (by decide),
    double_free_idempotent heap4 65632
      (reachable_allocated heap4 _ reach4 65632 (by decide))⟩

/-- C8, instance: 64 bytes are granted in the free block between two
allocated blocks, released, and granted again at the same address. -/
theorem round_trip_reuse_witness :
    (WF heap5 ∧ 0 < 64 ∧ 64 ≤ 2 ^ 62 ∧ mm_malloc heap5 64 true = some (heap6, 65632) ∧
      65632 ≠ 0) ∧
      ∃ h3, mm_malloc (mm_free heap6 65632) 64 false = some (h3, 65632) :=
  ⟨⟨reachable_wf heap5 _ reach5, by norm_num, by norm_num, run6, by norm_num⟩,
    round_trip_reuse heap5 (reachable_wf heap5 _ reach5) 64 (by norm_num) (by norm_num)
      true false heap6 65632 run6 (by norm_num)⟩

/-- C9, instance: the blocks `A`, `B`, `C` of 80, 128 and 32 bytes at the
start of `heap4`, between the prologue and the allocated block `D`. -/
theorem coalescing_collapse_witness :
    (65544 = heap4.heap_start + total [] ∧
      Inv heap4 ([] ++ (80, true) :: (128, true) :: (32, true) :: [(48, true), (3808, false)])
        [65832] ∧
      (([] : List Blk).getLastD (0, true)).2 = true ∧
      (([(48, true), (3808, false)] : List Blk).headD (0, true)).2 = true) ∧
      (Inv (mm_free (mm_free (mm_free heap4 (65544 + 80 + 8)) (65544 + 8))
          (65544 + 80 + 128 + 8))
        ([] ++ (80 + 128 + 32, false) :: [(48, true), (3808, false)]) [65544, 65832] ∧
      (mm_free (mm_free (mm_free heap4 (65544 + 80 + 8)) (65544 + 8))
        (65544 + 80 + 128 + 8)).mem 65544 = pack (80 + 128 + 32) false ∧
      (mm_free (mm_free (mm_free heap4 (65544 + 80 + 8)) (65544 + 8))
        (65544 + 80 + 128 + 8)).mem (65544 + (80 + 128 + 32) - 8) =
          pack (80 + 128 + 32) false ∧
      free_list (mm_free (mm_free (mm_free heap4 (65544 + 80 + 8)) (65544 + 8))
        (65544 + 80 + 128 + 8)) = some [65544, 65832] ∧
      [65544, 65832].count 65544 = 1 ∧ 65544 + 80 ∉ [65544, 65832] ∧
      65544 + 80 + 128 ∉ [65544, 65832]) :=
  ⟨⟨by decide, inv4, rfl, rfl⟩,
    coalescing_collapse heap4 [] [(48, true), (3808, false)] 80 128 32 [65832] 65544
      (by decide) inv4 rfl rfl⟩

/-! ## Further instances of the claims -/

/-- C11, instance: an empty arena at address 65536 with zeroed memory. -/
theorem mm_init_post_witness :
    65536 + 16 + 4096 < W - 1 ∧
    ∃ H, mm_init (fresh 65536 (fun _ => 0)) true true = (H, 0) ∧
      H.mem_start_brk = 65536 ∧ H.mem_brk = 65536 + 16 + 4096 ∧ H.heap_start = 65536 + 8 ∧
      H.mem 65536 = pack 0 true ∧
      H.mem H.heap_start = pack 4096 false ∧
      H.mem (H.heap_start + 4096 - 8) = pack 4096 false ∧
      H.mem (H.mem_brk - 8) = pack 0 true ∧
      examine_heap H = [(H.heap_start, 4096, false)] ∧
      H.free_list_head = H.heap_start ∧
      get_prev H H.free_list_head = 0 ∧ get_next H H.free_list_head = 0 ∧
      free_list H = some [H.heap_start] :=
  ⟨by decide, mm_init_post 65536 (fun _ => 0) (by decide)⟩

/-- C13, instance: 64 bytes are placed in the free block `B` of 128 bytes of
`heap5`, which is split. -/
theorem split_policy_witness :
    (WF heap5 ∧ 0 < 64 ∧ 64 ≤ 2 ^ 62 ∧ mm_malloc heap5 64 true = some (heap6, 65632) ∧
      65632 ≠ 0) ∧
    ∃ fit x S pre post fl0 fl2,
      find_fit heap5 (adjusted_size 64) = some fit ∧
      (fit ≠ 0 → choose heap5 (adjusted_size 64) fit true = (heap5, fit)) ∧
      x = (choose heap5 (adjusted_size 64) fit true).2 ∧ 65632 = x + 8 ∧
      examine_heap (choose heap5 (adjusted_size 64) fit true).1 = pre ++ (x, S, false) :: post ∧
      adjusted_size 64 ≤ S ∧
      free_list (choose heap5 (adjusted_size 64) fit true).1 = some fl0 ∧ x ∈ fl0 ∧
      free_list heap6 = some fl2 ∧ x ∉ fl2 ∧
      (32 ≤ S - adjusted_size 64 →
        examine_heap heap6 = pre ++ (x, adjusted_size 64, true) ::
          (x + adjusted_size 64, S - adjusted_size 64, false) :: post ∧
        x + adjusted_size 64 ∈ fl2 ∧
        heap6.mem x = pack (adjusted_size 64) true ∧
        heap6.mem (x + adjusted_size 64 - 8) = pack (adjusted_size 64) true) ∧
      (S - adjusted_size 64 < 32 →
        examine_heap heap6 = pre ++ (x, S, true) :: post ∧
        heap6.mem x = pack S true ∧ heap6.mem (x + S - 8) = pack S true) :=
  ⟨⟨reachable_wf heap5 _ reach5, by norm_num, by norm_num, run6, by norm_num⟩,
    split_policy heap5 (reachable_wf heap5 _ reach5) 64 (by norm_num) (by norm_num) true heap6
      65632 run6 (by norm_num)⟩

/-- C14, instance: the block `B` of 128 bytes at 65624 in `heap9`, between the
free blocks `A` and `C`. -/
theorem coalesce_block_post_witness :
    (65624 = heap9.heap_start + total [(80, false)] ∧
      Inv heap9 ([(80, false)] ++ (128, false) :: [(32, false), (48, true), (3808, false)])
        [65624, 65752, 65544, 65832] ∧
      NoAdj [(80, false)] ∧ NoAdj [(32, false), (48, true), (3808, false)]) ∧
    ∃ sp sn fl2,
      sp = (if extract_alloc (heap9.mem (find_prev_footer 65624)) = true then 0
        else extract_size (heap9.mem (find_prev_footer 65624))) ∧
      sn = (if get_alloc heap9 (find_next heap9 65624) = true then 0
        else get_size heap9 (find_next heap9 65624)) ∧
      (coalesce_block heap9 65624).2 = 65624 - sp ∧
      WF (coalesce_block heap9 65624).1 ∧
      (coalesce_block heap9 65624).1.mem (65624 - sp) = pack (sp + 128 + sn) false ∧
      (coalesce_block heap9 65624).1.mem (65624 - sp + (sp + 128 + sn) - 8) =
        pack (sp + 128 + sn) false ∧
      get_alloc (coalesce_block heap9 65624).1
        (find_next (coalesce_block heap9 65624).1 (65624 - sp)) = true ∧
      extract_alloc ((coalesce_block heap9 65624).1.mem (find_prev_footer (65624 - sp))) =
        true ∧
      free_list (coalesce_block heap9 65624).1 = some fl2 ∧ fl2.count (65624 - sp) = 1 ∧
      (sp ≠ 0 → 65624 ∉ fl2) ∧ (sn ≠ 0 → 65624 + 128 ∉ fl2) ∧
      (sp = 0 → sn = 0 → coalesce_block heap9 65624 = (heap9, 65624)) :=
  ⟨⟨by decide, inv9, by simp [NoAdj], by simp [NoAdj]⟩,
    coalesce_block_post heap9 [(80, false)] [(32, false), (48, true), (3808, false)] 128
      [65624, 65752, 65544, 65832] 65624 (by decide) inv9 (by simp [NoAdj])
      (by simp [NoAdj])⟩

/-- C15, instance: a request of 17 bytes on `heap5`, whose last block is
free. -/
theorem extend_heap_post_witness :
    (WF heap5 ∧ 16 < 17 ∧ 17 ≤ 2 ^ 63) ∧
    (((mem_sbrk heap5 (round_up 17 dsize) true).2 = W - 1 →
        extend_heap heap5 17 true = (heap5, 0)) ∧
      ((mem_sbrk heap5 (round_up 17 dsize) true).2 ≠ W - 1 →
        ∃ sp fl2,
          sp = (if extract_alloc (heap5.mem (heap5.mem_brk - 16)) = true then 0
            else extract_size (heap5.mem (heap5.mem_brk - 16))) ∧
          (extend_heap heap5 17 true).2 = heap5.mem_brk - 8 - sp ∧
          (extend_heap heap5 17 true).2 ≠ 0 ∧
          (extend_heap heap5 17 true).1.mem (extend_heap heap5 17 true).2 =
            pack (round_up 17 dsize + sp) false ∧
          (extend_heap heap5 17 true).1.mem
              ((extend_heap heap5 17 true).2 + (round_up 17 dsize + sp) - 8) =
            pack (round_up 17 dsize + sp) false ∧
          (extend_heap heap5 17 true).2 + (round_up 17 dsize + sp) =
            (extend_heap heap5 17 true).1.mem_brk - 8 ∧
          (extend_heap heap5 17 true).1.mem ((extend_heap heap5 17 true).1.mem_brk - 8) =
            pack 0 true ∧
          (extend_heap heap5 17 true).1.mem_brk = heap5.mem_brk + round_up 17 dsize ∧
          free_list (extend_heap heap5 17 true).1 = some fl2 ∧
          fl2.count (extend_heap heap5 17 true).2 = 1 ∧
          WF (extend_heap heap5 17 true).1)) :=
  ⟨⟨reachable_wf heap5 _ reach5, by norm_num, by norm_num⟩,
    extend_heap_post heap5 (reachable_wf heap5 _ reach5) 17 (by norm_num) (by norm_num) true⟩

/-- C16, instance: the search for 200 bytes in the free list of `heap5`, the
blocks of 128 and 3808 bytes. -/
theorem find_fit_first_witness :
    (Seg heap5.mem 0 heap5.free_list_head [65624, 65832] 65832 0 ∧
      (∀ y ∈ ([65624, 65832] : List Nat), y + 16 < W) ∧
      ([65624, 65832] : List Nat).length ≤ heap5.mem_brk - heap5.mem_start_brk) ∧
    ∃ r, find_fit heap5 200 = some r ∧
      (r = 0 ↔ ∀ y ∈ ([65624, 65832] : List Nat), get_size heap5 y < 200) ∧
      (r ≠ 0 → ∃ l1 l2, [65624, 65832] = l1 ++ r :: l2 ∧ 200 ≤ get_size heap5 r ∧
        ∀ y ∈ l1, get_size heap5 y < 200) :=
  ⟨⟨seg5, bound5, by decide⟩, find_fit_first heap5 [65624, 65832] 65832 200 seg5 bound5
    (by decide)⟩

/-- C17, instance: the head of the free list of `heap5` is removed. -/
theorem remove_block_splices_witness :
    (Seg heap5.mem 0 heap5.free_list_head [65624, 65832] 65832 0 ∧
      ([65624, 65832] : List Nat).Pairwise Sep ∧
      (∀ y ∈ ([65624, 65832] : List Nat), y + 16 < W) ∧ 65624 ∈ ([65624, 65832] : List Nat)) ∧
    ((∃ q2, Seg (remove_block heap5 65624).mem 0 (remove_block heap5 65624).free_list_head
        (([65624, 65832] : List Nat).erase 65624) q2 0) ∧
      (remove_block heap5 65624).free_list_head =
        (([65624, 65832] : List Nat).erase 65624).headD 0 ∧
      (∀ x ∈ (([65624, 65832] : List Nat).erase 65624).head?,
        get_prev (remove_block heap5 65624) x = 0) ∧
      List.Chain' (fun x y => get_next (remove_block heap5 65624) x = y ∧
        get_prev (remove_block heap5 65624) y = x) (([65624, 65832] : List Nat).erase 65624) ∧
      (([65624, 65832] : List Nat).head? = some 65624 →
        (remove_block heap5 65624).free_list_head = get_next heap5 65624) ∧
      (([65624, 65832] : List Nat) = [65624] → (remove_block heap5 65624).free_list_head = 0) ∧
      (([65624, 65832] : List Nat).head? ≠ some 65624 →
        (remove_block heap5 65624).free_list_head = heap5.free_list_head)) :=
  ⟨⟨seg5, sep5, bound5, by decide⟩,
    remove_block_splices heap5 [65624, 65832] 65624 65832 seg5 sep5 bound5 (by decide)⟩

/-- C18, instance: the state reached by four allocations and the release of
the second one. -/
theorem tags_consistent_witness :
    Reachable heap5 [65792, 65760, 65552] ∧
    ((∀ blk ∈ examine_heap heap5, heap5.mem (blk.1 + blk.2.1 - 8) = heap5.mem blk.1) ∧
      heap5.heap_start + ((examine_heap heap5).map (fun b => b.2.1)).sum =
        heap5.mem_brk - 8) :=
  ⟨reach5, tags_consistent heap5 [65792, 65760, 65552] reach5⟩

/-- C19, instance: the state reached by four allocations and the release of
the second one. -/
theorem block_sizes_witness :
    Reachable heap5 [65792, 65760, 65552] ∧
    ((∀ blk ∈ examine_heap heap5, get_size heap5 blk.1 = blk.2.1 ∧ blk.2.1 % 16 = 0 ∧
        min_block_size ≤ blk.2.1) ∧
      heap5.heap_start + ((examine_heap heap5).map (fun b => b.2.1)).sum =
        heap5.mem_brk - 8) :=
  ⟨reach5, block_sizes heap5 [65792, 65760, 65552] reach5⟩

/-- C20, instance: the state reached by four allocations and the release of
the second one. -/
theorem sentinels_tiling_witness :
    Reachable heap5 [65792, 65760, 65552] ∧
    (get_size heap5 (heap5.heap_start - 8) = 0 ∧
      get_alloc heap5 (heap5.heap_start - 8) = true ∧
      heap5.heap_start - 8 = heap5.mem_start_brk ∧
      (∀ x ∈ (examine_heap heap5).head?, x.1 = heap5.heap_start) ∧
      List.Chain' (fun x y : Nat × Nat × Bool => y.1 = x.1 + x.2.1) (examine_heap heap5) ∧
      (∀ blk ∈ examine_heap heap5, get_size heap5 blk.1 = blk.2.1 ∧ 0 < blk.2.1 ∧
        blk.1 + blk.2.1 ≤ heap5.mem_brk - 8) ∧
      heap5.heap_start + ((examine_heap heap5).map (fun b => b.2.1)).sum =
        heap5.mem_brk - 8 ∧
      get_size heap5 (heap5.mem_brk - 8) = 0 ∧ get_alloc heap5 (heap5.mem_brk - 8) = true ∧
      ((examine_heap heap5).map (fun b => b.2.1)).sum =
        heap5.mem_brk - heap5.mem_start_brk - 16) :=
  ⟨reach5, sentinels_tiling heap5 [65792, 65760, 65552] reach5⟩

/-- C21, instance: the state reached by four allocations and the release of
the second one, with three allocated blocks. -/
theorem others_untouched_witness :
    WF heap5 ∧
    ((∀ (s : Nat) (g : Bool), s ≤ 2 ^ 62 →
      ∃ h2 p, mm_malloc heap5 s g = some (h2, p) ∧
        (∀ blk ∈ examine_heap heap5, blk.2.2 = true →
          blk ∈ examine_heap h2 ∧
          ∀ w, blk.1 ≤ w → w < blk.1 + blk.2.1 → h2.mem w = heap5.mem w) ∧
        (p ≠ 0 → ∃ x S, p = x + 8 ∧ (x, S, true) ∈ examine_heap h2 ∧
          (∀ blk ∈ examine_heap heap5, blk.2.2 = true → blk.1 ≠ x) ∧
          ∀ blk ∈ examine_heap h2, blk.1 ≠ x →
            x + S ≤ blk.1 ∨ blk.1 + blk.2.1 ≤ x)) ∧
    (∀ p, Allocated heap5 p →
      ∀ blk ∈ examine_heap heap5, blk.2.2 = true → blk.1 + 8 ≠ p →
        blk ∈ examine_heap (mm_free heap5 p) ∧
        ∀ w, blk.1 ≤ w → w < blk.1 + blk.2.1 → (mm_free heap5 p).mem w = heap5.mem w)) :=
  ⟨reachable_wf heap5 _ reach5, others_untouched heap5 (reachable_wf heap5 _ reach5)⟩

end Malloc
